import Mathlib

/-!
# LR(0) table construction and shift-reduce driver

A shallow embedding of `src/LR(0).cpp`.

* `std::set<T>` is the list of its elements in iteration (ascending) order,
  `std::map<K,V>` the list of its entries in ascending key order;
  `std::queue<T>` is a list popped at the head and pushed at the tail.
* `std::string` is `String`, the text that its bytes encode (UTF-8).
  `operator<` on strings is the lexicographic comparison of the characters
  (`strLt`), which is the order of the encoded bytes; `operator<` on
  `vector<string>` is `std::lexicographical_compare` (`lexLt strLt`).
  Where the code works on single bytes (`buffer[index]`, `substr(1)`, the
  argument of `stoi`) the model takes the bytes of the text (`bytes`), each
  byte held as the character of its code.
* `int` state and production indices are `Nat` where the code only ever
  produces non-negative values, `Int` where a value is decoded from text
  (`stoi`) or compared after conversion (`Item.dot`).
* Loops that are not bounded by a container traversal take a fuel argument
  and return `none` when it runs out.
-/

namespace LR0

/-! ## Containers -/

/-- Lexicographic comparison `std::lexicographical_compare` with element order `lt`. -/
def lexLt {α : Type} (lt : α → α → Bool) : List α → List α → Bool
  | [], [] => false
  | [], _ :: _ => true
  | _ :: _, [] => false
  | a :: as, b :: bs => if lt a b then true else if lt b a then false else lexLt lt as bs

/-- Comparison `operator<` of `std::string`: lexicographic on the characters. -/
def strLt (a b : String) : Bool :=
  lexLt (fun x y => decide (x.toNat < y.toNat)) a.data b.data

/-- Insertion of `x` at its place in an ascending list. -/
def orderedIns {α : Type} (lt : α → α → Bool) (x : α) : List α → List α
  | [] => [x]
  | y :: ys => if lt x y then x :: y :: ys else y :: orderedIns lt x ys

/-- Member function `std::set::insert`: the new set and whether `x` was
inserted (`.second` of the returned pair). The comparisons used are strict
total orders, so an element equivalent to `x` is an element equal to `x`. -/
def setInsert {α : Type} [DecidableEq α] (lt : α → α → Bool) (x : α) (s : List α) :
    List α × Bool :=
  if x ∈ s then (s, false) else (orderedIns lt x s, true)

/-- Member function `std::map::find`: the value stored under `k`, if any. -/
def mapFind {K V : Type} [DecidableEq K] (k : K) : List (K × V) → Option V
  | [] => none
  | e :: rest => if k = e.1 then some e.2 else mapFind k rest

/-- Assignment `m[k] = v` on a `std::map`: the value under `k` is replaced
when the key is present, a new entry is put at its place otherwise. -/
def mapSet {K V : Type} [DecidableEq K] (lt : K → K → Bool) (k : K) (v : V)
    (m : List (K × V)) : List (K × V) :=
  if (mapFind k m).isSome then m.map (fun e => if e.1 = k then (k, v) else e)
  else orderedIns (fun a b => lt a.1 b.1) (k, v) m

/-- Comparison `operator<` of `std::pair<int, string>`. -/
def pairLt (a b : Nat × String) : Bool :=
  if a.1 < b.1 then true else if b.1 < a.1 then false else strLt a.2 b.2

/-- Comparison `operator<` of `int` keys. -/
def natLt (a b : Nat) : Bool := decide (a < b)

/-! ## Data model -/

/-- The `struct Grammar`: a nonterminal and its alternatives. -/
structure Grammar where
  value : String
  right : List (List String)
  deriving DecidableEq

/-- The `struct Item`. -/
structure Item where
  head : String
  production : List String
  dot : Int
  deriving DecidableEq

/-- The `Item::operator<`: by head, then dot, then production. -/
def Item.lt (a b : Item) : Bool :=
  if a.head ≠ b.head then strLt a.head b.head
  else if a.dot ≠ b.dot then decide (a.dot < b.dot)
  else lexLt strLt a.production b.production

/-- The global variables read by the construction: `grammars`,
`grammarindex` (a dense `map<int,Grammar>`, key = position), `startSymbol`,
`terminals`, `nonTerminals`. -/
structure Env where
  grammars : List (String × Grammar)
  grammarindex : List Grammar
  startSymbol : String
  terminals : List String
  nonTerminals : List String

/-- The expression `grammars[B]`: the stored grammar, or a default-constructed one. -/
def Env.grammarsAt (G : Env) (B : String) : Grammar :=
  match mapFind B G.grammars with
  | some g => g
  | none => ⟨"", []⟩

/-- The symbol `production[dot]` when `dot < production.size()` (the `int`
dot is converted to `size_t`, so a negative dot is never below the size). -/
def Item.next (it : Item) : Option String :=
  if 0 ≤ it.dot then it.production[it.dot.toNat]? else none

/-- The test `item.dot == item.production.size()`. -/
def Item.complete (it : Item) : Bool :=
  decide (it.dot = (it.production.length : Int))

/-! ## closure -/

/-- The test `prod.size() == 1 && prod[0] == "#"`. -/
def isEpsilon (prod : List String) : Bool :=
  prod.length == 1 && prod[0]? == some "#"

/-- The item built for alternative `prod` of `B` inside `closure`. -/
def newItem (B : String) (prod : List String) : Item :=
  if isEpsilon prod then ⟨B, prod, 1⟩ else ⟨B, prod, 0⟩

/-- The loop `for (const auto &prod : grammars[B].right)` of `closure`, on the
pair (closure set, worklist). -/
def closureAdd (B : String) : List (List String) → List Item × List Item → List Item × List Item
  | [], st => st
  | prod :: rest, st =>
    let r := setInsert Item.lt (newItem B prod) st.1
    closureAdd B rest (r.1, if r.2 then st.2 ++ [newItem B prod] else st.2)

/-- The body of the `while` loop of `closure` for the popped item `current`. -/
def closureStep (G : Env) (current : Item) (st : List Item × List Item) :
    List Item × List Item :=
  match current.next with
  | some B => if B ∈ G.nonTerminals then closureAdd B (G.grammarsAt B).right st else st
  | none => st

/-- The `while (!worklist.empty())` loop of `closure`. -/
def closureLoop (G : Env) : Nat → List Item → List Item → Option (List Item)
  | _, cl, [] => some cl
  | 0, _, _ :: _ => none
  | fuel + 1, cl, current :: wl =>
    closureLoop G fuel (closureStep G current (cl, wl)).1 (closureStep G current (cl, wl)).2

/-- All items `closure` can generate: one per alternative of each nonterminal. -/
def initItems (G : Env) : List Item :=
  G.nonTerminals.flatMap (fun B => (G.grammarsAt B).right.map (newItem B))

/-- The function `closure`. -/
def closure (G : Env) (items : List Item) : Option (List Item) :=
  closureLoop G (items.length + (initItems G).length) items items

/-! ## constructDFA -/

/-- The loop over `states[current].items` filling `partitions`. -/
def partitionItems : List Item → List (String × List Item) → List (String × List Item)
  | [], parts => parts
  | item :: rest, parts =>
    match item.next with
    | some symbol =>
      partitionItems rest
        (mapSet strLt symbol
          (setInsert Item.lt { item with dot := item.dot + 1 }
            ((mapFind symbol parts).getD [])).1 parts)
    | none => partitionItems rest parts

/-- The globals `states`, `transitions` and the local `worklist` of `constructDFA`. -/
structure DFA where
  states : List (List Item)
  transitions : List ((Nat × String) × Nat)
  worklist : List Nat

/-- The search `for (int i = 0; i < states.size(); i++)` for a state equal to
`newClosure`, on the states from index `i` on: the first index found. -/
def findState (newClosure : List Item) : List (List Item) → Nat → Option Nat
  | [], _ => none
  | s :: rest, i => if s = newClosure then some i else findState newClosure rest (i + 1)

/-- The loop `for (const auto &partition : partitions)` of `constructDFA`. -/
def processPartitions (G : Env) (current : Nat) :
    List (String × List Item) → DFA → Option DFA
  | [], A => some A
  | (symbol, items) :: rest, A =>
    match closure G items with
    | none => none
    | some newClosure =>
      match findState newClosure A.states 0 with
      | some stateIndex =>
        processPartitions G current rest
          { states := A.states
            transitions := mapSet pairLt (current, symbol) stateIndex A.transitions
            worklist := A.worklist }
      | none =>
        processPartitions G current rest
          { states := A.states ++ [newClosure]
            transitions := mapSet pairLt (current, symbol) A.states.length A.transitions
            worklist := A.worklist ++ [A.states.length] }

/-- The `while (!worklist.empty())` loop of `constructDFA`. -/
def dfaLoop (G : Env) : Nat → DFA → Option DFA
  | _, ⟨states, transitions, []⟩ => some ⟨states, transitions, []⟩
  | 0, ⟨_, _, _ :: _⟩ => none
  | fuel + 1, ⟨states, transitions, current :: wl⟩ =>
    match processPartitions G current
        (partitionItems (states.getD current []) []) ⟨states, transitions, wl⟩ with
    | none => none
    | some A1 => dfaLoop G fuel A1

/-- Every item a state can contain: each alternative of each nonterminal and
the start production, with every dot position. -/
def itemUniverse (G : Env) : List Item :=
  (G.nonTerminals.flatMap (fun B => (G.grammarsAt B).right.map (fun p => (B, p)))
    ++ (G.grammarsAt G.startSymbol).right.map (fun p => (G.startSymbol, p))).flatMap
    (fun hp => (List.range (hp.2.length + 1)).map (fun (d : Nat) => Item.mk hp.1 hp.2 (Int.ofNat d)))

/-- The function `constructDFA`, started with empty `states` and `transitions`;
`none` when `grammars[startSymbol].right[0]` does not exist. -/
def constructDFA (G : Env) : Option DFA :=
  match (G.grammarsAt G.startSymbol).right with
  | [] => none
  | prod :: _ =>
    match closure G [⟨G.startSymbol, prod, 0⟩] with
    | none => none
    | some init =>
      dfaLoop G (2 ^ (itemUniverse G).length) { states := [init], transitions := [], worklist := [0] }

/-! ## constructLR0Table -/

/-- A line "Conflict detected at state ... on symbol ...: existing and proposed". -/
structure Conflict where
  state : Nat
  symbol : String
  existing : String
  proposed : String
  deriving DecidableEq

/-- The globals `transitions`, `actionTable`, `gotoTable` and the conflict
lines printed so far. -/
structure Tables where
  transitions : List ((Nat × String) × Nat)
  actionTable : List (Nat × List (String × String))
  gotoTable : List (Nat × List (String × Nat))
  conflicts : List Conflict

/-- The lookup `actionTable[i].find(symbol)`. -/
def Tables.action (T : Tables) (i : Nat) (symbol : String) : Option String :=
  match mapFind i T.actionTable with
  | some row => mapFind symbol row
  | none => none

/-- The assignment `actionTable[i][symbol] = action`. -/
def Tables.setAction (T : Tables) (i : Nat) (symbol action : String) : Tables :=
  { T with actionTable :=
      mapSet natLt i (mapSet strLt symbol action ((mapFind i T.actionTable).getD [])) T.actionTable }

/-- The conflict-checked write used for shift and reduce actions: report when
the cell holds a different action, write otherwise. -/
def Tables.propose (T : Tables) (i : Nat) (symbol action : String) : Tables :=
  match T.action i symbol with
  | some old =>
    if old ≠ action then { T with conflicts := T.conflicts ++ [⟨i, symbol, old, action⟩] }
    else T.setAction i symbol action
  | none => T.setAction i symbol action

/-- The conflict-checked write of the accept action: report when the cell
`actionTable[i]["$"]` holds anything, write otherwise. -/
def Tables.proposeAccept (T : Tables) (i : Nat) : Tables :=
  match T.action i "$" with
  | some old => { T with conflicts := T.conflicts ++ [⟨i, "$", old, "acc"⟩] }
  | none => T.setAction i "$" "acc"

/-- The expression `transitions[{i, symbol}]`, which inserts the value 0 when
the key is absent. -/
def Tables.transitionAt (T : Tables) (i : Nat) (symbol : String) : Nat × Tables :=
  match mapFind (i, symbol) T.transitions with
  | some n => (n, T)
  | none => (0, { T with transitions := mapSet pairLt (i, symbol) 0 T.transitions })

/-- The shift part of the item loop body (`item.dot < item.production.size()`). -/
def tableShift (G : Env) (i : Nat) (item : Item) (T : Tables) : Tables :=
  match item.next with
  | some symbol =>
    if symbol ∈ G.terminals then
      (T.transitionAt i symbol).2.propose i symbol
        ("S" ++ toString (T.transitionAt i symbol).1)
    else T
  | none => T

/-- The loop `for (const string& terminal : terminals)` writing `R idx`. -/
def tableReduceAll (i idx : Nat) : List String → Tables → Tables
  | [], T => T
  | terminal :: rest, T => tableReduceAll i idx rest (T.propose i terminal ("R" ++ toString idx))

/-- The loop `for (int idx = 0; idx < grammarindex.size(); ++idx)`, on the
productions from position `idx` on. -/
def tableReduce (G : Env) (i : Nat) (item : Item) : Nat → List Grammar → Tables → Tables
  | _, [], T => T
  | idx, g :: rest, T =>
    if g.value = item.head ∧ g.right.head? = some item.production then
      tableReduce G i item (idx + 1) rest (tableReduceAll i idx G.terminals T)
    else tableReduce G i item (idx + 1) rest T

/-- The body of the loop over the items of state `i`. -/
def tableItem (G : Env) (i : Nat) (item : Item) (T : Tables) : Tables :=
  if item.complete then
    if item.head ≠ G.startSymbol then tableReduce G i item 0 G.grammarindex (tableShift G i item T)
    else (tableShift G i item T).proposeAccept i
  else tableShift G i item T

/-- The loop `for (const auto& nt : nonTerminals)` filling `gotoTable[i]`. -/
def tableGoto (i : Nat) : List String → Tables → Tables
  | [], T => T
  | nt :: rest, T =>
    match mapFind (i, nt) T.transitions with
    | some n =>
      tableGoto i rest
        { T with gotoTable :=
            mapSet natLt i (mapSet strLt nt n ((mapFind i T.gotoTable).getD [])) T.gotoTable }
    | none => tableGoto i rest T

/-- The loop `for (int i = 0; i < states.size(); i++)`, on the states from
index `i` on. -/
def tableStates (G : Env) : Nat → List (List Item) → Tables → Tables
  | _, [], T => T
  | i, items :: rest, T =>
    tableStates G (i + 1) rest (tableGoto i G.nonTerminals (items.foldl (fun T item => tableItem G i item T) T))

/-- The function `constructLR0Table`, started with empty tables. -/
def constructLR0Table (G : Env) (states : List (List Item))
    (transitions : List ((Nat × String) × Nat)) : Tables :=
  tableStates G 0 states ⟨transitions, [], [], []⟩

/-! ## analyzeLR0 -/

/-- The test `isspace` of the C locale. -/
def isSpace (c : Char) : Bool :=
  c.toNat = 32 ∨ (9 ≤ c.toNat ∧ c.toNat ≤ 13)

/-- The value of the leading decimal digits, and whether there was one. -/
def leadingDigits : List Char → Nat × Bool → Nat × Bool
  | [], acc => acc
  | c :: cs, acc =>
    if 48 ≤ c.toNat ∧ c.toNat ≤ 57 then leadingDigits cs (acc.1 * 10 + (c.toNat - 48), true)
    else acc

/-- The function `std::stoi`: skip white space, read an optional sign and
decimal digits; `none` when it throws (no digit, or out of the `int` range). -/
def stoi (s : List Char) : Option Int :=
  let body := s.dropWhile isSpace
  let signed : Bool × List Char :=
    match body with
    | '-' :: r => (true, r)
    | '+' :: r => (false, r)
    | r => (false, r)
  let d := leadingDigits signed.2 (0, false)
  let v : Int := if signed.1 then -(d.1 : Int) else (d.1 : Int)
  if d.2 ∧ -2147483648 ≤ v ∧ v ≤ 2147483647 then some v else none

/-- The bytes of the UTF-8 encoding of a character, each held as the
character of its code. -/
def utf8 (c : Char) : List Char :=
  if c.toNat < 128 then [c]
  else if c.toNat < 2048 then
    [Char.ofNat (192 + c.toNat / 64), Char.ofNat (128 + c.toNat % 64)]
  else if c.toNat < 65536 then
    [Char.ofNat (224 + c.toNat / 4096), Char.ofNat (128 + c.toNat / 64 % 64),
      Char.ofNat (128 + c.toNat % 64)]
  else
    [Char.ofNat (240 + c.toNat / 262144), Char.ofNat (128 + c.toNat / 4096 % 64),
      Char.ofNat (128 + c.toNat / 64 % 64), Char.ofNat (128 + c.toNat % 64)]

/-- The bytes of the `std::string` that holds the text `s`. -/
def bytes (s : String) : List Char := s.data.flatMap utf8

/-- The lookup `actionTable[i].find(string(1, b))` for a byte `b`: the entry
of row `i` whose key is the string made of the single byte `b`. -/
def Tables.actionByte (T : Tables) (i : Nat) (b : Char) : Option String :=
  match mapFind i T.actionTable with
  | some row => (row.find? (fun e => decide (bytes e.1 = [b]))).map Prod.snd
  | none => none

/-- The read `actionTable[s][string(1, b)]`, the empty string when the cell is
absent. -/
def Tables.actionAtByte (T : Tables) (s : Int) (b : Char) : String :=
  if s < 0 then "" else (T.actionByte s.toNat b).getD ""

/-- The read `gotoTable[s][head]`, 0 when the cell is absent. -/
def Tables.gotoAt (T : Tables) (s : Int) (head : String) : Nat :=
  if s < 0 then 0
  else
    match mapFind s.toNat T.gotoTable with
    | some row => (mapFind head row).getD 0
    | none => 0

/-- How a run of the driver ends: it prints Accept, prints Error, leaves the
loop with an empty stack, or faults (an exception of `stoi`, or a read or pop
outside a container). -/
inductive Verdict
  | accept
  | error
  | emptied
  | fault
  deriving DecidableEq

/-- One step of the driver: go on with a new stack and cursor, or stop. -/
inductive Step
  | next (stack : List String) (index : Nat)
  | done (v : Verdict)
  deriving DecidableEq

/-- The action `actionTable[stoi(currentState.substr(1))][currentSymbol]`
looked up at the head of the loop body, for the byte `buffer[index]` (the
byte 0 when `index` is the size of the buffer); `none` when `stoi` throws or
`index` lies beyond the size of the buffer. `buffer` holds the bytes of the
input followed by `$`, `substr(1)` drops the first byte of the entry. The
stack is a list with its top first. -/
def lookupAction (T : Tables) (buffer : List Char) (stack : List String) (index : Nat) :
    Option String :=
  match stack with
  | [] => none
  | currentState :: _ =>
    if buffer.length < index then none
    else
      match stoi ((bytes currentState).drop 1) with
      | none => none
      | some s => some (T.actionAtByte s (buffer.getD index (Char.ofNat 0)))

/-- The body of the `while (!stateStack.empty())` loop of `analyzeLR0`. A
shift pushes the byte `buffer[index]` followed by the action without its first
byte `S`: an action is found only for a byte below 128, a character of its
own, so the entry pushed is the text of that character and of the characters
after `S`. -/
def analyzeStep (G : Env) (T : Tables) (buffer : List Char) (stack : List String)
    (index : Nat) : Step :=
  match stack with
  | [] => Step.done Verdict.emptied
  | _ :: _ =>
    match lookupAction T buffer stack index with
    | none => Step.done Verdict.fault
    | some action =>
      match bytes action with
      | 'S' :: _ =>
        Step.next (String.mk (buffer.getD index (Char.ofNat 0) :: action.data.drop 1) :: stack)
          (index + 1)
      | 'R' :: rest =>
        match stoi rest with
        | none => Step.done Verdict.fault
        | some prodIndex =>
          if prodIndex < 0 then Step.done Verdict.fault
          else
            match G.grammarindex[prodIndex.toNat]? with
            | some ⟨head, body :: _⟩ =>
              match stack.drop body.length with
              | [] => Step.done Verdict.fault
              | top :: below =>
                match stoi ((bytes top).drop 1) with
                | none => Step.done Verdict.fault
                | some nextState =>
                  Step.next ((head ++ toString (T.gotoAt nextState head)) :: top :: below) index
            | _ => Step.done Verdict.fault
      | _ => if action = "acc" then Step.done Verdict.accept else Step.done Verdict.error

/-- A line of the trace: the stack (bottom first), the remaining bytes of the
buffer (each as the character of its code), the action. -/
structure TraceRow where
  stack : List String
  input : String
  action : String
  deriving DecidableEq

/-- The `while` loop of `analyzeLR0`: the printed rows and the verdict, `none`
when the fuel runs out first. -/
def analyzeLoop (G : Env) (T : Tables) (buffer : List Char) :
    Nat → List String → Nat → List TraceRow × Option Verdict
  | 0, _, _ => ([], none)
  | fuel + 1, stack, index =>
    let row : List TraceRow :=
      match lookupAction T buffer stack index with
      | some action => [⟨stack.reverse, String.mk (buffer.drop index), action⟩]
      | none => []
    match analyzeStep G T buffer stack index with
    | Step.next stack1 index1 =>
      (row ++ (analyzeLoop G T buffer fuel stack1 index1).1,
        (analyzeLoop G T buffer fuel stack1 index1).2)
    | Step.done v => (row, some v)

/-- The function `analyzeLR0` run for at most `fuel` iterations. -/
def analyzeLR0 (G : Env) (T : Tables) (input : String) (fuel : Nat) :
    List TraceRow × Option Verdict :=
  analyzeLoop G T (bytes input ++ ['$']) fuel ["$0"] 0

/-! ## inputGrammars, GetTerminal, main -/

/-- The globals written by `inputGrammars` and its local flag `first`. -/
structure Loaded where
  grammars : List (String × Grammar)
  startSymbol : String
  first : Bool

/-- The end of the loop body of `inputGrammars`, for a line split into the
nonterminal and its list of alternatives. -/
def inputLine (L : Loaded) (decl : String × List (List String)) : Loaded :=
  if L.first then
    { grammars :=
        mapSet strLt (decl.1 ++ "~") ⟨decl.1 ++ "~", [[decl.1]]⟩
          (mapSet strLt decl.1 ⟨decl.1, decl.2⟩ L.grammars)
      startSymbol := decl.1 ++ "~"
      first := false }
  else { L with grammars := mapSet strLt decl.1 ⟨decl.1, decl.2⟩ L.grammars }

/-- The function `inputGrammars` on the lines already split. -/
def inputGrammars (decls : List (String × List (List String))) : Loaded :=
  decls.foldl inputLine ⟨[], "", true⟩

/-- The loop of `main` filling `grammarindex`. -/
def indexGrammars (grammars : List (String × Grammar)) : List Grammar :=
  grammars.flatMap (fun entry => entry.2.right.map (fun production => ⟨entry.1, [production]⟩))

/-- The function `GetTerminal`: the sets `terminals` and `nonTerminals`. -/
def GetTerminal (grammars : List (String × Grammar)) : List String × List String :=
  let nonTerminals := grammars.foldl (fun s entry => (setInsert strLt entry.1 s).1) []
  let symbols := grammars.flatMap (fun entry => entry.2.right.flatMap id)
  let terminals :=
    symbols.foldl
      (fun s str => if str ∉ nonTerminals ∧ str ≠ "#" then (setInsert strLt str s).1 else s) []
  ((setInsert strLt "$" terminals).1, nonTerminals)

/-- The globals after `inputGrammars`, the index loop and `GetTerminal` of `main`. -/
def loadEnv (decls : List (String × List (List String))) : Env :=
  { grammars := (inputGrammars decls).grammars
    grammarindex := indexGrammars (inputGrammars decls).grammars
    startSymbol := (inputGrammars decls).startSymbol
    terminals := (GetTerminal (inputGrammars decls).grammars).1
    nonTerminals := (GetTerminal (inputGrammars decls).grammars).2 }

/-- The calls `constructDFA(); constructLR0Table();` of `main`. -/
def buildTables (G : Env) : Option Tables :=
  match constructDFA G with
  | none => none
  | some A => some (constructLR0Table G A.states A.transitions)

/-! ## Definitions used by the statements and proofs -/

/-- An item set (as a predicate) satisfies the closure rule of grammar `G`. -/
def Closed (G : Env) (S : Item → Prop) : Prop :=
  ∀ it B, S it → it.next = some B → B ∈ G.nonTerminals →
    ∀ g ∈ (G.grammarsAt B).right,
      (g = ["#"] → S ⟨B, g, 1⟩) ∧ (g ≠ ["#"] → S ⟨B, g, 0⟩)

/-- The item `it` has been expanded into `cl`. -/
def Expanded (G : Env) (cl : List Item) (it : Item) : Prop :=
  ∀ B, it.next = some B → B ∈ G.nonTerminals →
    ∀ g ∈ (G.grammarsAt B).right, newItem B g ∈ cl

/-- The invariant of the worklist loop of `closure`. -/
structure ClosureInv (G : Env) (X : List Item) (cl wl : List Item) : Prop where
  seed : ∀ it ∈ X, it ∈ cl
  queued : ∀ it ∈ wl, it ∈ cl
  expanded : ∀ it ∈ cl, it ∈ wl ∨ Expanded G cl it
  least : ∀ S : Item → Prop, (∀ it ∈ X, S it) → Closed G S → ∀ it ∈ cl, S it

/-- The number of items of `D` not yet in `cl`. -/
def missing (D cl : List Item) : Nat := (D.filter (fun x => !decide (x ∈ cl))).length

/-- A Boolean comparison is a strict total order. -/
structure StrictTotal {α : Type} (lt : α → α → Bool) : Prop where
  irrefl : ∀ a, lt a a = false
  trans : ∀ a b c, lt a b = true → lt b c = true → lt a c = true
  connex : ∀ a b, lt a b = false → lt b a = false → a = b

/-- The list is strictly ascending: it is the iteration order of a `std::set`. -/
def Ascending {α : Type} (lt : α → α → Bool) (l : List α) : Prop :=
  l.Pairwise (fun a b => lt a b = true)

/-- The item with the dot advanced by one (`newItem.dot++`). -/
def advance (it : Item) : Item := { it with dot := it.dot + 1 }

/-- The items of `s` with the dot before `X`, each with the dot advanced by one. -/
def gotoKernel (s : List Item) (X : String) : List Item :=
  (s.filter (fun it => decide (it.next = some X))).map advance

/-- The partition map holds, for the items `pre` seen so far, one ascending
set per symbol after a dot. -/
structure PartInv (pre : List Item) (parts : List (String × List Item)) : Prop where
  found : ∀ X items, mapFind X parts = some items →
    Ascending Item.lt items ∧ (∀ it, it ∈ items ↔ it ∈ gotoKernel pre X) ∧
      ∃ it0 ∈ pre, it0.next = some X
  absent : ∀ X, mapFind X parts = none → ∀ it0 ∈ pre, it0.next ≠ some X
  entries : ∀ X items, (X, items) ∈ parts → mapFind X parts = some items

/-- A state is an ascending list of items of the universe. -/
def StateOK (G : Env) (s : List Item) : Prop :=
  Ascending Item.lt s ∧ ∀ it ∈ s, it ∈ itemUniverse G

/-- The transition `(i, X) → j` leads to the closure of the kernel of state
`i` on `X`. -/
def TransOK (G : Env) (states : List (List Item)) (i : Nat) (X : String) (j : Nat) : Prop :=
  ∃ s t c, states[i]? = some s ∧ states[j]? = some t ∧ (∃ it ∈ s, it.next = some X) ∧
    closure G (gotoKernel s X) = some c ∧ ∀ it, it ∈ t ↔ it ∈ c

/-- The invariant of `constructDFA`: the states below `k` are processed, state
`k` is processed for the symbols `cur`. -/
structure DFACore (G : Env) (init : List Item) (k : Nat) (cur : List String) (A : DFA) :
    Prop where
  first : A.states[0]? = some init
  nodup : A.states.Nodup
  ok : ∀ s ∈ A.states, StateOK G s
  sound : ∀ i X j, mapFind (i, X) A.transitions = some j →
    (i < k ∨ (i = k ∧ X ∈ cur)) ∧ TransOK G A.states i X j
  complete : ∀ i X, (i < k ∨ (i = k ∧ X ∈ cur)) → ∀ s, A.states[i]? = some s →
    (∃ it ∈ s, it.next = some X) → (mapFind (i, X) A.transitions).isSome = true

/-- What `processPartitions` needs of a partition `(X, items)` of state `s`. -/
def PartOK (s : List Item) (X : String) (items : List Item) : Prop :=
  Ascending Item.lt items ∧ (∀ it, it ∈ items ↔ it ∈ gotoKernel s X) ∧
    ∃ it0 ∈ s, it0.next = some X

/-- The table `T1` keeps every action cell and every conflict line of `T`. -/
structure Ext (T T1 : Tables) : Prop where
  action : ∀ i sym a, T.action i sym = some a → T1.action i sym = some a
  conflicts : ∀ c ∈ T.conflicts, c ∈ T1.conflicts

/-- The run leading to `T` performed the conflict-checked write of `a` into
the cell `(i, sym)`. -/
def Hit (i : Nat) (sym a : String) (T : Tables) : Prop :=
  ∃ T0 : Tables, Ext (T0.propose i sym a) T

/-- Example 1 of the specification: `S -> a A`, `A -> c A | d`. -/
def grammarSA : List (String × List (List String)) :=
  [("S", [["a", "A"]]), ("A", [["c", "A"], ["d"]])]

/-- The ambiguous grammar `E -> E + E | id`. -/
def grammarE : List (String × List (List String)) :=
  [("E", [["E", "+", "E"], ["id"]])]

/-- Example 3 of the specification: `S -> A`, `A -> #`. -/
def grammarEps : List (String × List (List String)) :=
  [("S", [["A"]]), ("A", [["#"]])]

/-- A grammar whose second line declares the augmented start symbol `S~` again,
with three alternatives. -/
def grammarTwoAccept : List (String × List (List String)) :=
  [("S", [["a"]]), ("S~", [["S~", "S~"], ["S~"], ["#"]])]

/-- The states `constructDFA` builds for `grammarSA`. -/
def statesSA : List (List Item) :=
  [[⟨"S", ["a", "A"], 0⟩, ⟨"S~", ["S"], 0⟩],
   [⟨"S~", ["S"], 1⟩],
   [⟨"A", ["c", "A"], 0⟩, ⟨"A", ["d"], 0⟩, ⟨"S", ["a", "A"], 1⟩],
   [⟨"S", ["a", "A"], 2⟩],
   [⟨"A", ["c", "A"], 0⟩, ⟨"A", ["d"], 0⟩, ⟨"A", ["c", "A"], 1⟩],
   [⟨"A", ["d"], 1⟩],
   [⟨"A", ["c", "A"], 2⟩]]

/-- The transitions `constructDFA` builds for `grammarSA`. -/
def transitionsSA : List ((Nat × String) × Nat) :=
  [((0, "S"), 1), ((0, "a"), 2), ((2, "A"), 3), ((2, "c"), 4), ((2, "d"), 5), ((4, "A"), 6),
    ((4, "c"), 4), ((4, "d"), 5)]

/-- The character is a decimal digit. -/
def IsDigit (c : Char) : Prop := 48 ≤ c.toNat ∧ c.toNat ≤ 57

/-- The fold of `leadingDigits` on one digit. -/
def digitStep (acc : Nat) (c : Char) : Nat := acc * 10 + (c.toNat - 48)

/-- The entry of `gotoTable` for state `s` and nonterminal `head`, if there is
one (`gotoTable[s].find(head)`). -/
def Tables.goto (T : Tables) (s : Int) (head : String) : Option Nat :=
  if s < 0 then none
  else
    match mapFind s.toNat T.gotoTable with
    | some row => mapFind head row
    | none => none

/-- The grammar `S -> a A | b`, `A -> #`. -/
def grammarEpsAB : List (String × List (List String)) :=
  [("S", [["a", "A"], ["b"]]), ("A", [["#"]])]

/-- The grammar `E -> id`, whose terminal `id` has two characters. -/
def grammarId : List (String × List (List String)) :=
  [("E", [["id"]])]

/-- The states `constructDFA` builds for `grammarEpsAB`. -/
def statesEpsAB : List (List Item) :=
  [[⟨"S", ["a", "A"], 0⟩, ⟨"S", ["b"], 0⟩, ⟨"S~", ["S"], 0⟩],
   [⟨"S~", ["S"], 1⟩],
   [⟨"A", ["#"], 1⟩, ⟨"S", ["a", "A"], 1⟩],
   [⟨"S", ["b"], 1⟩],
   [⟨"S", ["a", "A"], 2⟩]]

/-- The transitions `constructDFA` builds for `grammarEpsAB`. -/
def transitionsEpsAB : List ((Nat × String) × Nat) :=
  [((0, "S"), 1), ((0, "a"), 2), ((0, "b"), 3), ((2, "A"), 4)]

/-- The grammar of the single line `$ -> a`. -/
def grammarDollar : List (String × List (List String)) :=
  [("$", [["a"]])]

/-- The production table follows the declaration order: of two productions,
the one declared first (an earlier declaration, or an earlier alternative of
the same declaration) has the smaller index. -/
def IndexInDeclarationOrder (decls : List (String × List (List String))) : Prop :=
  ∀ (i j a b p q : Nat) (d1 d2 : String × List (List String)) (x y : List String),
    decls[i]? = some d1 → decls[j]? = some d2 → d1.2[a]? = some x → d2.2[b]? = some y →
    (i < j ∨ (i = j ∧ a < b)) →
    (loadEnv decls).grammarindex[p]? = some ⟨d1.1, [x]⟩ →
    (loadEnv decls).grammarindex[q]? = some ⟨d2.1, [y]⟩ → p < q

/-- The keys of the map are strictly ascending. -/
def KeysAscending {V : Type} (m : List (String × V)) : Prop :=
  m.Pairwise (fun a b => strLt a.1 b.1 = true)

/-- The grammar of the single line `# -> a`: the first nonterminal has the
name of the epsilon marker. -/
def grammarHash : List (String × List (List String)) :=
  [("#", [["a"]])]

/-- The item is well formed in grammar `G`: its body is an alternative of its
head, the dot lies between 0 and the length of the body, and an item whose
body is the single epsilon marker has its dot at 1. -/
def WellFormed (G : Env) (it : Item) : Prop :=
  it.production ∈ (G.grammarsAt it.head).right ∧ 0 ≤ it.dot ∧
    it.dot ≤ (it.production.length : Int) ∧ (it.production = ["#"] → it.dot = 1)

/-- The items pushed on the worklist by the `while` loop of `closure` after
the seed, in order: each iteration pushes what its step appends to the
worklist. -/
def closurePushes (G : Env) : Nat → List Item → List Item → List Item
  | _, _, [] => []
  | 0, _, _ :: _ => []
  | fuel + 1, cl, current :: wl =>
    (closureStep G current (cl, wl)).2.drop wl.length ++
      closurePushes G fuel (closureStep G current (cl, wl)).1 (closureStep G current (cl, wl)).2

/-- The action `a` is one that `constructLR0Table` writes in row `i`: a shift,
the accept action, or `R idx` for a production `idx` of the table whose
complete item is in state `i`. -/
def Proposed (G : Env) (states : List (List Item)) (i : Nat) (a : String) : Prop :=
  (∃ n : Nat, a = "S" ++ toString n) ∨ a = "acc" ∨
    ∃ (idx : Nat) (g : Grammar) (body : List String) (items : List Item),
      a = "R" ++ toString idx ∧ G.grammarindex[idx]? = some g ∧ g.right.head? = some body ∧
        states[i]? = some items ∧ (⟨g.value, body, (body.length : Int)⟩ : Item) ∈ items

/-- Every action of the table is one written by `constructLR0Table`. -/
def AllProposed (G : Env) (states : List (List Item)) (T : Tables) : Prop :=
  ∀ i sym a, T.action i sym = some a → Proposed G states i a

/-- The sentential form `w` is derivable from the sentential form on the
left in grammar `G`: a step replaces a nonterminal by one of its
alternatives, the body made of the single epsilon marker standing for the
empty string. -/
inductive Derives (G : Env) : List String → List String → Prop
  | refl (w : List String) : Derives G w w
  | step (u v : List String) (A : String) (body w : List String) :
      A ∈ G.nonTerminals → body ∈ (G.grammarsAt A).right →
      Derives G (u ++ (if body = ["#"] then [] else body) ++ v) w →
      Derives G (u ++ A :: v) w

/-- The grammar `S -> a $`, whose body holds the end marker. -/
def grammarEnd : List (String × List (List String)) :=
  [("S", [["a", "$"]])]

/-- The indices of the production table whose entry holds the production of
`item` (its head, and its body as first alternative), in ascending order. -/
def reduceIndices (G : Env) (item : Item) : List Nat :=
  ((G.grammarindex.enum).filter
    (fun e => decide (e.2.value = item.head ∧ e.2.right.head? = some item.production))).map
    Prod.fst

/-- The shift proposed by an item of state `i` with the dot before a terminal
`T`: the action `S n` for the cell of `T`, `n` read from
`transitions[{i, T}]`. -/
def shiftProposals (G : Env) (transitions : List ((Nat × String) × Nat)) (i : Nat)
    (item : Item) : List (String × String) :=
  match item.next with
  | some symbol =>
    if symbol ∈ G.terminals then
      [(symbol, "S" ++ toString ((mapFind (i, symbol) transitions).getD 0))]
    else []
  | none => []

/-- The reduces proposed by a complete item of another head than the start
symbol: for each index of its production, `R idx` for the cell of every
terminal. -/
def reduceProposals (G : Env) (item : Item) : List (String × String) :=
  (reduceIndices G item).flatMap (fun idx => G.terminals.map (fun t => (t, "R" ++ toString idx)))

/-- The actions proposed by one item of state `i`, each with the symbol of its
cell: its shift, then its reduces when it is complete with another head than
the start symbol, or the accept action on "$" when it is a complete item of
the start symbol. -/
def itemProposals (G : Env) (transitions : List ((Nat × String) × Nat)) (i : Nat)
    (item : Item) : List (String × String) :=
  shiftProposals G transitions i item ++
    (if item.complete then
      if item.head ≠ G.startSymbol then reduceProposals G item else [("$", "acc")]
    else [])

/-- The actions among `P` proposed for the cell of `sym`, in order. -/
def cellOf (P : List (String × String)) (sym : String) : List String :=
  (P.filter (fun p => decide (p.1 = sym))).map Prod.snd

/-- The actions proposed for the cell `(i, sym)` by the items of state `i`, in
the iteration order of the items. -/
def cellProposals (G : Env) (transitions : List ((Nat × String) × Nat)) (i : Nat)
    (items : List Item) (sym : String) : List String :=
  cellOf (items.flatMap (itemProposals G transitions i)) sym

/-- Two different actions are among the proposals, or the accept action is
among them twice. -/
def Clash (P : List String) : Prop :=
  (∃ a ∈ P, ∃ b ∈ P, a ≠ b) ∨ 2 ≤ P.count "acc"

/-- Row `i` of the table and the conflict lines of state `i` are what the
proposals `P` give: each cell holds the first action proposed for it, and a
conflict line names a cell exactly when its proposals clash. -/
def CellInv (i : Nat) (T : Tables) (P : List (String × String)) : Prop :=
  ∀ sym, T.action i sym = (cellOf P sym).head? ∧
    ((∃ c ∈ T.conflicts, c.state = i ∧ c.symbol = sym) ↔ Clash (cellOf P sym))

/-- The two transition maps give the same value to every read
`transitions[key]`. -/
def TrSame (t1 t2 : List ((Nat × String) × Nat)) : Prop :=
  ∀ k, (mapFind k t1).getD 0 = (mapFind k t2).getD 0

/-- Row `i` of the table and the conflict lines of state `i` are the same in
both tables. -/
def SameRow (i : Nat) (T T1 : Tables) : Prop :=
  (∀ sym, T1.action i sym = T.action i sym) ∧
    ∀ c : Conflict, c.state = i → (c ∈ T1.conflicts ↔ c ∈ T.conflicts)

/-- The step from `T` to `T1` works on state `j` only: the reads of
`transitions` give the same values, and the rows and conflict lines of the
other states are the same. -/
def Frame (j : Nat) (T T1 : Tables) : Prop :=
  TrSame T1.transitions T.transitions ∧ ∀ i, i ≠ j → SameRow i T T1

/-- The states `constructDFA` builds for `grammarE`. -/
def statesE : List (List Item) :=
  [[⟨"E", ["E", "+", "E"], 0⟩, ⟨"E", ["id"], 0⟩, ⟨"E~", ["E"], 0⟩],
   [⟨"E", ["E", "+", "E"], 1⟩, ⟨"E~", ["E"], 1⟩],
   [⟨"E", ["id"], 1⟩],
   [⟨"E", ["E", "+", "E"], 0⟩, ⟨"E", ["id"], 0⟩, ⟨"E", ["E", "+", "E"], 2⟩],
   [⟨"E", ["E", "+", "E"], 1⟩, ⟨"E", ["E", "+", "E"], 3⟩]]

/-- The transitions `constructDFA` builds for `grammarE`. -/
def transitionsE : List ((Nat × String) × Nat) :=
  [((0, "E"), 1), ((0, "id"), 2), ((1, "+"), 3), ((3, "E"), 4), ((3, "id"), 2), ((4, "+"), 3)]

/-- The grammar `S -> é`, whose terminal takes two bytes. -/
def grammarTwoBytes : List (String × List (List String)) :=
  [("S", [["é"]])]

/-- The grammar `é -> a`, whose nonterminal takes two bytes. -/
def grammarTwoByteHead : List (String × List (List String)) :=
  [("é", [["a"]])]

/-! ## Facts about the containers -/

theorem mem_orderedIns {α : Type} (lt : α → α → Bool) (x y : α) (s : List α) :
    y ∈ orderedIns lt x s ↔ y = x ∨ y ∈ s := by
  induction s with
  | nil => simp [orderedIns]
  | cons z zs ih =>
    unfold orderedIns
    split
    · simp
    · simp [ih]; tauto

theorem mem_setInsert {α : Type} [DecidableEq α] (lt : α → α → Bool) (x y : α) (s : List α) :
    y ∈ (setInsert lt x s).1 ↔ y = x ∨ y ∈ s := by
  unfold setInsert
  split
  · rename_i h
    constructor
    · intro hy; exact Or.inr hy
    · rintro (rfl | hy)
      · exact h
      · exact hy
  · simp [mem_orderedIns]

theorem setInsert_snd {α : Type} [DecidableEq α] (lt : α → α → Bool) (x : α) (s : List α) :
    (setInsert lt x s).2 = true ↔ x ∉ s := by
  unfold setInsert
  split <;> simp_all

/-! ## closure: the worklist invariant -/

theorem isEpsilon_iff (g : List String) : isEpsilon g = true ↔ g = ["#"] := by
  unfold isEpsilon
  match g with
  | [] => simp
  | [a] => simp
  | a :: b :: r => simp

theorem closed_newItem {G : Env} {S : Item → Prop} (h : Closed G S) {it : Item} {B : String}
    (hit : S it) (hn : it.next = some B) (hB : B ∈ G.nonTerminals) {g : List String}
    (hg : g ∈ (G.grammarsAt B).right) : S (newItem B g) := by
  unfold newItem
  by_cases he : g = ["#"]
  · rw [if_pos ((isEpsilon_iff g).2 he)]
    exact (h it B hit hn hB g hg).1 he
  · rw [if_neg (fun hh => he ((isEpsilon_iff g).1 hh))]
    exact (h it B hit hn hB g hg).2 he

theorem closed_of_newItem {G : Env} {S : Item → Prop}
    (h : ∀ it B, S it → it.next = some B → B ∈ G.nonTerminals →
      ∀ g ∈ (G.grammarsAt B).right, S (newItem B g)) : Closed G S := by
  intro it B hit hn hB g hg
  have := h it B hit hn hB g hg
  unfold newItem at this
  constructor
  · intro he
    rwa [if_pos ((isEpsilon_iff g).2 he)] at this
  · intro he
    rwa [if_neg (fun hh => he ((isEpsilon_iff g).1 hh))] at this

theorem mem_closureAdd_fst (B : String) (ps : List (List String)) (st : List Item × List Item)
    (y : Item) :
    y ∈ (closureAdd B ps st).1 ↔ y ∈ st.1 ∨ ∃ p ∈ ps, y = newItem B p := by
  induction ps generalizing st with
  | nil => simp [closureAdd]
  | cons p ps ih =>
    simp only [closureAdd, ih, mem_setInsert, List.mem_cons, exists_eq_or_imp]
    tauto

theorem mem_closureAdd_snd (B : String) (ps : List (List String)) (st : List Item × List Item)
    (y : Item) (hy : y ∈ (closureAdd B ps st).2) :
    y ∈ st.2 ∨ ∃ p ∈ ps, y = newItem B p := by
  induction ps generalizing st with
  | nil => exact Or.inl (by simpa [closureAdd] using hy)
  | cons p ps ih =>
    simp only [closureAdd] at hy
    rcases ih _ hy with h | ⟨q, hq, rfl⟩
    · simp only at h
      split at h
      · rcases List.mem_append.1 h with h | h
        · exact Or.inl h
        · exact Or.inr ⟨p, List.mem_cons_self _ _, by simpa using h⟩
      · exact Or.inl h
    · exact Or.inr ⟨q, List.mem_cons_of_mem _ hq, rfl⟩

theorem closureAdd_snd_mono (B : String) (ps : List (List String)) (st : List Item × List Item)
    (y : Item) (hy : y ∈ st.2) : y ∈ (closureAdd B ps st).2 := by
  induction ps generalizing st with
  | nil => simpa [closureAdd] using hy
  | cons p ps ih =>
    simp only [closureAdd]
    apply ih
    simp only
    split
    · exact List.mem_append_left _ hy
    · exact hy

theorem closureAdd_new_queued (B : String) (ps : List (List String)) (st : List Item × List Item)
    (y : Item) (hy : y ∈ (closureAdd B ps st).1) :
    y ∈ st.1 ∨ y ∈ (closureAdd B ps st).2 := by
  induction ps generalizing st with
  | nil => exact Or.inl (by simpa [closureAdd] using hy)
  | cons p ps ih =>
    simp only [closureAdd] at hy ⊢
    rcases ih _ hy with h | h
    · simp only [mem_setInsert] at h
      rcases h with rfl | h
      · by_cases hin : newItem B p ∈ st.1
        · exact Or.inl hin
        · right
          apply closureAdd_snd_mono
          simp only [(setInsert_snd Item.lt _ _).2 hin, if_true]
          exact List.mem_append_right _ (List.mem_singleton_self _)
      · exact Or.inl h
    · exact Or.inr h

theorem closureStep_fst_mono (G : Env) (current : Item) (st : List Item × List Item) (y : Item)
    (hy : y ∈ st.1) : y ∈ (closureStep G current st).1 := by
  unfold closureStep
  split
  · split
    · exact (mem_closureAdd_fst _ _ _ _).2 (Or.inl hy)
    · exact hy
  · exact hy

theorem closureInv_step (G : Env) (X cl wl : List Item) (current : Item)
    (h : ClosureInv G X cl (current :: wl)) :
    ClosureInv G X (closureStep G current (cl, wl)).1 (closureStep G current (cl, wl)).2 := by
  have hcur : current ∈ cl := h.queued current (List.mem_cons_self _ _)
  have key : ∀ it ∈ cl, it ∈ wl ∨ Expanded G cl it ∨ it = current := by
    intro it hit
    rcases h.expanded it hit with h1 | h1
    · rcases List.mem_cons.1 h1 with rfl | h2
      · exact Or.inr (Or.inr rfl)
      · exact Or.inl h2
    · exact Or.inr (Or.inl h1)
  unfold closureStep
  split
  · rename_i B hB
    split
    · rename_i hNT
      refine ⟨?_, ?_, ?_, ?_⟩
      · intro it hit
        exact (mem_closureAdd_fst _ _ _ _).2 (Or.inl (h.seed it hit))
      · intro it hit
        rcases mem_closureAdd_snd _ _ _ _ hit with h1 | ⟨p, hp, rfl⟩
        · exact (mem_closureAdd_fst _ _ _ _).2 (Or.inl (h.queued it (List.mem_cons_of_mem _ h1)))
        · exact (mem_closureAdd_fst _ _ _ _).2 (Or.inr ⟨p, hp, rfl⟩)
      · intro it hit
        rcases closureAdd_new_queued _ _ _ _ hit with h1 | h1
        · rcases key it h1 with h2 | h2 | rfl
          · exact Or.inl (closureAdd_snd_mono _ _ _ _ h2)
          · right
            intro B1 hB1 hNT1 g hg
            exact (mem_closureAdd_fst _ _ _ _).2 (Or.inl (h2 B1 hB1 hNT1 g hg))
          · right
            intro B1 hB1 hNT1 g hg
            rw [hB] at hB1
            cases hB1
            exact (mem_closureAdd_fst _ _ _ _).2 (Or.inr ⟨g, hg, rfl⟩)
        · exact Or.inl h1
      · intro S hX hS it hit
        rcases (mem_closureAdd_fst _ _ _ _).1 hit with h1 | ⟨p, hp, rfl⟩
        · exact h.least S hX hS it h1
        · exact closed_newItem hS (h.least S hX hS current hcur) hB hNT hp
    · rename_i hNT
      refine ⟨h.seed, fun it hit => h.queued it (List.mem_cons_of_mem _ hit), ?_, h.least⟩
      intro it hit
      rcases key it hit with h2 | h2 | rfl
      · exact Or.inl h2
      · exact Or.inr h2
      · right
        intro B1 hB1 hNT1
        rw [hB] at hB1
        cases hB1
        exact absurd hNT1 hNT
  · rename_i hB
    refine ⟨h.seed, fun it hit => h.queued it (List.mem_cons_of_mem _ hit), ?_, h.least⟩
    intro it hit
    rcases key it hit with h2 | h2 | rfl
    · exact Or.inl h2
    · exact Or.inr h2
    · right
      intro B1 hB1
      rw [hB] at hB1
      cases hB1

theorem closureInv_loop (G : Env) (X : List Item) (fuel : Nat) (cl wl c : List Item)
    (h : ClosureInv G X cl wl) (hc : closureLoop G fuel cl wl = some c) :
    ClosureInv G X c [] := by
  induction fuel generalizing cl wl with
  | zero =>
    cases wl with
    | nil => simp [closureLoop] at hc; subst hc; exact h
    | cons a w => simp [closureLoop] at hc
  | succ n ih =>
    cases wl with
    | nil => simp [closureLoop] at hc; subst hc; exact h
    | cons a w =>
      simp only [closureLoop] at hc
      exact ih _ _ (closureInv_step G X cl w a h) hc

theorem closureInv_init (G : Env) (X : List Item) : ClosureInv G X X X :=
  ⟨fun _ h => h, fun _ h => h, fun _ h => Or.inl h, fun _ hX _ it hit => hX it hit⟩

/-! ## closure: termination -/

theorem missing_mono (D cl cl1 : List Item) (h : ∀ y ∈ cl, y ∈ cl1) :
    missing D cl1 ≤ missing D cl := by
  induction D with
  | nil => simp [missing]
  | cons d D ih =>
    unfold missing at ih ⊢
    simp only [List.filter_cons]
    by_cases h1 : d ∈ cl1
    · by_cases h2 : d ∈ cl <;> simp [h1, h2] <;> omega
    · have h2 : d ∉ cl := fun hh => h1 (h d hh)
      simp [h1, h2]
      omega

theorem missing_lt (D cl cl1 : List Item) (h : ∀ y ∈ cl, y ∈ cl1) (x : Item) (hx : x ∈ D)
    (hx1 : x ∉ cl) (hx2 : x ∈ cl1) : missing D cl1 < missing D cl := by
  induction D with
  | nil => simp at hx
  | cons d D ih =>
    have hm := missing_mono D cl cl1 h
    unfold missing at ih hm ⊢
    simp only [List.filter_cons]
    rcases List.mem_cons.1 hx with rfl | hxD
    · simp [hx1, hx2]
      omega
    · have := ih hxD
      by_cases h1 : d ∈ cl1
      · by_cases h2 : d ∈ cl <;> simp [h1, h2] <;> omega
      · have h2 : d ∉ cl := fun hh => h1 (h d hh)
        simp [h1, h2]
        omega

theorem closureAdd_measure (D : List Item) (B : String) (ps : List (List String))
    (st : List Item × List Item) (hD : ∀ p ∈ ps, newItem B p ∈ D) :
    (closureAdd B ps st).2.length + missing D (closureAdd B ps st).1
      ≤ st.2.length + missing D st.1 := by
  induction ps generalizing st with
  | nil => simp [closureAdd]
  | cons p ps ih =>
    simp only [closureAdd]
    refine le_trans (ih _ (fun q hq => hD q (List.mem_cons_of_mem _ hq))) ?_
    simp only
    by_cases hin : newItem B p ∈ st.1
    · simp [setInsert, hin]
    · have hlt := missing_lt D st.1 (setInsert Item.lt (newItem B p) st.1).1
        (fun y hy => (mem_setInsert _ _ _ _).2 (Or.inr hy)) (newItem B p)
        (hD p (List.mem_cons_self _ _)) hin ((mem_setInsert _ _ _ _).2 (Or.inl rfl))
      simp only [(setInsert_snd Item.lt _ _).2 hin, if_true, List.length_append,
        List.length_singleton]
      omega

theorem mem_initItems (G : Env) (B : String) (hB : B ∈ G.nonTerminals) (p : List String)
    (hp : p ∈ (G.grammarsAt B).right) : newItem B p ∈ initItems G := by
  unfold initItems
  simp only [List.mem_flatMap, List.mem_map]
  exact ⟨B, hB, p, hp, rfl⟩

theorem closureStep_measure (G : Env) (current : Item) (st : List Item × List Item) :
    (closureStep G current st).2.length + missing (initItems G) (closureStep G current st).1
      ≤ st.2.length + missing (initItems G) st.1 := by
  unfold closureStep
  split
  · split
    · rename_i B _ hB
      exact closureAdd_measure _ B _ st (fun p hp => mem_initItems G B hB p hp)
    · exact le_refl _
  · exact le_refl _

theorem closureLoop_isSome (G : Env) (fuel : Nat) (cl wl : List Item)
    (h : wl.length + missing (initItems G) cl ≤ fuel) :
    ∃ c, closureLoop G fuel cl wl = some c := by
  induction fuel generalizing cl wl with
  | zero =>
    cases wl with
    | nil => exact ⟨cl, by simp [closureLoop]⟩
    | cons a w => simp at h
  | succ n ih =>
    cases wl with
    | nil => exact ⟨cl, by simp [closureLoop]⟩
    | cons a w =>
      simp only [closureLoop]
      apply ih
      have := closureStep_measure G a (cl, w)
      simp only [List.length_cons] at h
      simp only at this
      omega

theorem closure_isSome (G : Env) (X : List Item) : ∃ c, closure G X = some c := by
  unfold closure
  apply closureLoop_isSome
  have : missing (initItems G) X ≤ (initItems G).length := by
    unfold missing
    exact List.length_filter_le _ _
  omega

theorem closure_inv (G : Env) (X c : List Item) (h : closure G X = some c) :
    ClosureInv G X c [] :=
  closureInv_loop G X _ X X c (closureInv_init G X) h

theorem closure_closed (G : Env) (X c : List Item) (h : closure G X = some c) :
    Closed G (fun it => it ∈ c) := by
  apply closed_of_newItem
  intro it B hit hn hB g hg
  rcases (closure_inv G X c h).expanded it hit with h1 | h1
  · simp at h1
  · exact h1 B hn hB g hg

/-! ## closure: the claims -/

/-- C1: `closure(X)` returns, its result contains `X`, satisfies the closure
rule (for an item with the dot before a nonterminal `B`, every alternative `g`
of `B` contributes `(B, g, 0)`, or `(B, g, 1)` when `g` is the single epsilon
marker), and is included in every item set that contains `X` and satisfies the
rule. -/
theorem closure_least_closed (G : Env) (X : List Item) :
    ∃ c, closure G X = some c ∧ (∀ it ∈ X, it ∈ c) ∧ Closed G (fun it => it ∈ c) ∧
      ∀ S : Item → Prop, (∀ it ∈ X, S it) → Closed G S → ∀ it ∈ c, S it := by
  obtain ⟨c, hc⟩ := closure_isSome G X
  exact ⟨c, hc, (closure_inv G X c hc).seed, closure_closed G X c hc,
    (closure_inv G X c hc).least⟩

/-- C2: `closure(X)` returns and every item of `X` is an item of the result. -/
theorem closure_extensive (G : Env) (X : List Item) :
    ∃ c, closure G X = some c ∧ ∀ it ∈ X, it ∈ c := by
  obtain ⟨c, hc⟩ := closure_isSome G X
  exact ⟨c, hc, (closure_inv G X c hc).seed⟩

/-- C3: `closure(closure(X))` returns and has exactly the items of `closure(X)`. -/
theorem closure_idempotent (G : Env) (X : List Item) :
    ∃ c c2, closure G X = some c ∧ closure G c = some c2 ∧ ∀ it, it ∈ c2 ↔ it ∈ c := by
  obtain ⟨c, hc⟩ := closure_isSome G X
  obtain ⟨c2, hc2⟩ := closure_isSome G c
  refine ⟨c, c2, hc, hc2, fun it => ⟨?_, ?_⟩⟩
  · exact (closure_inv G c c2 hc2).least (fun it => it ∈ c) (fun _ h => h)
      (closure_closed G X c hc) it
  · exact (closure_inv G c c2 hc2).seed it

/-! ## The orders are strict total orders -/

theorem StrictTotal.asymm {α : Type} {lt : α → α → Bool} (h : StrictTotal lt) (a b : α)
    (hab : lt a b = true) : lt b a = false := by
  by_contra hba
  have := h.trans a b a hab (by simpa using hba)
  rw [h.irrefl] at this
  cases this

theorem lexLt_strictTotal {α : Type} {lt : α → α → Bool} (h : StrictTotal lt) :
    StrictTotal (lexLt lt) := by
  refine ⟨?_, ?_, ?_⟩
  · intro a
    induction a with
    | nil => rfl
    | cons x xs ih => simp [lexLt, h.irrefl, ih]
  · intro a
    induction a with
    | nil =>
      intro b c hab hbc
      cases b with
      | nil => simp [lexLt] at hab
      | cons y ys =>
        cases c with
        | nil => simp [lexLt] at hbc
        | cons z zs => rfl
    | cons x xs ih =>
      intro b c hab hbc
      cases b with
      | nil => simp [lexLt] at hab
      | cons y ys =>
        cases c with
        | nil => simp [lexLt] at hbc
        | cons z zs =>
          simp only [lexLt] at hab hbc ⊢
          by_cases hxy : lt x y = true
          · by_cases hyz : lt y z = true
            · simp [h.trans x y z hxy hyz]
            · simp only [hyz] at hbc
              by_cases hzy : lt z y = true
              · simp [hzy] at hbc
              · have : y = z := h.connex y z (by simpa using hyz) (by simpa using hzy)
                subst this
                simp [hxy]
          · simp only [hxy] at hab
            by_cases hyx : lt y x = true
            · simp [hyx] at hab
            · have : x = y := h.connex x y (by simpa using hxy) (by simpa using hyx)
              subst this
              simp only [hyx] at hab
              by_cases hxz : lt x z = true
              · simp [hxz]
              · simp only [hxz] at hbc ⊢
                by_cases hzx : lt z x = true
                · simp [hzx] at hbc
                · simp only [hzx] at hbc ⊢
                  simp only [Bool.false_eq_true, if_false] at hab hbc ⊢
                  exact ih ys zs hab hbc
  · intro a
    induction a with
    | nil =>
      intro b hab hba
      cases b with
      | nil => rfl
      | cons y ys => simp [lexLt] at hab
    | cons x xs ih =>
      intro b hab hba
      cases b with
      | nil => simp [lexLt] at hba
      | cons y ys =>
        simp only [lexLt] at hab hba
        by_cases hxy : lt x y = true
        · simp [hxy] at hab
        · by_cases hyx : lt y x = true
          · simp [hyx] at hba
          · have : x = y := h.connex x y (by simpa using hxy) (by simpa using hyx)
            subst this
            simp only [hxy] at hab hba
            simp only [Bool.false_eq_true, if_false] at hab hba
            rw [ih ys hab hba]

theorem charLt_strictTotal :
    StrictTotal (fun x y : Char => decide (x.toNat < y.toNat)) := by
  refine ⟨?_, ?_, ?_⟩
  · intro a; simp
  · intro a b c hab hbc
    simp only [decide_eq_true_eq] at hab hbc ⊢
    omega
  · intro a b hab hba
    simp only [decide_eq_false_iff_not] at hab hba
    have : a.toNat = b.toNat := by omega
    exact Char.ext (UInt32.ext this)

theorem strLt_strictTotal : StrictTotal strLt := by
  have h := lexLt_strictTotal charLt_strictTotal
  refine ⟨fun a => h.irrefl _, fun a b c => h.trans _ _ _, ?_⟩
  intro a b hab hba
  exact String.ext (h.connex _ _ hab hba)

theorem itemLt_strictTotal : StrictTotal Item.lt := by
  have hs := strLt_strictTotal
  have hv := lexLt_strictTotal strLt_strictTotal
  refine ⟨?_, ?_, ?_⟩
  · intro a
    simp [Item.lt, hv.irrefl]
  · intro a b c hab hbc
    unfold Item.lt at hab hbc ⊢
    by_cases h1 : a.head = b.head
    · by_cases h2 : b.head = c.head
      · have h3 : a.head = c.head := h1.trans h2
        simp only [h1, h2, h3, ne_eq, not_true_eq_false, if_false] at hab hbc ⊢
        by_cases d1 : a.dot = b.dot
        · by_cases d2 : b.dot = c.dot
          · simp only [d1, d2, ne_eq, not_true_eq_false, if_false] at hab hbc ⊢
            exact hv.trans _ _ _ hab hbc
          · simp only [d1, d2, ne_eq, not_false_eq_true, if_true, not_true_eq_false,
              if_false] at hab hbc ⊢
            exact hbc
        · by_cases d2 : b.dot = c.dot
          · simp only [d2, ne_eq, not_true_eq_false, if_false] at hbc
            rw [← d2]
            simp only [d1, ne_eq, not_false_eq_true, if_true] at hab ⊢
            exact hab
          · simp only [d1, d2, ne_eq, not_false_eq_true, if_true, decide_eq_true_eq] at hab hbc
            have d3 : a.dot ≠ c.dot := by omega
            simp only [d3, ne_eq, not_false_eq_true, if_true, decide_eq_true_eq]
            omega
      · simp only [h1, ne_eq, not_true_eq_false, if_false] at hab
        simp only [h2, ne_eq, not_false_eq_true, if_true] at hbc
        rw [h1]
        simp only [h2, ne_eq, not_false_eq_true, if_true]
        exact hbc
    · simp only [h1, ne_eq, not_false_eq_true, if_true] at hab
      by_cases h2 : b.head = c.head
      · rw [← h2]
        simp only [h1, ne_eq, not_false_eq_true, if_true]
        exact hab
      · simp only [h2, ne_eq, not_false_eq_true, if_true] at hbc
        have hac := hs.trans _ _ _ hab hbc
        have h3 : a.head ≠ c.head := by
          intro h3
          rw [h3, hs.irrefl] at hac
          cases hac
        simp only [h3, ne_eq, not_false_eq_true, if_true]
        exact hac
  · intro a b hab hba
    unfold Item.lt at hab hba
    by_cases h1 : a.head = b.head
    · simp only [h1, ne_eq, not_true_eq_false, if_false] at hab hba
      by_cases d1 : a.dot = b.dot
      · simp only [d1, ne_eq, not_true_eq_false, if_false] at hab hba
        have := hv.connex _ _ hab hba
        cases a; cases b
        simp_all
      · have d2 : b.dot ≠ a.dot := fun h => d1 h.symm
        simp only [d1, d2, ne_eq, not_false_eq_true, if_true, decide_eq_false_iff_not] at hab hba
        omega
    · have h2 : b.head ≠ a.head := fun h => h1 h.symm
      simp only [h1, h2, ne_eq, not_false_eq_true, if_true] at hab hba
      exact absurd (hs.connex _ _ hab hba) h1

theorem StrictTotal.equiv_iff_eq {α : Type} {lt : α → α → Bool} (h : StrictTotal lt) (a b : α) :
    (lt a b = false ∧ lt b a = false) ↔ a = b := by
  constructor
  · rintro ⟨h1, h2⟩
    exact h.connex a b h1 h2
  · rintro rfl
    exact ⟨h.irrefl a, h.irrefl a⟩

/-! ## Ascending lists -/

theorem ascending_orderedIns {α : Type} {lt : α → α → Bool} (h : StrictTotal lt) (x : α)
    (l : List α) (hl : Ascending lt l) (hx : x ∉ l) : Ascending lt (orderedIns lt x l) := by
  induction l with
  | nil => simp [orderedIns, Ascending]
  | cons y ys ih =>
    unfold Ascending at hl ih ⊢
    rw [List.pairwise_cons] at hl
    unfold orderedIns
    split
    · rename_i hxy
      rw [List.pairwise_cons]
      refine ⟨?_, List.pairwise_cons.2 hl⟩
      intro z hz
      rcases List.mem_cons.1 hz with rfl | hz
      · exact hxy
      · exact h.trans _ _ _ hxy (hl.1 z hz)
    · rename_i hxy
      have hne : x ≠ y := fun e => hx (e ▸ List.mem_cons_self _ _)
      have hyx : lt y x = true := by
        by_contra hh
        exact hne (h.connex x y (by simpa using hxy) (by simpa using hh))
      rw [List.pairwise_cons]
      refine ⟨?_, ih hl.2 (fun hh => hx (List.mem_cons_of_mem _ hh))⟩
      intro z hz
      rcases (mem_orderedIns lt x z ys).1 hz with rfl | hz
      · exact hyx
      · exact hl.1 z hz

theorem ascending_setInsert {α : Type} [DecidableEq α] {lt : α → α → Bool} (h : StrictTotal lt)
    (x : α) (l : List α) (hl : Ascending lt l) : Ascending lt (setInsert lt x l).1 := by
  unfold setInsert
  split
  · exact hl
  · rename_i hx
    exact ascending_orderedIns h x l hl hx

theorem ascending_ext {α : Type} {lt : α → α → Bool} (h : StrictTotal lt) (l1 l2 : List α)
    (h1 : Ascending lt l1) (h2 : Ascending lt l2) (hm : ∀ x, x ∈ l1 ↔ x ∈ l2) : l1 = l2 := by
  induction l1 generalizing l2 with
  | nil =>
    cases l2 with
    | nil => rfl
    | cons b l2 => exact absurd ((hm b).2 (List.mem_cons_self _ _)) (List.not_mem_nil _)
  | cons a l1 ih =>
    cases l2 with
    | nil => exact absurd ((hm a).1 (List.mem_cons_self _ _)) (List.not_mem_nil _)
    | cons b l2 =>
      unfold Ascending at h1 h2 ih
      rw [List.pairwise_cons] at h1 h2
      have hab : a = b := by
        by_contra hne
        have ha : a ∈ l2 := by
          rcases List.mem_cons.1 ((hm a).1 (List.mem_cons_self _ _)) with e | e
          · exact absurd e hne
          · exact e
        have hb : b ∈ l1 := by
          rcases List.mem_cons.1 ((hm b).2 (List.mem_cons_self _ _)) with e | e
          · exact absurd e.symm hne
          · exact e
        have := h.asymm _ _ (h1.1 b hb)
        rw [h2.1 a ha] at this
        cases this
      subst hab
      have hna1 : a ∉ l1 := fun hh => by
        have := h1.1 a hh
        rw [h.irrefl] at this
        cases this
      have hna2 : a ∉ l2 := fun hh => by
        have := h2.1 a hh
        rw [h.irrefl] at this
        cases this
      rw [ih l2 h1.2 h2.2]
      intro x
      constructor
      · intro hx
        rcases List.mem_cons.1 ((hm x).1 (List.mem_cons_of_mem _ hx)) with e | e
        · exact absurd (e ▸ hx) hna1
        · exact e
      · intro hx
        rcases List.mem_cons.1 ((hm x).2 (List.mem_cons_of_mem _ hx)) with e | e
        · exact absurd (e ▸ hx) hna2
        · exact e

theorem ascending_nodup {α : Type} {lt : α → α → Bool} (h : StrictTotal lt) (l : List α)
    (hl : Ascending lt l) : l.Nodup := by
  unfold Ascending at hl
  refine hl.imp ?_
  intro a b hab e
  subst e
  rw [h.irrefl] at hab
  cases hab

/-! ## closure keeps the set ascending -/

theorem closureAdd_ascending (B : String) (ps : List (List String)) (st : List Item × List Item)
    (h : Ascending Item.lt st.1) : Ascending Item.lt (closureAdd B ps st).1 := by
  induction ps generalizing st with
  | nil => simpa [closureAdd] using h
  | cons p ps ih =>
    simp only [closureAdd]
    exact ih _ (ascending_setInsert itemLt_strictTotal _ _ h)

theorem closureStep_ascending (G : Env) (current : Item) (st : List Item × List Item)
    (h : Ascending Item.lt st.1) : Ascending Item.lt (closureStep G current st).1 := by
  unfold closureStep
  split
  · split
    · exact closureAdd_ascending _ _ _ h
    · exact h
  · exact h

theorem closureLoop_ascending (G : Env) (fuel : Nat) (cl wl c : List Item)
    (h : Ascending Item.lt cl) (hc : closureLoop G fuel cl wl = some c) :
    Ascending Item.lt c := by
  induction fuel generalizing cl wl with
  | zero =>
    cases wl with
    | nil => simp [closureLoop] at hc; subst hc; exact h
    | cons a w => simp [closureLoop] at hc
  | succ n ih =>
    cases wl with
    | nil => simp [closureLoop] at hc; subst hc; exact h
    | cons a w =>
      simp only [closureLoop] at hc
      exact ih _ _ (closureStep_ascending G a (cl, w) h) hc

theorem closure_ascending (G : Env) (X c : List Item) (h : Ascending Item.lt X)
    (hc : closure G X = some c) : Ascending Item.lt c :=
  closureLoop_ascending G _ X X c h hc

theorem closure_congr (G : Env) (X1 X2 c1 c2 : List Item) (h : ∀ it, it ∈ X1 ↔ it ∈ X2)
    (h1 : closure G X1 = some c1) (h2 : closure G X2 = some c2) : ∀ it, it ∈ c1 ↔ it ∈ c2 := by
  intro it
  constructor
  · exact (closure_inv G X1 c1 h1).least (fun it => it ∈ c2)
      (fun x hx => (closure_inv G X2 c2 h2).seed x ((h x).1 hx)) (closure_closed G X2 c2 h2) it
  · exact (closure_inv G X2 c2 h2).least (fun it => it ∈ c1)
      (fun x hx => (closure_inv G X1 c1 h1).seed x ((h x).2 hx)) (closure_closed G X1 c1 h1) it

/-! ## Facts about `mapFind` and `mapSet` -/

theorem mapFind_replace {K V : Type} [DecidableEq K] (k k1 : K) (v : V) (m : List (K × V)) :
    mapFind k1 (m.map (fun e => if e.1 = k then (k, v) else e))
      = if k1 = k then (mapFind k m).map (fun _ => v) else mapFind k1 m := by
  induction m with
  | nil => simp [mapFind]
  | cons e m ih =>
    simp only [List.map_cons, mapFind, ih]
    by_cases ha : e.1 = k
    · by_cases hk : k1 = k
      · simp [ha, hk]
      · have : ¬ k1 = e.1 := fun h => hk (h.trans ha)
        simp [ha, hk, this]
    · by_cases hk : k1 = k
      · have : ¬ k = e.1 := fun h => ha h.symm
        simp [ha, hk, this]
      · simp [ha, hk]

theorem mapFind_orderedIns {K V : Type} [DecidableEq K] (r : K × V → K × V → Bool) (k k1 : K)
    (v : V) (m : List (K × V)) (hk : mapFind k m = none) :
    mapFind k1 (orderedIns r (k, v) m) = if k1 = k then some v else mapFind k1 m := by
  induction m with
  | nil => simp [orderedIns, mapFind]
  | cons e m ih =>
    simp only [mapFind] at hk
    have hka : ¬ k = e.1 := by
      intro h
      simp [h] at hk
    simp only [hka, if_false] at hk
    unfold orderedIns
    split
    · simp [mapFind]
    · simp only [mapFind, ih hk]
      by_cases h1 : k1 = e.1
      · have : ¬ e.1 = k := fun h => hka h.symm
        simp [h1, this]
      · simp [h1]

theorem mapFind_mapSet_self {K V : Type} [DecidableEq K] (lt : K → K → Bool) (k : K) (v : V)
    (m : List (K × V)) : mapFind k (mapSet lt k v m) = some v := by
  unfold mapSet
  split
  · rename_i h
    rw [mapFind_replace]
    obtain ⟨w, hw⟩ := Option.isSome_iff_exists.1 h
    simp [hw]
  · rename_i h
    rw [mapFind_orderedIns _ _ _ _ _ (by simpa using h)]
    simp

theorem mapFind_mapSet_ne {K V : Type} [DecidableEq K] (lt : K → K → Bool) (k k1 : K) (v : V)
    (m : List (K × V)) (hne : k1 ≠ k) : mapFind k1 (mapSet lt k v m) = mapFind k1 m := by
  unfold mapSet
  split
  · rw [mapFind_replace]
    simp [hne]
  · rename_i h
    rw [mapFind_orderedIns _ _ _ _ _ (by simpa using h)]
    simp [hne]

theorem mem_of_mapFind {K V : Type} [DecidableEq K] (k : K) (v : V) (m : List (K × V))
    (h : mapFind k m = some v) : (k, v) ∈ m := by
  induction m with
  | nil => simp [mapFind] at h
  | cons e m ih =>
    simp only [mapFind] at h
    split at h
    · rename_i hk
      cases h
      subst hk
      exact List.mem_cons_self _ _
    · exact List.mem_cons_of_mem _ (ih h)

theorem mapFind_isSome_of_mem {K V : Type} [DecidableEq K] (k : K) (v : V) (m : List (K × V))
    (h : (k, v) ∈ m) : (mapFind k m).isSome = true := by
  induction m with
  | nil => simp at h
  | cons e m ih =>
    simp only [mapFind]
    split
    · rfl
    · rename_i hk
      rcases List.mem_cons.1 h with e1 | e1
      · subst e1
        exact absurd rfl hk
      · exact ih e1

theorem mem_mapSet {K V : Type} [DecidableEq K] (lt : K → K → Bool) (k k1 : K) (v v1 : V)
    (m : List (K × V)) (h : (k1, v1) ∈ mapSet lt k v m) :
    (k1 = k ∧ v1 = v) ∨ (k1 ≠ k ∧ (k1, v1) ∈ m) := by
  unfold mapSet at h
  split at h
  · rw [List.mem_map] at h
    obtain ⟨e, he, heq⟩ := h
    split at heq
    · cases heq
      exact Or.inl ⟨rfl, rfl⟩
    · rename_i hne
      subst heq
      exact Or.inr ⟨hne, he⟩
  · rename_i hnone
    rcases (mem_orderedIns _ _ _ _).1 h with e | e
    · cases e
      exact Or.inl ⟨rfl, rfl⟩
    · right
      refine ⟨?_, e⟩
      intro hk
      subst hk
      exact hnone (mapFind_isSome_of_mem _ _ _ e)

/-! ## The partitions of a state -/

theorem mem_gotoKernel (s : List Item) (X : String) (it : Item) :
    it ∈ gotoKernel s X ↔ ∃ it0 ∈ s, it0.next = some X ∧ it = advance it0 := by
  unfold gotoKernel
  simp only [List.mem_map, List.mem_filter, decide_eq_true_eq]
  constructor
  · rintro ⟨a, ⟨h1, h2⟩, rfl⟩
    exact ⟨a, h1, h2, rfl⟩
  · rintro ⟨a, h1, h2, rfl⟩
    exact ⟨a, ⟨h1, h2⟩, rfl⟩

theorem gotoKernel_append (pre : List Item) (a : Item) (X : String) :
    gotoKernel (pre ++ [a]) X
      = gotoKernel pre X ++ (if a.next = some X then [advance a] else []) := by
  unfold gotoKernel
  rw [List.filter_append, List.map_append]
  congr 1
  by_cases h : a.next = some X <;> simp [List.filter_cons, h]

theorem partInv_step (pre : List Item) (a : Item) (parts : List (String × List Item))
    (h : PartInv pre parts) :
    PartInv (pre ++ [a])
      (match a.next with
        | some symbol =>
          mapSet strLt symbol
            (setInsert Item.lt { a with dot := a.dot + 1 } ((mapFind symbol parts).getD [])).1 parts
        | none => parts) := by
  cases hn : a.next with
  | none =>
    simp only
    refine ⟨?_, ?_, h.entries⟩
    · intro X items hX
      obtain ⟨h1, h2, it0, h3, h4⟩ := h.found X items hX
      rw [gotoKernel_append]
      refine ⟨h1, by simpa [hn] using h2, it0, List.mem_append_left _ h3, h4⟩
    · intro X hX it0 hit0
      rcases List.mem_append.1 hit0 with h1 | h1
      · exact h.absent X hX it0 h1
      · have : it0 = a := by simpa using h1
        subst this
        simp [hn]
  | some Y =>
    simp only
    refine ⟨?_, ?_, ?_⟩
    · intro X items hX
      rw [gotoKernel_append]
      by_cases hXY : X = Y
      · subst hXY
        rw [mapFind_mapSet_self] at hX
        cases hX
        simp only [hn, if_true]
        refine ⟨?_, ?_, a, by simp, hn⟩
        · cases hf : mapFind X parts with
          | none => exact ascending_setInsert itemLt_strictTotal _ _ (by simp [Ascending])
          | some old =>
            exact ascending_setInsert itemLt_strictTotal _ _ (by simpa using (h.found X old hf).1)
        · cases hf : mapFind X parts with
          | none =>
            have hk : gotoKernel pre X = [] := by
              rw [List.eq_nil_iff_forall_not_mem]
              intro it hit
              obtain ⟨it0, h0, h1, _⟩ := (mem_gotoKernel _ _ _).1 hit
              exact h.absent X hf it0 h0 h1
            intro it
            simp [mem_setInsert, hk, advance]
          | some old =>
            have ho := h.found X old hf
            intro it
            simp only [mem_setInsert, Option.getD_some, ho.2.1 it, List.mem_append,
              List.mem_singleton, advance]
            tauto
      · rw [mapFind_mapSet_ne _ _ _ _ _ hXY] at hX
        have : ¬ (some Y = some X) := fun e => hXY (Option.some.inj e).symm
        simp only [hn, this, if_false, List.append_nil]
        obtain ⟨h1, h2, it0, h3, h4⟩ := h.found X items hX
        exact ⟨h1, h2, it0, List.mem_append_left _ h3, h4⟩
    · intro X hX it0 hit0
      by_cases hXY : X = Y
      · subst hXY
        rw [mapFind_mapSet_self] at hX
        cases hX
      · rw [mapFind_mapSet_ne _ _ _ _ _ hXY] at hX
        rcases List.mem_append.1 hit0 with h1 | h1
        · exact h.absent X hX it0 h1
        · have : it0 = a := by simpa using h1
          subst this
          rw [hn]
          exact fun e => hXY (Option.some.inj e).symm
    · intro X items hX
      rcases mem_mapSet _ _ _ _ _ _ hX with ⟨h1, h2⟩ | ⟨h1, h2⟩
      · subst h1
        subst h2
        exact mapFind_mapSet_self _ _ _ _
      · rw [mapFind_mapSet_ne _ _ _ _ _ h1]
        exact h.entries X items h2

theorem partInv_loop (pre rest : List Item) (parts : List (String × List Item))
    (h : PartInv pre parts) : PartInv (pre ++ rest) (partitionItems rest parts) := by
  induction rest generalizing pre parts with
  | nil => simpa [partitionItems] using h
  | cons a rest ih =>
    have hs := partInv_step pre a parts h
    have := ih (pre ++ [a]) _ hs
    rw [List.append_assoc, List.singleton_append] at this
    unfold partitionItems
    cases hn : a.next with
    | none => simpa [hn] using this
    | some Y => simpa [hn] using this

theorem partInv_nil : PartInv [] [] :=
  ⟨fun X items h => by simp [mapFind] at h, fun X _ it0 h => by simp at h,
    fun X items h => by simp at h⟩

theorem partitionItems_inv (s : List Item) : PartInv s (partitionItems s []) := by
  simpa using partInv_loop [] s [] partInv_nil

/-! ## The item universe -/

theorem mem_itemUniverse (G : Env) (it : Item) :
    it ∈ itemUniverse G ↔
      ((it.head ∈ G.nonTerminals ∧ it.production ∈ (G.grammarsAt it.head).right) ∨
        (it.head = G.startSymbol ∧ it.production ∈ (G.grammarsAt G.startSymbol).right)) ∧
      0 ≤ it.dot ∧ it.dot ≤ (it.production.length : Int) := by
  unfold itemUniverse
  constructor
  · intro h
    rw [List.mem_flatMap] at h
    obtain ⟨hp, hhp, hd⟩ := h
    rw [List.mem_map] at hd
    obtain ⟨d, hd, rfl⟩ := hd
    rw [List.mem_range] at hd
    rw [List.mem_append, List.mem_flatMap] at hhp
    simp only [Int.ofNat_eq_coe]
    refine ⟨?_, by omega, by omega⟩
    rcases hhp with ⟨B, hB, hq⟩ | hq
    · rw [List.mem_map] at hq
      obtain ⟨q, hq, rfl⟩ := hq
      exact Or.inl ⟨hB, hq⟩
    · rw [List.mem_map] at hq
      obtain ⟨q, hq, rfl⟩ := hq
      exact Or.inr ⟨rfl, hq⟩
  · rintro ⟨hhp, h0, h1⟩
    obtain ⟨h, p, d⟩ := it
    simp only at hhp h0 h1
    rw [List.mem_flatMap]
    refine ⟨(h, p), ?_, ?_⟩
    · rw [List.mem_append, List.mem_flatMap]
      rcases hhp with ⟨hB, hq⟩ | ⟨e, hq⟩
      · exact Or.inl ⟨h, hB, List.mem_map.2 ⟨p, hq, rfl⟩⟩
      · exact Or.inr (List.mem_map.2 ⟨p, hq, by rw [e]⟩)
    · rw [List.mem_map]
      refine ⟨d.toNat, List.mem_range.2 (by show d.toNat < p.length + 1; omega), ?_⟩
      simp only [Item.mk.injEq, true_and, Int.ofNat_eq_coe]
      omega

theorem next_some_bounds (it : Item) (X : String) (h : it.next = some X) :
    0 ≤ it.dot ∧ it.dot < (it.production.length : Int) := by
  unfold Item.next at h
  split at h
  · rename_i h0
    refine ⟨h0, ?_⟩
    have := (List.getElem?_eq_some_iff.1 h).1
    omega
  · cases h

theorem advance_mem_universe (G : Env) (it : Item) (X : String) (h : it ∈ itemUniverse G)
    (hn : it.next = some X) : advance it ∈ itemUniverse G := by
  have hb := next_some_bounds it X hn
  rw [mem_itemUniverse] at h ⊢
  simp only [advance]
  refine ⟨h.1, by omega, by omega⟩

theorem newItem_mem_universe (G : Env) (B : String) (hB : B ∈ G.nonTerminals) (g : List String)
    (hg : g ∈ (G.grammarsAt B).right) : newItem B g ∈ itemUniverse G := by
  rw [mem_itemUniverse]
  unfold newItem
  by_cases he : isEpsilon g = true
  · have := (isEpsilon_iff g).1 he
    subst this
    simp only [he, if_true]
    exact ⟨Or.inl ⟨hB, hg⟩, by decide, by decide⟩
  · simp only [he, if_false]
    exact ⟨Or.inl ⟨hB, hg⟩, le_refl _, by simp⟩

theorem closure_subset_universe (G : Env) (X c : List Item) (hX : ∀ it ∈ X, it ∈ itemUniverse G)
    (hc : closure G X = some c) : ∀ it ∈ c, it ∈ itemUniverse G := by
  apply (closure_inv G X c hc).least (fun it => it ∈ itemUniverse G) hX
  apply closed_of_newItem
  intro it B _ _ hB g hg
  exact newItem_mem_universe G B hB g hg

theorem states_length_le (G : Env) (states : List (List Item)) (hn : states.Nodup)
    (hok : ∀ s ∈ states, StateOK G s) : states.length ≤ 2 ^ (itemUniverse G).length := by
  have hinj : ∀ s ∈ states, ∀ t ∈ states, s.toFinset = t.toFinset → s = t := by
    intro s hs t ht hst
    apply ascending_ext itemLt_strictTotal s t (hok s hs).1 (hok t ht).1
    intro x
    rw [← List.mem_toFinset, hst, List.mem_toFinset]
  have hnd : (states.map List.toFinset).Nodup := hn.map_on hinj
  have hsub : (states.map List.toFinset).toFinset ⊆ (itemUniverse G).toFinset.powerset := by
    intro f hf
    rw [List.mem_toFinset, List.mem_map] at hf
    obtain ⟨s, hs, rfl⟩ := hf
    rw [Finset.mem_powerset]
    intro x hx
    rw [List.mem_toFinset] at hx ⊢
    exact (hok s hs).2 x hx
  have h1 := Finset.card_le_card hsub
  rw [List.toFinset_card_of_nodup hnd, List.length_map, Finset.card_powerset] at h1
  exact le_trans h1 (Nat.pow_le_pow_right (by decide) (List.toFinset_card_le _))

/-! ## constructDFA: the invariant -/

theorem getElem?_append_some {α : Type} (l l1 : List α) (i : Nat) (a : α)
    (h : l[i]? = some a) : (l ++ l1)[i]? = some a := by
  have hi : i < l.length := (List.getElem?_eq_some_iff.1 h).1
  rw [List.getElem?_append_left hi]
  exact h

theorem transOK_append (G : Env) (states : List (List Item)) (c : List Item) (i : Nat)
    (X : String) (j : Nat) (h : TransOK G states i X j) : TransOK G (states ++ [c]) i X j := by
  obtain ⟨s, t, c1, h1, h2, h3, h4, h5⟩ := h
  exact ⟨s, t, c1, getElem?_append_some _ _ _ _ h1, getElem?_append_some _ _ _ _ h2, h3, h4, h5⟩

theorem partOK_closure (G : Env) (s : List Item) (hs : StateOK G s) (X : String)
    (items c : List Item) (hp : PartOK s X items) (hc : closure G items = some c) :
    StateOK G c ∧ ∃ c1, closure G (gotoKernel s X) = some c1 ∧ ∀ it, it ∈ c ↔ it ∈ c1 := by
  refine ⟨⟨closure_ascending G items c hp.1 hc, ?_⟩, ?_⟩
  · apply closure_subset_universe G items c _ hc
    intro it hit
    obtain ⟨it0, h0, h1, rfl⟩ := (mem_gotoKernel _ _ _).1 ((hp.2.1 it).1 hit)
    exact advance_mem_universe G it0 X (hs.2 it0 h0) h1
  · obtain ⟨c1, hc1⟩ := closure_isSome G (gotoKernel s X)
    exact ⟨c1, hc1, closure_congr G items (gotoKernel s X) c c1 hp.2.1 hc hc1⟩

theorem findState_some (c : List Item) (states : List (List Item)) (i j : Nat)
    (h : findState c states i = some j) : i ≤ j ∧ states[j - i]? = some c := by
  induction states generalizing i with
  | nil => simp [findState] at h
  | cons s rest ih =>
    simp only [findState] at h
    split at h
    · rename_i hs
      cases h
      simp [hs]
    · obtain ⟨h1, h2⟩ := ih (i + 1) h
      refine ⟨by omega, ?_⟩
      have : j - i = (j - (i + 1)) + 1 := by omega
      rw [this, List.getElem?_cons_succ]
      exact h2

theorem findState_none (c : List Item) (states : List (List Item)) (i : Nat)
    (h : findState c states i = none) : c ∉ states := by
  induction states generalizing i with
  | nil => simp
  | cons s rest ih =>
    simp only [findState] at h
    split at h
    · cases h
    · rename_i hs
      intro hmem
      rcases List.mem_cons.1 hmem with e | e
      · exact hs e.symm
      · exact ih (i + 1) h e

theorem dfaCore_found (G : Env) (init : List Item) (k : Nat) (s : List Item) (cur : List String)
    (A : DFA) (X : String) (c c1 : List Item) (idx : Nat)
    (hk : A.states[k]? = some s) (hcore : DFACore G init k cur A)
    (hex : ∃ it0 ∈ s, it0.next = some X)
    (hc1 : closure G (gotoKernel s X) = some c1) (hcc1 : ∀ it, it ∈ c ↔ it ∈ c1)
    (hget : A.states[idx]? = some c) :
    DFACore G init k (cur ++ [X])
      { states := A.states
        transitions := mapSet pairLt (k, X) idx A.transitions
        worklist := A.worklist } := by
  refine ⟨hcore.first, hcore.nodup, hcore.ok, ?_, ?_⟩
  · intro i Y j hf
    by_cases hkey : (i, Y) = (k, X)
    · cases hkey
      simp only [mapFind_mapSet_self, Option.some.injEq] at hf
      subst hf
      exact ⟨Or.inr ⟨rfl, by simp⟩, s, c, c1, hk, hget, hex, hc1, hcc1⟩
    · simp only [mapFind_mapSet_ne _ _ _ _ _ hkey] at hf
      obtain ⟨h1, h2⟩ := hcore.sound i Y j hf
      refine ⟨?_, h2⟩
      rcases h1 with h1 | ⟨h1, h3⟩
      · exact Or.inl h1
      · exact Or.inr ⟨h1, List.mem_append_left _ h3⟩
  · intro i Y hi s1 hs1 hex1
    by_cases hkey : (i, Y) = (k, X)
    · cases hkey
      simp [mapFind_mapSet_self]
    · simp only [mapFind_mapSet_ne _ _ _ _ _ hkey]
      apply hcore.complete i Y _ s1 hs1 hex1
      rcases hi with h1 | ⟨h1, h3⟩
      · exact Or.inl h1
      · right
        refine ⟨h1, ?_⟩
        rcases List.mem_append.1 h3 with h4 | h4
        · exact h4
        · exfalso
          apply hkey
          rw [h1, List.mem_singleton.1 h4]

theorem dfaCore_new (G : Env) (init : List Item) (k : Nat) (s : List Item) (cur : List String)
    (A : DFA) (X : String) (c c1 : List Item)
    (hk : A.states[k]? = some s) (hcore : DFACore G init k cur A)
    (hex : ∃ it0 ∈ s, it0.next = some X)
    (hc1 : closure G (gotoKernel s X) = some c1) (hcc1 : ∀ it, it ∈ c ↔ it ∈ c1)
    (hcOK : StateOK G c) (hnotin : c ∉ A.states) :
    DFACore G init k (cur ++ [X])
      { states := A.states ++ [c]
        transitions := mapSet pairLt (k, X) A.states.length A.transitions
        worklist := A.worklist ++ [A.states.length] } := by
  have hklt : k < A.states.length := (List.getElem?_eq_some_iff.1 hk).1
  refine ⟨getElem?_append_some _ _ _ _ hcore.first, ?_, ?_, ?_, ?_⟩
  · exact List.nodup_append.2 ⟨hcore.nodup, List.nodup_singleton c, by
      intro a ha hb
      rw [List.mem_singleton] at hb
      exact hnotin (hb ▸ ha)⟩
  · intro t ht
    rcases List.mem_append.1 ht with h | h
    · exact hcore.ok t h
    · rw [List.mem_singleton.1 h]
      exact hcOK
  · intro i Y j hf
    by_cases hkey : (i, Y) = (k, X)
    · cases hkey
      simp only [mapFind_mapSet_self, Option.some.injEq] at hf
      subst hf
      exact ⟨Or.inr ⟨rfl, by simp⟩, s, c, c1, getElem?_append_some _ _ _ _ hk,
        List.getElem?_concat_length _ _, hex, hc1, hcc1⟩
    · simp only [mapFind_mapSet_ne _ _ _ _ _ hkey] at hf
      obtain ⟨h1, h2⟩ := hcore.sound i Y j hf
      refine ⟨?_, transOK_append G _ c i Y j h2⟩
      rcases h1 with h1 | ⟨h1, h3⟩
      · exact Or.inl h1
      · exact Or.inr ⟨h1, List.mem_append_left _ h3⟩
  · intro i Y hi s1 hs1 hex1
    by_cases hkey : (i, Y) = (k, X)
    · cases hkey
      simp [mapFind_mapSet_self]
    · simp only [mapFind_mapSet_ne _ _ _ _ _ hkey]
      have hilt : i < A.states.length := by
        rcases hi with h1 | ⟨h1, _⟩ <;> omega
      have hs2 : A.states[i]? = some s1 := by
        simp only at hs1
        rw [List.getElem?_append_left hilt] at hs1
        exact hs1
      apply hcore.complete i Y _ s1 hs2 hex1
      rcases hi with h1 | ⟨h1, h3⟩
      · exact Or.inl h1
      · right
        refine ⟨h1, ?_⟩
        rcases List.mem_append.1 h3 with h4 | h4
        · exact h4
        · exfalso
          apply hkey
          rw [h1, List.mem_singleton.1 h4]

theorem processPartitions_inv (G : Env) (init : List Item) (k : Nat) (s : List Item)
    (parts : List (String × List Item)) :
    ∀ (cur : List String) (A A1 : DFA),
      (∀ X items, (X, items) ∈ parts → PartOK s X items) →
      A.states[k]? = some s → DFACore G init k cur A →
      A.worklist = List.range' (k + 1) (A.states.length - (k + 1)) →
      processPartitions G k parts A = some A1 →
      DFACore G init k (cur ++ parts.map Prod.fst) A1 ∧
        A1.worklist = List.range' (k + 1) (A1.states.length - (k + 1)) ∧
        A1.states[k]? = some s := by
  induction parts with
  | nil =>
    intro cur A A1 _ hk hcore hq hrun
    simp only [processPartitions, Option.some.injEq] at hrun
    subst hrun
    simpa using ⟨hcore, hq, hk⟩
  | cons p rest ih =>
    obtain ⟨X, items⟩ := p
    intro cur A A1 hparts hk hcore hq hrun
    have hklt : k < A.states.length := (List.getElem?_eq_some_iff.1 hk).1
    have hpX : PartOK s X items := hparts X items (List.mem_cons_self _ _)
    obtain ⟨c, hc⟩ := closure_isSome G items
    obtain ⟨hcOK, c1, hc1, hcc1⟩ :=
      partOK_closure G s (hcore.ok s (List.getElem?_mem hk)) X items c hpX hc
    have hrest : ∀ Y its, (Y, its) ∈ rest → PartOK s Y its :=
      fun Y its h => hparts Y its (List.mem_cons_of_mem _ h)
    simp only [processPartitions, hc] at hrun
    have hcur : cur ++ List.map Prod.fst ((X, items) :: rest)
        = (cur ++ [X]) ++ List.map Prod.fst rest := by simp
    rw [hcur]
    cases hf : findState c A.states 0 with
    | some idx =>
      simp only [hf] at hrun
      have hget : A.states[idx]? = some c := by
        simpa using (findState_some c A.states 0 idx hf).2
      exact ih (cur ++ [X]) ⟨A.states, mapSet pairLt (k, X) idx A.transitions, A.worklist⟩
        A1 hrest hk
        (dfaCore_found G init k s cur A X c c1 idx hk hcore hpX.2.2 hc1 hcc1 hget) hq hrun
    | none =>
      simp only [hf] at hrun
      have hnotin : c ∉ A.states := findState_none c A.states 0 hf
      refine ih (cur ++ [X])
        ⟨A.states ++ [c], mapSet pairLt (k, X) A.states.length A.transitions,
          A.worklist ++ [A.states.length]⟩ A1 hrest (getElem?_append_some _ _ _ _ hk)
        (dfaCore_new G init k s cur A X c c1 hk hcore hpX.2.2 hc1 hcc1 hcOK hnotin) ?_ hrun
      simp only [List.length_append, List.length_singleton]
      rw [hq]
      have : A.states.length + 1 - (k + 1) = (A.states.length - (k + 1)) + 1 := by omega
      rw [this, List.range'_concat]
      congr 2
      omega

theorem processPartitions_isSome (G : Env) (k : Nat) (parts : List (String × List Item)) :
    ∀ A : DFA, ∃ A1, processPartitions G k parts A = some A1 := by
  induction parts with
  | nil => intro A; exact ⟨A, rfl⟩
  | cons p rest ih =>
    obtain ⟨X, items⟩ := p
    intro A
    obtain ⟨c, hc⟩ := closure_isSome G items
    simp only [processPartitions, hc]
    split
    · exact ih _
    · exact ih _

theorem dfaLoop_inv (G : Env) (init : List Item) (fuel : Nat) :
    ∀ (k : Nat) (A : DFA), DFACore G init k [] A →
      A.worklist = List.range' k (A.states.length - k) → k ≤ A.states.length →
      2 ^ (itemUniverse G).length - k ≤ fuel →
      ∃ A1, dfaLoop G fuel A = some A1 ∧ DFACore G init A1.states.length [] A1 ∧
        A1.worklist = [] := by
  induction fuel with
  | zero =>
    intro k A hcore hq hk hfuel
    obtain ⟨states, transitions, worklist⟩ := A
    simp only at hq hk
    have hlen := states_length_le G states hcore.nodup hcore.ok
    have hkl : k = states.length := by omega
    subst hkl
    simp only [Nat.sub_self, List.range'_zero] at hq
    subst hq
    exact ⟨⟨states, transitions, []⟩, by simp [dfaLoop], hcore, rfl⟩
  | succ n ih =>
    intro k A hcore hq hk hfuel
    obtain ⟨states, transitions, worklist⟩ := A
    simp only at hq hk
    by_cases hkl : k = states.length
    · subst hkl
      simp only [Nat.sub_self, List.range'_zero] at hq
      subst hq
      exact ⟨⟨states, transitions, []⟩, by simp [dfaLoop], hcore, rfl⟩
    · have hlt : k < states.length := by omega
      have hq2 : worklist = k :: List.range' (k + 1) (states.length - (k + 1)) := by
        rw [hq]
        have : states.length - k = (states.length - (k + 1)) + 1 := by omega
        rw [this, List.range'_succ]
      subst hq2
      have hs : states[k]? = some states[k] := List.getElem?_eq_getElem hlt
      have hgetD : states.getD k [] = states[k] := by
        rw [List.getD_eq_getElem?_getD, hs]
        rfl
      have hp := partitionItems_inv states[k]
      obtain ⟨A1, hA1⟩ := processPartitions_isSome G k (partitionItems states[k] [])
        ⟨states, transitions, List.range' (k + 1) (states.length - (k + 1))⟩
      have hcore0 : DFACore G init k []
          ⟨states, transitions, List.range' (k + 1) (states.length - (k + 1))⟩ :=
        ⟨hcore.first, hcore.nodup, hcore.ok, hcore.sound, hcore.complete⟩
      obtain ⟨h1, h2, h3⟩ := processPartitions_inv G init k states[k]
        (partitionItems states[k] []) [] _ A1
        (fun X items hmem => hp.found X items (hp.entries X items hmem)) hs hcore0 rfl hA1
      have hk1 : k + 1 ≤ A1.states.length := (List.getElem?_eq_some_iff.1 h3).1
      have hcore1 : DFACore G init (k + 1) [] A1 := by
        refine ⟨h1.first, h1.nodup, h1.ok, ?_, ?_⟩
        · intro i X j hf
          obtain ⟨h4, h5⟩ := h1.sound i X j hf
          refine ⟨Or.inl ?_, h5⟩
          rcases h4 with h4 | ⟨h4, _⟩ <;> omega
        · intro i X hi s1 hs1 hex
          rcases hi with hi | ⟨_, hi⟩
          · apply h1.complete i X _ s1 hs1 hex
            by_cases hik : i < k
            · exact Or.inl hik
            · have hik2 : i = k := by omega
              subst hik2
              right
              refine ⟨rfl, ?_⟩
              rw [h3] at hs1
              cases hs1
              obtain ⟨it, hit, hn⟩ := hex
              cases hf : mapFind X (partitionItems states[i] []) with
              | none => exact absurd hn (hp.absent X hf it hit)
              | some items =>
                simp only [List.nil_append, List.mem_map]
                exact ⟨(X, items), mem_of_mapFind _ _ _ hf, rfl⟩
          · simp at hi
      obtain ⟨A2, hA2, hcore2, hw2⟩ := ih (k + 1) A1 hcore1 h2 hk1 (by omega)
      refine ⟨A2, ?_, hcore2, hw2⟩
      simp only [dfaLoop, hgetD, hA1]
      exact hA2

/-- The result of `constructDFA`: the invariant holds with every state processed. -/
theorem constructDFA_inv (G : Env) (prod : List String) (rest : List (List String))
    (h : (G.grammarsAt G.startSymbol).right = prod :: rest) :
    ∃ init A, closure G [⟨G.startSymbol, prod, 0⟩] = some init ∧ constructDFA G = some A ∧
      DFACore G init A.states.length [] A ∧ A.worklist = [] := by
  obtain ⟨init, hinit⟩ := closure_isSome G [⟨G.startSymbol, prod, 0⟩]
  have hok : StateOK G init := by
    refine ⟨closure_ascending G _ init (by simp [Ascending]) hinit, ?_⟩
    apply closure_subset_universe G _ init _ hinit
    intro it hit
    rw [List.mem_singleton] at hit
    subst hit
    rw [mem_itemUniverse]
    refine ⟨Or.inr ⟨rfl, ?_⟩, le_refl _, by simp⟩
    rw [h]
    exact List.mem_cons_self _ _
  have hcore : DFACore G init 0 [] ⟨[init], [], [0]⟩ := by
    refine ⟨rfl, List.nodup_singleton _, ?_, ?_, ?_⟩
    · intro s hs
      rw [List.mem_singleton.1 hs]
      exact hok
    · intro i X j hf
      simp [mapFind] at hf
    · intro i X hi
      rcases hi with hi | ⟨_, hi⟩
      · omega
      · simp at hi
  obtain ⟨A, hA, hcoreA, hwA⟩ := dfaLoop_inv G init (2 ^ (itemUniverse G).length) 0
    ⟨[init], [], [0]⟩ hcore rfl (Nat.zero_le _) (le_of_eq (Nat.sub_zero _))
  refine ⟨init, A, hinit, ?_, hcoreA, hwA⟩
  unfold constructDFA
  simp only [h, hinit]
  exact hA

/-! ## constructDFA: the claims -/

/-- C4: when the start symbol has a first alternative, `constructDFA` returns
and its state list holds no two different indices whose item sets are equal
(have the same items). -/
theorem constructDFA_states_distinct (G : Env)
    (h : (G.grammarsAt G.startSymbol).right ≠ []) :
    ∃ A, constructDFA G = some A ∧
      ∀ (i j : Nat) (s t : List Item), A.states[i]? = some s → A.states[j]? = some t →
        i ≠ j → ¬ ∀ it, it ∈ s ↔ it ∈ t := by
  obtain ⟨prod, rest, hpr⟩ := List.exists_cons_of_ne_nil h
  obtain ⟨init, A, _, hA, hcore, _⟩ := constructDFA_inv G prod rest hpr
  refine ⟨A, hA, ?_⟩
  intro i j s t hs ht hij hmem
  have hst : s = t :=
    ascending_ext itemLt_strictTotal s t (hcore.ok s (List.getElem?_mem hs)).1
      (hcore.ok t (List.getElem?_mem ht)).1 hmem
  subst hst
  obtain ⟨hi, hsi⟩ := List.getElem?_eq_some_iff.1 hs
  obtain ⟨hj, hsj⟩ := List.getElem?_eq_some_iff.1 ht
  exact hij ((List.Nodup.getElem_inj_iff hcore.nodup).1 (hsi.trans hsj.symm))

theorem action_setAction (T : Tables) (i i1 : Nat) (sym sym1 a : String) :
    (T.setAction i sym a).action i1 sym1
      = if i1 = i ∧ sym1 = sym then some a else T.action i1 sym1 := by
  unfold Tables.setAction Tables.action
  simp only
  by_cases hi : i1 = i
  · subst hi
    rw [mapFind_mapSet_self]
    simp only [true_and]
    by_cases hs : sym1 = sym
    · subst hs
      simp [mapFind_mapSet_self]
    · rw [mapFind_mapSet_ne _ _ _ _ _ hs]
      simp only [hs, if_false]
      cases mapFind i1 T.actionTable with
      | none => simp [mapFind]
      | some row => simp
  · rw [mapFind_mapSet_ne _ _ _ _ _ hi]
    simp [hi]

theorem Ext.refl (T : Tables) : Ext T T := ⟨fun _ _ _ h => h, fun _ h => h⟩

theorem Ext.trans {T T1 T2 : Tables} (h1 : Ext T T1) (h2 : Ext T1 T2) : Ext T T2 :=
  ⟨fun i sym a h => h2.action i sym a (h1.action i sym a h),
    fun c h => h2.conflicts c (h1.conflicts c h)⟩

theorem ext_of_eq (T T1 : Tables) (ha : T1.actionTable = T.actionTable)
    (hc : T1.conflicts = T.conflicts) : Ext T T1 := by
  refine ⟨?_, ?_⟩
  · intro i sym a h
    unfold Tables.action at h ⊢
    rw [ha]
    exact h
  · intro c h
    rw [hc]
    exact h

theorem ext_setAction (T : Tables) (i : Nat) (sym a : String)
    (h : T.action i sym = none ∨ T.action i sym = some a) : Ext T (T.setAction i sym a) := by
  refine ⟨?_, fun c hc => hc⟩
  intro i1 sym1 b hb
  rw [action_setAction]
  by_cases hk : i1 = i ∧ sym1 = sym
  · obtain ⟨h1, h2⟩ := hk
    subst h1
    subst h2
    simp only [and_self, if_true]
    rcases h with h | h
    · rw [h] at hb
      cases hb
    · rw [h] at hb
      exact hb
  · simp only [hk, if_false]
    exact hb

theorem ext_propose (T : Tables) (i : Nat) (sym a : String) : Ext T (T.propose i sym a) := by
  unfold Tables.propose
  cases h : T.action i sym with
  | none => exact ext_setAction T i sym a (Or.inl h)
  | some old =>
    simp only
    split
    · refine ⟨fun i1 sym1 b hb => ?_, fun c hc => List.mem_append_left _ hc⟩
      unfold Tables.action at hb ⊢
      exact hb
    · rename_i heq
      have : old = a := by simpa using heq
      subst this
      exact ext_setAction T i sym old (Or.inr h)

theorem ext_proposeAccept (T : Tables) (i : Nat) : Ext T (T.proposeAccept i) := by
  unfold Tables.proposeAccept
  cases h : T.action i "$" with
  | none => exact ext_setAction T i "$" "acc" (Or.inl h)
  | some old =>
    refine ⟨fun i1 sym1 b hb => ?_, fun c hc => List.mem_append_left _ hc⟩
    unfold Tables.action at hb ⊢
    exact hb

theorem ext_transitionAt (T : Tables) (i : Nat) (sym : String) :
    Ext T (T.transitionAt i sym).2 := by
  unfold Tables.transitionAt
  split
  · exact Ext.refl T
  · exact ext_of_eq _ _ rfl rfl

/-- The write: after `propose`, the cell holds the action or a conflict line
for the cell was printed. -/
theorem propose_outcome (T : Tables) (i : Nat) (sym a : String) :
    (T.propose i sym a).action i sym = some a ∨
      ∃ c ∈ (T.propose i sym a).conflicts, c.state = i ∧ c.symbol = sym := by
  unfold Tables.propose
  cases h : T.action i sym with
  | none =>
    left
    simp [action_setAction]
  | some old =>
    simp only
    split
    · right
      exact ⟨⟨i, sym, old, a⟩, by simp, rfl, rfl⟩
    · left
      simp [action_setAction]

theorem ext_tableShift (G : Env) (i : Nat) (item : Item) (T : Tables) :
    Ext T (tableShift G i item T) := by
  unfold tableShift
  split
  · split
    · exact (ext_transitionAt T i _).trans (ext_propose _ _ _ _)
    · exact Ext.refl T
  · exact Ext.refl T

theorem ext_tableReduceAll (i idx : Nat) (terms : List String) (T : Tables) :
    Ext T (tableReduceAll i idx terms T) := by
  induction terms generalizing T with
  | nil => exact Ext.refl T
  | cons t rest ih =>
    simp only [tableReduceAll]
    exact (ext_propose T i t _).trans (ih _)

theorem ext_tableReduce (G : Env) (i : Nat) (item : Item) (idx : Nat) (gs : List Grammar)
    (T : Tables) : Ext T (tableReduce G i item idx gs T) := by
  induction gs generalizing idx T with
  | nil => exact Ext.refl T
  | cons g rest ih =>
    simp only [tableReduce]
    split
    · exact (ext_tableReduceAll i idx G.terminals T).trans (ih _ _)
    · exact ih _ _

theorem ext_tableItem (G : Env) (i : Nat) (item : Item) (T : Tables) :
    Ext T (tableItem G i item T) := by
  unfold tableItem
  split
  · split
    · exact (ext_tableShift G i item T).trans (ext_tableReduce G i item 0 _ _)
    · exact (ext_tableShift G i item T).trans (ext_proposeAccept _ i)
  · exact ext_tableShift G i item T

theorem ext_tableItems (G : Env) (i : Nat) (items : List Item) (T : Tables) :
    Ext T (items.foldl (fun T item => tableItem G i item T) T) := by
  induction items generalizing T with
  | nil => exact Ext.refl T
  | cons item rest ih =>
    simp only [List.foldl_cons]
    exact (ext_tableItem G i item T).trans (ih _)

theorem ext_tableGoto (i : Nat) (nts : List String) (T : Tables) :
    Ext T (tableGoto i nts T) := by
  induction nts generalizing T with
  | nil => exact Ext.refl T
  | cons nt rest ih =>
    simp only [tableGoto]
    split
    · rename_i n _
      exact (ext_of_eq T
        { T with gotoTable :=
            mapSet natLt i (mapSet strLt nt n ((mapFind i T.gotoTable).getD [])) T.gotoTable }
        rfl rfl).trans (ih _)
    · exact ih _

theorem ext_tableStates (G : Env) (i : Nat) (states : List (List Item)) (T : Tables) :
    Ext T (tableStates G i states T) := by
  induction states generalizing i T with
  | nil => exact Ext.refl T
  | cons items rest ih =>
    simp only [tableStates]
    exact ((ext_tableItems G i items T).trans (ext_tableGoto i _ _)).trans (ih _ _)

theorem Hit.ext {i : Nat} {sym a : String} {T T1 : Tables} (h : Hit i sym a T)
    (he : Ext T T1) : Hit i sym a T1 := by
  obtain ⟨T0, h0⟩ := h
  exact ⟨T0, h0.trans he⟩

theorem hit_tableReduceAll (i idx : Nat) (terms : List String) (T : Tables) (t : String)
    (ht : t ∈ terms) : Hit i t ("R" ++ toString idx) (tableReduceAll i idx terms T) := by
  induction terms generalizing T with
  | nil => simp at ht
  | cons t1 rest ih =>
    simp only [tableReduceAll]
    rcases List.mem_cons.1 ht with e | e
    · subst e
      exact ⟨T, ext_tableReduceAll i idx rest _⟩
    · exact ih _ e

theorem hit_tableReduce (G : Env) (i : Nat) (item : Item) (gs : List Grammar) :
    ∀ (idx : Nat) (T : Tables) (n : Nat) (g : Grammar), gs[n]? = some g →
      g.value = item.head → g.right.head? = some item.production →
      ∀ t ∈ G.terminals, Hit i t ("R" ++ toString (idx + n)) (tableReduce G i item idx gs T) := by
  induction gs with
  | nil =>
    intro idx T n g hg
    simp at hg
  | cons g1 rest ih =>
    intro idx T n g hg hv hr t ht
    simp only [tableReduce]
    cases n with
    | zero =>
      simp only [List.getElem?_cons_zero, Option.some.injEq] at hg
      subst hg
      simp only [hv, hr, and_self, if_true, Nat.add_zero]
      exact (hit_tableReduceAll i idx G.terminals T t ht).ext (ext_tableReduce G i item _ _ _)
    | succ m =>
      simp only [List.getElem?_cons_succ] at hg
      have key : ∀ T1, Hit i t ("R" ++ toString (idx + (m + 1)))
          (tableReduce G i item (idx + 1) rest T1) := by
        intro T1
        have := ih (idx + 1) T1 m g hg hv hr t ht
        have e : idx + 1 + m = idx + (m + 1) := by omega
        rw [e] at this
        exact this
      split
      · exact key _
      · exact key _

theorem hit_tableItem (G : Env) (i : Nat) (item : Item) (T : Tables)
    (hc : item.dot = (item.production.length : Int)) (hh : item.head ≠ G.startSymbol)
    (n : Nat) (g : Grammar) (hg : G.grammarindex[n]? = some g) (hv : g.value = item.head)
    (hr : g.right.head? = some item.production) (t : String) (ht : t ∈ G.terminals) :
    Hit i t ("R" ++ toString n) (tableItem G i item T) := by
  unfold tableItem
  have hc1 : item.complete = true := by simp [Item.complete, hc]
  simp only [hc1, if_true, hh, ne_eq, not_false_eq_true]
  have := hit_tableReduce G i item G.grammarindex 0 (tableShift G i item T) n g hg hv hr t ht
  simpa using this

theorem hit_tableItems (G : Env) (i : Nat) (items : List Item) (T : Tables) (item : Item)
    (hi : item ∈ items)
    (hc : item.dot = (item.production.length : Int)) (hh : item.head ≠ G.startSymbol)
    (n : Nat) (g : Grammar) (hg : G.grammarindex[n]? = some g) (hv : g.value = item.head)
    (hr : g.right.head? = some item.production) (t : String) (ht : t ∈ G.terminals) :
    Hit i t ("R" ++ toString n) (items.foldl (fun T item => tableItem G i item T) T) := by
  induction items generalizing T with
  | nil => simp at hi
  | cons it rest ih =>
    simp only [List.foldl_cons]
    rcases List.mem_cons.1 hi with e | e
    · subst e
      exact (hit_tableItem G i item T hc hh n g hg hv hr t ht).ext (ext_tableItems G i rest _)
    · exact ih _ e

theorem hit_tableStates (G : Env) (states : List (List Item)) :
    ∀ (i0 : Nat) (T : Tables) (k : Nat) (items : List Item), states[k]? = some items →
      ∀ item ∈ items, item.dot = (item.production.length : Int) → item.head ≠ G.startSymbol →
      ∀ (n : Nat) (g : Grammar), G.grammarindex[n]? = some g → g.value = item.head →
      g.right.head? = some item.production → ∀ t ∈ G.terminals,
      Hit (i0 + k) t ("R" ++ toString n) (tableStates G i0 states T) := by
  induction states with
  | nil =>
    intro i0 T k items hk
    simp at hk
  | cons s rest ih =>
    intro i0 T k items hk item hi hc hh n g hg hv hr t ht
    simp only [tableStates]
    cases k with
    | zero =>
      simp only [List.getElem?_cons_zero, Option.some.injEq] at hk
      subst hk
      exact (hit_tableItems G i0 s T item hi hc hh n g hg hv hr t ht).ext
        ((ext_tableGoto i0 _ _).trans (ext_tableStates G _ _ _))
    | succ m =>
      simp only [List.getElem?_cons_succ] at hk
      have := ih (i0 + 1) (tableGoto i0 G.nonTerminals
        (s.foldl (fun T item => tableItem G i0 item T) T)) m items hk item hi hc hh n g hg hv hr t ht
      have e : i0 + 1 + m = i0 + (m + 1) := by omega
      rw [e] at this
      exact this

theorem mem_terminals_dollar (decls : List (String × List (List String))) :
    "$" ∈ (loadEnv decls).terminals := by
  unfold loadEnv GetTerminal
  simp only
  exact (mem_setInsert _ _ _ _).2 (Or.inl rfl)

/-- C6: in a state `i` for which `constructLR0Table` printed no conflict, a
complete item `(H, body, len(body))` with `H` different from the start symbol
makes `ACTION[i][t]` the action `R p` for every terminal `t`, where `p` is an
index of the production `(H, body)` in `grammarindex`; for a grammar loaded by
`main` the end-of-input terminal "$" is among these terminals. -/
theorem constructLR0Table_reduce (G : Env) (states : List (List Item))
    (transitions : List ((Nat × String) × Nat)) (i : Nat) (items : List Item) (item : Item)
    (p : Nat) (g : Grammar)
    (hs : states[i]? = some items)
    (hnc : ∀ c ∈ (constructLR0Table G states transitions).conflicts, c.state ≠ i)
    (hi : item ∈ items) (hc : item.dot = (item.production.length : Int))
    (hh : item.head ≠ G.startSymbol)
    (hp : G.grammarindex[p]? = some g) (hv : g.value = item.head)
    (hr : g.right.head? = some item.production) :
    (∀ t ∈ G.terminals,
        (constructLR0Table G states transitions).action i t = some ("R" ++ toString p)) ∧
      (∀ decls, G = loadEnv decls →
        (constructLR0Table G states transitions).action i "$" = some ("R" ++ toString p)) := by
  have main : ∀ t ∈ G.terminals,
      (constructLR0Table G states transitions).action i t = some ("R" ++ toString p) := by
    intro t ht
    have hhit := hit_tableStates G states 0 ⟨transitions, [], [], []⟩ i items hs item hi hc hh
      p g hp hv hr t ht
    rw [Nat.zero_add] at hhit
    obtain ⟨T0, hT0⟩ := hhit
    rcases propose_outcome T0 i t ("R" ++ toString p) with h | ⟨c, hcm, hcs, _⟩
    · exact hT0.action i t _ h
    · exact absurd hcs (hnc c (hT0.conflicts c hcm))
  refine ⟨main, ?_⟩
  intro decls hG
  apply main
  rw [hG]
  exact mem_terminals_dollar decls

set_option maxRecDepth 100000

theorem constructDFA_grammarSA :
    constructDFA (loadEnv grammarSA) = some ⟨statesSA, transitionsSA, []⟩ := by
  have h : (constructDFA (loadEnv grammarSA)).map (fun A => (A.states, A.transitions, A.worklist))
      = some (statesSA, transitionsSA, []) := by decide
  cases hA : constructDFA (loadEnv grammarSA) with
  | none => simp [hA] at h
  | some A =>
    obtain ⟨s, t, w⟩ := A
    simp only [hA, Option.map_some', Option.some.injEq, Prod.mk.injEq] at h
    obtain ⟨h1, h2, h3⟩ := h
    subst h1; subst h2; subst h3
    rfl

theorem analyzeLoop_fuel (G : Env) (T : Tables) (buffer : List Char) (fuel : Nat) :
    ∀ (stack : List String) (index : Nat) (rows : List TraceRow) (v : Verdict) (n : Nat),
      analyzeLoop G T buffer fuel stack index = (rows, some v) →
      analyzeLoop G T buffer (fuel + n) stack index = (rows, some v) := by
  induction fuel with
  | zero =>
    intro stack index rows v n h
    simp [analyzeLoop] at h
  | succ m ih =>
    intro stack index rows v n h
    have e : m + 1 + n = (m + n) + 1 := by omega
    rw [e]
    simp only [analyzeLoop] at h ⊢
    cases hs : analyzeStep G T buffer stack index with
    | done w =>
      simp only [hs] at h ⊢
      exact h
    | next stack1 index1 =>
      simp only [hs, Prod.mk.injEq] at h ⊢
      obtain ⟨h1, h2⟩ := h
      have := ih stack1 index1 (analyzeLoop G T buffer m stack1 index1).1 v n
        (Prod.ext rfl h2)
      rw [this]
      exact ⟨h1, rfl⟩

/-! ## The examples of the specification -/

/-- The start symbol of the grammar `S -> a A`, `A -> c A | d` has a first
alternative, and the states built for it are pairwise different as item sets. -/
theorem constructDFA_states_distinct_witness :
    ((loadEnv grammarSA).grammarsAt (loadEnv grammarSA).startSymbol).right ≠ [] ∧
    ∃ A, constructDFA (loadEnv grammarSA) = some A ∧
      ∀ (i j : Nat) (s t : List Item), A.states[i]? = some s → A.states[j]? = some t →
        i ≠ j → ¬ ∀ it, it ∈ s ↔ it ∈ t :=
  ⟨by decide, constructDFA_states_distinct (loadEnv grammarSA) (by decide)⟩

/-- State 5 of the automaton of `S -> a A`, `A -> c A | d` is the single item
`A -> d .`, no conflict is printed for it, production 1 is `A -> d`, and every
terminal has the action `R1` in state 5. -/
theorem constructLR0Table_reduce_witness :
    constructDFA (loadEnv grammarSA) = some ⟨statesSA, transitionsSA, []⟩ ∧
    statesSA[5]? = some [⟨"A", ["d"], 1⟩] ∧
    (∀ c ∈ (constructLR0Table (loadEnv grammarSA) statesSA transitionsSA).conflicts,
      c.state ≠ 5) ∧
    (⟨"A", ["d"], 1⟩ : Item).head ≠ (loadEnv grammarSA).startSymbol ∧
    (loadEnv grammarSA).grammarindex[1]? = some ⟨"A", [["d"]]⟩ ∧
    (∀ t ∈ (loadEnv grammarSA).terminals,
        (constructLR0Table (loadEnv grammarSA) statesSA transitionsSA).action 5 t
          = some ("R" ++ toString 1)) ∧
      (∀ decls, loadEnv grammarSA = loadEnv decls →
        (constructLR0Table (loadEnv grammarSA) statesSA transitionsSA).action 5 "$"
          = some ("R" ++ toString 1)) :=
  ⟨constructDFA_grammarSA, by decide, by decide, by decide, by decide,
    constructLR0Table_reduce (loadEnv grammarSA) statesSA transitionsSA 5 [⟨"A", ["d"], 1⟩]
      ⟨"A", ["d"], 1⟩ 1 ⟨"A", [["d"]]⟩ (by decide) (by decide) (by decide) (by decide)
      (by decide) (by decide) (by decide) (by decide)⟩

/-- C8: the tables of `E -> E + E | id` record a conflict (in state 4 on `+`,
between `S3` and `R0`), the tables of `S -> a A`, `A -> c A | d` record none. -/
theorem conflicts_examples :
    (loadEnv grammarE).grammars = [("E", ⟨"E", [["E", "+", "E"], ["id"]]⟩), ("E~", ⟨"E~", [["E"]]⟩)] ∧
    (loadEnv grammarSA).grammars
      = [("A", ⟨"A", [["c", "A"], ["d"]]⟩), ("S", ⟨"S", [["a", "A"]]⟩), ("S~", ⟨"S~", [["S"]]⟩)] ∧
    (∃ T, buildTables (loadEnv grammarE) = some T ∧ T.conflicts = [⟨4, "+", "S3", "R0"⟩] ∧
      1 ≤ T.conflicts.length) ∧
    (∃ T, buildTables (loadEnv grammarSA) = some T ∧ T.conflicts = []) := by
  have hE : (buildTables (loadEnv grammarE)).map (fun T => T.conflicts)
      = some [⟨4, "+", "S3", "R0"⟩] := by decide
  have hS : (buildTables (loadEnv grammarSA)).map (fun T => T.conflicts) = some [] := by decide
  refine ⟨by decide, by decide, ?_, ?_⟩
  · cases hT : buildTables (loadEnv grammarE) with
    | none => simp [hT] at hE
    | some T =>
      simp only [hT, Option.map_some', Option.some.injEq] at hE
      exact ⟨T, rfl, hE, by simp [hE]⟩
  · cases hT : buildTables (loadEnv grammarSA) with
    | none => simp [hT] at hS
    | some T =>
      simp only [hT, Option.map_some', Option.some.injEq] at hS
      exact ⟨T, rfl, hS⟩

/-- C9: for `S -> a A`, `A -> c A | d` the driver run on `acd` prints Accept
(with any fuel from 7 on) after the actions shift `a`, shift `c`, shift `d`,
reduce by production 1 (`A -> d`), reduce by production 0 (`A -> c A`), reduce
by production 2 (`S -> a A`), accept. -/
theorem analyzeLR0_acd :
    (loadEnv grammarSA).grammarindex
      = [⟨"A", [["c", "A"]]⟩, ⟨"A", [["d"]]⟩, ⟨"S", [["a", "A"]]⟩, ⟨"S~", [["S"]]⟩] ∧
    ∃ T, buildTables (loadEnv grammarSA) = some T ∧
      ∀ n, analyzeLR0 (loadEnv grammarSA) T "acd" (7 + n) =
        ([⟨["$0"], "acd$", "S2"⟩,
          ⟨["$0", "a2"], "cd$", "S4"⟩,
          ⟨["$0", "a2", "c4"], "d$", "S5"⟩,
          ⟨["$0", "a2", "c4", "d5"], "$", "R1"⟩,
          ⟨["$0", "a2", "c4", "A6"], "$", "R0"⟩,
          ⟨["$0", "a2", "A3"], "$", "R2"⟩,
          ⟨["$0", "S1"], "$", "acc"⟩], some Verdict.accept) := by
  have h : (buildTables (loadEnv grammarSA)).map
      (fun T => analyzeLR0 (loadEnv grammarSA) T "acd" 7) =
        some ([⟨["$0"], "acd$", "S2"⟩,
          ⟨["$0", "a2"], "cd$", "S4"⟩,
          ⟨["$0", "a2", "c4"], "d$", "S5"⟩,
          ⟨["$0", "a2", "c4", "d5"], "$", "R1"⟩,
          ⟨["$0", "a2", "c4", "A6"], "$", "R0"⟩,
          ⟨["$0", "a2", "A3"], "$", "R2"⟩,
          ⟨["$0", "S1"], "$", "acc"⟩], some Verdict.accept) := by decide
  refine ⟨by decide, ?_⟩
  cases hT : buildTables (loadEnv grammarSA) with
  | none => simp [hT] at h
  | some T =>
    simp only [hT, Option.map_some', Option.some.injEq] at h
    refine ⟨T, rfl, fun n => ?_⟩
    exact analyzeLoop_fuel _ _ _ 7 _ _ _ _ n h

/-- C10: for `S -> A`, `A -> #` the driver run on the empty input looks up
`R0` (the production `A -> #`, of body length 1) in state 0, pops the single
stack entry `$0` and reads the top of the emptied stack: the run faults in its
first iteration and does not print Accept. -/
theorem analyzeLR0_epsilon_faults :
    (loadEnv grammarEps).grammarindex = [⟨"A", [["#"]]⟩, ⟨"S", [["A"]]⟩, ⟨"S~", [["S"]]⟩] ∧
    ∃ T, buildTables (loadEnv grammarEps) = some T ∧
      lookupAction T ['$'] ["$0"] 0 = some "R0" ∧
      (["$0"] : List String).drop (["#"] : List String).length = [] ∧
      ∀ n, analyzeLR0 (loadEnv grammarEps) T "" (1 + n)
        = ([⟨["$0"], "$", "R0"⟩], some Verdict.fault) := by
  have h : (buildTables (loadEnv grammarEps)).map
      (fun T => (lookupAction T ['$'] ["$0"] 0, analyzeLR0 (loadEnv grammarEps) T "" 1)) =
        some (some "R0", [⟨["$0"], "$", "R0"⟩], some Verdict.fault) := by decide
  refine ⟨by decide, ?_⟩
  cases hT : buildTables (loadEnv grammarEps) with
  | none => simp [hT] at h
  | some T =>
    simp only [hT, Option.map_some', Option.some.injEq, Prod.mk.injEq] at h
    refine ⟨T, rfl, h.1, by decide, fun n => ?_⟩
    exact analyzeLoop_fuel _ _ _ 1 _ _ _ _ n h.2

/-! ## Decimal numerals: `to_string` and `stoi` -/

theorem digitChar_toNat (k : Nat) (h : k < 10) : (Nat.digitChar k).toNat = 48 + k := by
  interval_cases k <;> rfl

theorem toDigitsCore_spec (fuel : Nat) :
    ∀ (n : Nat) (ds : List Char), n < fuel →
      ∃ l, Nat.toDigitsCore 10 fuel n ds = l ++ ds ∧ (∀ c ∈ l, IsDigit c) ∧ l ≠ [] ∧
        l.foldl digitStep 0 = n := by
  induction fuel with
  | zero => intro n ds h; omega
  | succ f ih =>
    intro n ds h
    have hd : (Nat.digitChar (n % 10)).toNat = 48 + n % 10 :=
      digitChar_toNat _ (Nat.mod_lt _ (by decide))
    have hdig : IsDigit (Nat.digitChar (n % 10)) := by
      unfold IsDigit
      have := Nat.mod_lt n (show 0 < 10 by decide)
      omega
    simp only [Nat.toDigitsCore]
    by_cases h0 : n / 10 = 0
    · simp only [h0, if_true]
      refine ⟨[Nat.digitChar (n % 10)], rfl, ?_, by simp, ?_⟩
      · intro c hc
        rw [List.mem_singleton.1 hc]
        exact hdig
      · simp only [List.foldl_cons, List.foldl_nil, digitStep, hd]
        omega
    · simp only [h0, if_false]
      have hlt : n / 10 < f := by omega
      obtain ⟨l, h1, h2, h3, h4⟩ := ih (n / 10) (Nat.digitChar (n % 10) :: ds) hlt
      refine ⟨l ++ [Nat.digitChar (n % 10)], ?_, ?_, by simp, ?_⟩
      · rw [h1]
        simp
      · intro c hc
        rcases List.mem_append.1 hc with hc | hc
        · exact h2 c hc
        · rw [List.mem_singleton.1 hc]
          exact hdig
      · rw [List.foldl_append, h4]
        simp only [List.foldl_cons, List.foldl_nil, digitStep, hd]
        omega

theorem leadingDigits_digits (l : List Char) (hl : ∀ c ∈ l, IsDigit c) :
    ∀ (rest : List Char) (acc : Nat) (b : Bool), l ≠ [] →
      leadingDigits (l ++ rest) (acc, b) = leadingDigits rest (l.foldl digitStep acc, true) := by
  induction l with
  | nil => intro rest acc b h; exact absurd rfl h
  | cons c l ih =>
    intro rest acc b _
    have hc : IsDigit c := hl c (List.mem_cons_self _ _)
    unfold IsDigit at hc
    simp only [List.cons_append, leadingDigits, hc, and_self, if_true, List.foldl_cons]
    cases l with
    | nil => simp [digitStep]
    | cons c1 l1 =>
      exact ih (fun x hx => hl x (List.mem_cons_of_mem _ hx)) rest (digitStep acc c) true
        (by simp)

theorem toString_data (p : Nat) :
    ∃ l, (toString p).data = l ∧ (∀ c ∈ l, IsDigit c) ∧ l ≠ [] ∧ l.foldl digitStep 0 = p := by
  obtain ⟨l, h1, h2, h3, h4⟩ := toDigitsCore_spec (p + 1) p [] (Nat.lt_succ_self p)
  refine ⟨l, ?_, h2, h3, h4⟩
  show (Nat.toDigits 10 p).asString.data = l
  unfold Nat.toDigits
  rw [h1]
  simp [List.asString]

theorem leadingDigits_toString (p : Nat) :
    leadingDigits (toString p).data (0, false) = (p, true) := by
  obtain ⟨l, h1, h2, h3, h4⟩ := toString_data p
  rw [h1]
  have := leadingDigits_digits l h2 [] 0 false h3
  rw [List.append_nil] at this
  rw [this, h4]
  rfl

theorem toString_nat_injective (p q : Nat) (h : toString p = toString q) : p = q := by
  have h1 := leadingDigits_toString p
  rw [h, leadingDigits_toString q] at h1
  exact (Prod.mk.inj h1).1.symm

theorem stoi_toString (p : Nat) (hp : p ≤ 2147483647) :
    stoi (toString p).data = some (p : Int) := by
  obtain ⟨l, h1, h2, h3, h4⟩ := toString_data p
  have hld := leadingDigits_toString p
  rw [h1] at hld ⊢
  cases l with
  | nil => exact absurd rfl h3
  | cons c l1 =>
    have hc : IsDigit c := h2 c (List.mem_cons_self _ _)
    unfold IsDigit at hc
    have hsp : isSpace c = false := by
      unfold isSpace
      simp only [decide_eq_false_iff_not]
      omega
    have hminus : c ≠ '-' := by
      intro e
      rw [e] at hc
      revert hc
      decide
    have hplus : c ≠ '+' := by
      intro e
      rw [e] at hc
      revert hc
      decide
    have hm : stoi.match_1 (fun _ => Bool × List Char) (c :: l1) (fun r => (true, r))
        (fun r => (false, r)) (fun r => (false, r)) = (false, c :: l1) := by
      split
      · rename_i r heq
        exact absurd (List.cons.inj heq).1 hminus
      · rename_i r heq
        exact absurd (List.cons.inj heq).1 hplus
      · rfl
    unfold stoi
    simp only [List.dropWhile_cons, hsp, Bool.false_eq_true, if_false, hm, hld, true_and]
    have : (-2147483648 : Int) ≤ (p : Int) ∧ (p : Int) ≤ 2147483647 := by omega
    simp [this]

/-! ## The bytes of a text -/

theorem toNat_ofNat_small (k : Nat) (h : k < 55296) : (Char.ofNat k).toNat = k := by
  have hv : k.isValidChar := Or.inl h
  unfold Char.ofNat
  simp only [hv, dite_true]
  unfold Char.ofNatAux Char.toNat
  simp [UInt32.toNat]

theorem utf8_ascii (c : Char) (h : c.toNat < 128) : utf8 c = [c] := by
  unfold utf8
  simp [h]

/-- The encoding of a character that is not below 128 has at least two bytes,
the first of them not below 192. -/
theorem utf8_high (c : Char) (h : ¬ c.toNat < 128) :
    ∃ b b1 rest, utf8 c = b :: b1 :: rest ∧ 192 ≤ b.toNat := by
  have hlt : c.toNat < 1114112 := by
    have := c.valid
    unfold Char.toNat
    rcases this with h1 | ⟨_, h2⟩
    · have : c.val.toNat < 55296 := h1
      omega
    · exact h2
  unfold utf8
  simp only [h, if_false]
  split
  · refine ⟨_, _, _, rfl, ?_⟩
    rw [toNat_ofNat_small _ (by omega)]
    omega
  · split
    · refine ⟨_, _, _, rfl, ?_⟩
      rw [toNat_ofNat_small _ (by omega)]
      omega
    · refine ⟨_, _, _, rfl, ?_⟩
      rw [toNat_ofNat_small _ (by omega)]
      omega

theorem utf8_ne_nil (c : Char) : utf8 c ≠ [] := by
  by_cases h : c.toNat < 128
  · rw [utf8_ascii c h]
    simp
  · obtain ⟨b, b1, rest, e, _⟩ := utf8_high c h
    rw [e]
    simp

theorem bytes_mk_cons (c : Char) (l : List Char) :
    bytes (String.mk (c :: l)) = utf8 c ++ bytes (String.mk l) := by
  unfold bytes
  simp

theorem bytes_ascii (l : List Char) (h : ∀ c ∈ l, c.toNat < 128) : bytes (String.mk l) = l := by
  induction l with
  | nil => rfl
  | cons c l ih =>
    rw [bytes_mk_cons, utf8_ascii c (h c (List.mem_cons_self _ _)),
      ih (fun x hx => h x (List.mem_cons_of_mem _ hx))]
    rfl

/-- A text has the single byte `b` exactly when `b` is below 128 and the text
is the character `b`. -/
theorem bytes_eq_singleton (k : String) (b : Char) :
    bytes k = [b] ↔ b.toNat < 128 ∧ k = String.mk [b] := by
  constructor
  · intro h
    obtain ⟨l⟩ := k
    cases l with
    | nil => simp [bytes] at h
    | cons c l =>
      rw [bytes_mk_cons] at h
      by_cases hc : c.toNat < 128
      · rw [utf8_ascii c hc] at h
        simp only [List.singleton_append, List.cons.injEq] at h
        obtain ⟨h1, h2⟩ := h
        subst h1
        cases l with
        | nil => exact ⟨hc, rfl⟩
        | cons d l =>
          exfalso
          rw [bytes_mk_cons] at h2
          have := utf8_ne_nil d
          cases hu : utf8 d with
          | nil => exact this hu
          | cons x xs => rw [hu] at h2; simp at h2
      · exfalso
        obtain ⟨x, x1, rest, e, _⟩ := utf8_high c hc
        rw [e] at h
        simp at h
  · rintro ⟨hb, rfl⟩
    exact bytes_ascii [b] (fun c hc => by rw [List.mem_singleton.1 hc]; exact hb)

theorem toString_ascii (p : Nat) : ∀ c ∈ (toString p).data, c.toNat < 128 := by
  intro c hc
  obtain ⟨l, hl, hd, _, _⟩ := toString_data p
  rw [hl] at hc
  have := hd c hc
  unfold IsDigit at this
  omega

theorem bytes_toString (p : Nat) : bytes (toString p) = (toString p).data :=
  bytes_ascii (toString p).data (toString_ascii p)

theorem bytes_append (s t : String) : bytes (s ++ t) = bytes s ++ bytes t := by
  unfold bytes
  simp [String.data_append]

/-! ## `stoi` reads the same number in a text and in its bytes -/

theorem isSpace_high (b : Char) (h : 128 ≤ b.toNat) : isSpace b = false := by
  unfold isSpace
  simp only [decide_eq_false_iff_not]
  omega

theorem isSpace_lt (b : Char) (h : isSpace b = true) : b.toNat < 128 := by
  by_contra hn
  rw [isSpace_high b (by omega)] at h
  cases h

theorem dropWhile_bytes (l : List Char) :
    (l.flatMap utf8).dropWhile isSpace = (l.dropWhile isSpace).flatMap utf8 := by
  induction l with
  | nil => rfl
  | cons c l ih =>
    by_cases hc : c.toNat < 128
    · simp only [List.flatMap_cons, utf8_ascii c hc, List.singleton_append, List.dropWhile_cons]
      by_cases hs : isSpace c = true
      · simp only [hs, if_true]
        exact ih
      · simp only [hs, Bool.false_eq_true, if_false, List.flatMap_cons, utf8_ascii c hc,
          List.singleton_append]
    · obtain ⟨b, b1, rest, e, hb⟩ := utf8_high c hc
      have h1 : isSpace c = false := isSpace_high c (by omega)
      have h2 : isSpace b = false := isSpace_high b (by omega)
      simp only [List.flatMap_cons, e, List.cons_append, List.dropWhile_cons, h1, h2,
        Bool.false_eq_true, if_false]

theorem leadingDigits_bytes (l : List Char) :
    ∀ acc, leadingDigits (l.flatMap utf8) acc = leadingDigits l acc := by
  induction l with
  | nil => intro acc; rfl
  | cons c l ih =>
    intro acc
    by_cases hc : c.toNat < 128
    · simp only [List.flatMap_cons, utf8_ascii c hc, List.singleton_append, leadingDigits]
      split
      · exact ih _
      · rfl
    · obtain ⟨b, b1, rest, e, hb⟩ := utf8_high c hc
      have h1 : ¬ (48 ≤ c.toNat ∧ c.toNat ≤ 57) := by omega
      have h2 : ¬ (48 ≤ b.toNat ∧ b.toNat ≤ 57) := by omega
      simp only [List.flatMap_cons, e, List.cons_append, leadingDigits, h1, h2, if_false]

/-- The sign read by `stoi`, and what follows it. -/
theorem stoi_sign_bytes (l : List Char) :
    stoi.match_1 (fun _ => Bool × List Char) (l.flatMap utf8) (fun r => (true, r))
        (fun r => (false, r)) (fun r => (false, r))
      = ((stoi.match_1 (fun _ => Bool × List Char) l (fun r => (true, r))
          (fun r => (false, r)) (fun r => (false, r))).1,
        (stoi.match_1 (fun _ => Bool × List Char) l (fun r => (true, r))
          (fun r => (false, r)) (fun r => (false, r))).2.flatMap utf8) := by
  cases l with
  | nil => rfl
  | cons c l =>
    by_cases hm : c = '-'
    · subst hm
      rfl
    · by_cases hp : c = '+'
      · subst hp
        rfl
      · have hr : stoi.match_1 (fun _ => Bool × List Char) (c :: l) (fun r => (true, r))
            (fun r => (false, r)) (fun r => (false, r)) = (false, c :: l) := by
          split
          · rename_i r heq
            exact absurd (List.cons.inj heq).1 hm
          · rename_i r heq
            exact absurd (List.cons.inj heq).1 hp
          · rfl
        rw [hr]
        by_cases hc : c.toNat < 128
        · simp only [List.flatMap_cons, utf8_ascii c hc, List.singleton_append]
          split
          · rename_i r heq
            exact absurd (List.cons.inj heq).1 hm
          · rename_i r heq
            exact absurd (List.cons.inj heq).1 hp
          · rfl
        · obtain ⟨b, b1, rest, e, hb⟩ := utf8_high c hc
          simp only [List.flatMap_cons, e, List.cons_append]
          split
          · rename_i r heq
            have hq := (List.cons.inj heq).1
            rw [hq] at hb
            exact absurd hb (by decide)
          · rename_i r heq
            have hq := (List.cons.inj heq).1
            rw [hq] at hb
            exact absurd hb (by decide)
          · rfl

theorem stoi_bytes (l : List Char) : stoi (l.flatMap utf8) = stoi l := by
  unfold stoi
  simp only [dropWhile_bytes, stoi_sign_bytes, leadingDigits_bytes]

theorem stoi_bytes_mk (l : List Char) : stoi (bytes (String.mk l)) = stoi l :=
  stoi_bytes l

theorem constructDFA_grammarEpsAB :
    constructDFA (loadEnv grammarEpsAB) = some ⟨statesEpsAB, transitionsEpsAB, []⟩ := by
  have h : (constructDFA (loadEnv grammarEpsAB)).map
      (fun A => (A.states, A.transitions, A.worklist))
      = some (statesEpsAB, transitionsEpsAB, []) := by decide
  cases hA : constructDFA (loadEnv grammarEpsAB) with
  | none => simp [hA] at h
  | some A =>
    obtain ⟨s, t, w⟩ := A
    simp only [hA, Option.map_some', Option.some.injEq, Prod.mk.injEq] at h
    obtain ⟨h1, h2, h3⟩ := h
    subst h1; subst h2; subst h3
    rfl

/-! ## analyzeLR0: single steps -/

theorem actionAtByte_absent (T : Tables) (s : Nat) (b : Char)
    (h : T.actionByte s b = none) : T.actionAtByte (s : Int) b = "" := by
  unfold Tables.actionAtByte
  have : ¬ ((s : Int) < 0) := by omega
  simp [this, h]

theorem find_bytes (row : List (String × String)) (b : Char) (hb : b.toNat < 128) :
    (row.find? (fun e => decide (bytes e.1 = [b]))).map Prod.snd
      = mapFind (String.mk [b]) row := by
  induction row with
  | nil => rfl
  | cons e row ih =>
    by_cases he : bytes e.1 = [b]
    · have hk := ((bytes_eq_singleton e.1 b).1 he).2
      have hd : decide (bytes e.1 = [b]) = true := decide_eq_true he
      rw [List.find?_cons]
      simp only [hd]
      unfold mapFind
      rw [if_pos hk.symm]
      rfl
    · have hk : ¬ String.mk [b] = e.1 := by
        intro hk
        exact he ((bytes_eq_singleton e.1 b).2 ⟨hb, hk.symm⟩)
      have hd : decide (bytes e.1 = [b]) = false := decide_eq_false he
      rw [List.find?_cons]
      simp only [hd]
      unfold mapFind
      rw [if_neg hk]
      exact ih

theorem find_bytes_high (row : List (String × String)) (b : Char) (hb : ¬ b.toNat < 128) :
    row.find? (fun e => decide (bytes e.1 = [b])) = none := by
  rw [List.find?_eq_none]
  intro e _ he
  have : bytes e.1 = [b] := of_decide_eq_true he
  exact hb ((bytes_eq_singleton e.1 b).1 this).1

/-- The lookup for a byte finds the cell of the character of that byte when
the byte is below 128, and nothing otherwise: no text has a single byte from
128 on. -/
theorem actionByte_eq (T : Tables) (i : Nat) (b : Char) :
    T.actionByte i b = if b.toNat < 128 then T.action i (String.mk [b]) else none := by
  unfold Tables.actionByte Tables.action
  cases mapFind i T.actionTable with
  | none => simp
  | some row =>
    by_cases hb : b.toNat < 128
    · simp only [hb, if_true]
      exact find_bytes row b hb
    · simp only [hb, if_false, find_bytes_high row b hb]
      rfl

theorem gotoAt_undefined (T : Tables) (s : Int) (head : String) (h : T.goto s head = none) :
    T.gotoAt s head = 0 := by
  unfold Tables.goto at h
  unfold Tables.gotoAt
  by_cases hs : s < 0
  · simp [hs]
  · simp only [hs, if_false] at h ⊢
    cases hrow : mapFind s.toNat T.gotoTable with
    | none => rfl
    | some row =>
      simp only [hrow] at h
      simp [h]

theorem analyzeLoop_done (G : Env) (T : Tables) (buffer : List Char) (stack : List String)
    (index : Nat) (a : String) (v : Verdict) (fuel : Nat)
    (hl : lookupAction T buffer stack index = some a)
    (hs : analyzeStep G T buffer stack index = Step.done v) :
    analyzeLoop G T buffer (fuel + 1) stack index
      = ([⟨stack.reverse, String.mk (buffer.drop index), a⟩], some v) := by
  simp only [analyzeLoop, hl, hs]

/-- C11: when the top of the stack decodes to the state `s`, the cursor lies in
the buffer and `actionTable[s]` has no entry for the symbol at the cursor (the
string of the single byte `buffer[index]`), the step prints Error and the
loop ends there, with that single trace row; and for `S -> a A`,
`A -> c A | d` the input `a` is rejected in state 2, reached by shifting `a`,
on the symbol `$`. -/
theorem analyzeStep_absent :
    (∀ (G : Env) (T : Tables) (buffer : List Char) (top : String) (below : List String)
        (index s : Nat),
        index ≤ buffer.length → stoi ((bytes top).drop 1) = some (s : Int) →
        T.actionByte s (buffer.getD index (Char.ofNat 0)) = none →
        analyzeStep G T buffer (top :: below) index = Step.done Verdict.error ∧
        ∀ fuel, analyzeLoop G T buffer (fuel + 1) (top :: below) index
          = ([⟨(top :: below).reverse, String.mk (buffer.drop index), ""⟩],
              some Verdict.error)) ∧
    (∃ T, buildTables (loadEnv grammarSA) = some T ∧ T.action 2 "$" = none ∧
      ∀ n, analyzeLR0 (loadEnv grammarSA) T "a" (2 + n)
        = ([⟨["$0"], "a$", "S2"⟩, ⟨["$0", "a2"], "$", ""⟩], some Verdict.error)) := by
  refine ⟨?_, ?_⟩
  · intro G T buffer top below index s hidx hs habs
    have hl : lookupAction T buffer (top :: below) index = some "" := by
      unfold lookupAction
      have : ¬ (buffer.length < index) := by omega
      simp only [this, if_false, hs, actionAtByte_absent T s _ habs]
    have hstep : analyzeStep G T buffer (top :: below) index = Step.done Verdict.error := by
      unfold analyzeStep
      simp only [hl]
      rfl
    exact ⟨hstep, fun fuel => analyzeLoop_done G T buffer _ index "" _ fuel hl hstep⟩
  · have h : (buildTables (loadEnv grammarSA)).map
        (fun T => (T.action 2 "$", analyzeLR0 (loadEnv grammarSA) T "a" 2)) =
          some (none, [⟨["$0"], "a$", "S2"⟩, ⟨["$0", "a2"], "$", ""⟩], some Verdict.error) := by
      decide
    cases hT : buildTables (loadEnv grammarSA) with
    | none => simp [hT] at h
    | some T =>
      simp only [hT, Option.map_some', Option.some.injEq, Prod.mk.injEq] at h
      exact ⟨T, rfl, h.1, fun n => analyzeLoop_fuel _ _ _ 2 _ _ _ _ n h.2⟩

/-- In state 2 of `S -> a A`, `A -> c A | d`, on top of the stack after `a` is
shifted, `actionTable[2]` has no entry for `$` and the step prints Error. -/
theorem analyzeStep_absent_witness :
    stoi ((bytes "a2").drop 1) = some ((2 : Nat) : Int) ∧
    (constructLR0Table (loadEnv grammarSA) statesSA transitionsSA).actionByte 2
      (['a', '$'].getD 1 (Char.ofNat 0)) = none ∧
    analyzeStep (loadEnv grammarSA) (constructLR0Table (loadEnv grammarSA) statesSA transitionsSA)
      ['a', '$'] ["a2", "$0"] 1 = Step.done Verdict.error ∧
    ∀ fuel, analyzeLoop (loadEnv grammarSA)
      (constructLR0Table (loadEnv grammarSA) statesSA transitionsSA) ['a', '$'] (fuel + 1)
      ["a2", "$0"] 1
        = ([⟨["a2", "$0"].reverse, String.mk (['a', '$'].drop 1), ""⟩], some Verdict.error) :=
  ⟨by decide, by decide,
    analyzeStep_absent.1 (loadEnv grammarSA)
      (constructLR0Table (loadEnv grammarSA) statesSA transitionsSA) ['a', '$'] "a2" ["$0"] 1 2
      (by decide) (by decide) (by decide)⟩

theorem lookupAction_symbol (T : Tables) (buffer : List Char) (stack : List String)
    (index : Nat) (a : String) (h : lookupAction T buffer stack index = some a) :
    ∃ (top : String) (below : List String) (s : Int), stack = top :: below ∧
      index ≤ buffer.length ∧ stoi ((bytes top).drop 1) = some s ∧
      a = T.actionAtByte s (buffer.getD index (Char.ofNat 0)) := by
  unfold lookupAction at h
  split at h
  · cases h
  · rename_i top below
    split at h
    · cases h
    · rename_i hidx
      split at h
      · cases h
      · rename_i s hs
        simp only [Option.some.injEq] at h
        exact ⟨top, below, s, rfl, by omega, hs, h.symm⟩

theorem analyzeStep_reduce (G : Env) (T : Tables) (buffer : List Char) (stack : List String)
    (index : Nat) (rest : List Char) (p : Nat) (head : String) (body : List String)
    (more : List (List String)) (top : String) (below : List String) (s : Int)
    (hl : lookupAction T buffer stack index = some (String.mk ('R' :: rest)))
    (hp : stoi rest = some (p : Int))
    (hg : G.grammarindex[p]? = some ⟨head, body :: more⟩)
    (hd : stack.drop body.length = top :: below)
    (hs : stoi ((bytes top).drop 1) = some s) :
    analyzeStep G T buffer stack index
      = Step.next ((head ++ toString (T.gotoAt s head)) :: top :: below) index := by
  obtain ⟨top0, below0, s0, hst, _, _, _⟩ := lookupAction_symbol T buffer stack index _ hl
  subst hst
  have hb : bytes (String.mk ('R' :: rest)) = 'R' :: bytes (String.mk rest) := by
    rw [bytes_mk_cons, utf8_ascii 'R' (by decide)]
    rfl
  unfold analyzeStep
  simp only [hl, hb, stoi_bytes_mk, hp]
  have hneg : ¬ ((p : Int) < 0) := by omega
  simp only [hneg, if_false, Int.toNat_ofNat, hg, hd, hs]

/-- C14, as the code has it: when the action is `R p` for a production with
head `head`, the entries of the body are popped, the new top decodes to the
state `s` and `gotoTable` has no entry for `(s, head)`, the step pushes the
entry `head` followed by the state number 0 and the loop goes on at the same
cursor position; no error is reported. -/
theorem analyzeStep_goto_undefined (G : Env) (T : Tables) (buffer : List Char)
    (stack : List String) (index : Nat) (rest : List Char) (p : Nat) (head : String)
    (body : List String) (more : List (List String)) (top : String) (below : List String)
    (s : Int)
    (hl : lookupAction T buffer stack index = some (String.mk ('R' :: rest)))
    (hp : stoi rest = some (p : Int))
    (hg : G.grammarindex[p]? = some ⟨head, body :: more⟩)
    (hd : stack.drop body.length = top :: below)
    (hs : stoi ((bytes top).drop 1) = some s)
    (hu : T.goto s head = none) :
    analyzeStep G T buffer stack index = Step.next ((head ++ "0") :: top :: below) index ∧
    ∀ v, analyzeStep G T buffer stack index ≠ Step.done v := by
  have h := analyzeStep_reduce G T buffer stack index rest p head body more top below s
    hl hp hg hd hs
  rw [gotoAt_undefined T s head hu] at h
  have h0 : toString (0 : Nat) = "0" := rfl
  rw [h0] at h
  refine ⟨h, ?_⟩
  intro v hv
  rw [h] at hv
  cases hv

/-- For `S -> a A | b`, `A -> #` and the input `ab`: in state 2, after `a` is
shifted, the action on `b` is `R0` (`A -> #`); one entry is popped, the new top
is state 0, `gotoTable` has no entry for `(0, A)`, and the step pushes `A0`. -/
theorem analyzeStep_goto_undefined_witness :
    constructDFA (loadEnv grammarEpsAB) = some ⟨statesEpsAB, transitionsEpsAB, []⟩ ∧
    lookupAction (constructLR0Table (loadEnv grammarEpsAB) statesEpsAB transitionsEpsAB)
      ['a', 'b', '$'] ["a2", "$0"] 1 = some (String.mk ('R' :: ['0'])) ∧
    (loadEnv grammarEpsAB).grammarindex[0]? = some ⟨"A", [["#"]]⟩ ∧
    (constructLR0Table (loadEnv grammarEpsAB) statesEpsAB transitionsEpsAB).goto 0 "A" = none ∧
    (analyzeStep (loadEnv grammarEpsAB)
        (constructLR0Table (loadEnv grammarEpsAB) statesEpsAB transitionsEpsAB)
        ['a', 'b', '$'] ["a2", "$0"] 1 = Step.next (("A" ++ "0") :: "$0" :: []) 1 ∧
      ∀ v, analyzeStep (loadEnv grammarEpsAB)
        (constructLR0Table (loadEnv grammarEpsAB) statesEpsAB transitionsEpsAB)
        ['a', 'b', '$'] ["a2", "$0"] 1 ≠ Step.done v) :=
  ⟨constructDFA_grammarEpsAB, by decide, by decide, by decide,
    analyzeStep_goto_undefined (loadEnv grammarEpsAB)
      (constructLR0Table (loadEnv grammarEpsAB) statesEpsAB transitionsEpsAB)
      ['a', 'b', '$'] ["a2", "$0"] 1 ['0'] 0 "A" ["#"] [] "$0" [] 0
      (by decide) (by decide) (by decide) (by decide) (by decide) (by decide)⟩

/-- C14 fails as stated: for `S -> a A | b`, `A -> #` and the input `ab`, the
second step of the run reduces by `A -> #` with `gotoTable` undefined at
`(0, A)`; the driver pushes `A0`, goes on parsing and ends with Accept. -/
theorem analyzeLR0_goto_undefined_continues :
    ∃ T, buildTables (loadEnv grammarEpsAB) = some T ∧
      T.goto 0 "A" = none ∧
      analyzeStep (loadEnv grammarEpsAB) T ['a', 'b', '$'] ["a2", "$0"] 1
        = Step.next ["A0", "$0"] 1 ∧
      ∀ n, analyzeLR0 (loadEnv grammarEpsAB) T "ab" (5 + n)
        = ([⟨["$0"], "ab$", "S2"⟩,
            ⟨["$0", "a2"], "b$", "R0"⟩,
            ⟨["$0", "A0"], "b$", "S3"⟩,
            ⟨["$0", "A0", "b3"], "$", "R2"⟩,
            ⟨["$0", "A0", "S1"], "$", "acc"⟩], some Verdict.accept) := by
  have h : (buildTables (loadEnv grammarEpsAB)).map
      (fun T => (T.goto 0 "A",
        analyzeStep (loadEnv grammarEpsAB) T ['a', 'b', '$'] ["a2", "$0"] 1,
        analyzeLR0 (loadEnv grammarEpsAB) T "ab" 5)) =
        some (none, Step.next ["A0", "$0"] 1,
          [⟨["$0"], "ab$", "S2"⟩,
            ⟨["$0", "a2"], "b$", "R0"⟩,
            ⟨["$0", "A0"], "b$", "S3"⟩,
            ⟨["$0", "A0", "b3"], "$", "R2"⟩,
            ⟨["$0", "A0", "S1"], "$", "acc"⟩], some Verdict.accept) := by
    decide
  cases hT : buildTables (loadEnv grammarEpsAB) with
  | none => simp [hT] at h
  | some T =>
    simp only [hT, Option.map_some', Option.some.injEq, Prod.mk.injEq] at h
    exact ⟨T, rfl, h.1, h.2.1, fun n => analyzeLoop_fuel _ _ _ 5 _ _ _ _ n h.2.2⟩

/-! ## GetTerminal -/

theorem terminals_fold (nts : List String) (syms : List String) :
    ∀ s : List String, (∀ x ∈ s, x ∉ nts) →
      ∀ x ∈ syms.foldl
          (fun s str => if str ∉ nts ∧ str ≠ "#" then (setInsert strLt str s).1 else s) s,
        x ∉ nts := by
  induction syms with
  | nil => intro s hs x hx; exact hs x hx
  | cons a rest ih =>
    intro s hs x hx
    simp only [List.foldl_cons] at hx
    refine ih _ ?_ x hx
    intro y hy
    split at hy
    · rename_i hcond
      rcases (mem_setInsert _ _ _ _).1 hy with e | e
      · rw [e]
        exact hcond.1
      · exact hs y e
    · exact hs y hy

/-- C16, as the code has it: the terminal set computed by `GetTerminal` always
contains "$", and the only symbol that can be classified both as a terminal
and as a nonterminal is "$" (when a nonterminal has that name). -/
theorem GetTerminal_overlap (grammars : List (String × Grammar)) :
    "$" ∈ (GetTerminal grammars).1 ∧
      ∀ x, x ∈ (GetTerminal grammars).1 → x ∈ (GetTerminal grammars).2 → x = "$" := by
  unfold GetTerminal
  simp only
  refine ⟨(mem_setInsert _ _ _ _).2 (Or.inl rfl), ?_⟩
  intro x hx hn
  rcases (mem_setInsert _ _ _ _).1 hx with e | e
  · exact e
  · exact absurd hn (terminals_fold _ _ [] (fun y hy => by simp at hy) x e)

/-- C16 fails as stated: for the grammar of the line `$ -> a`, the symbol "$"
is in the terminal set and in the nonterminal set. -/
theorem GetTerminal_dollar_in_both :
    (loadEnv grammarDollar).grammars = [("$", ⟨"$", [["a"]]⟩), ("$~", ⟨"$~", [["$"]]⟩)] ∧
    "$" ∈ (GetTerminal (loadEnv grammarDollar).grammars).1 ∧
    "$" ∈ (GetTerminal (loadEnv grammarDollar).grammars).2 := by
  decide

/-! ## The production table -/

theorem mapFind_none_of_key {K V : Type} [DecidableEq K] (k : K) (m : List (K × V))
    (h : mapFind k m = none) : ∀ e ∈ m, e.1 ≠ k := by
  intro e he hk
  have := mapFind_isSome_of_mem e.1 e.2 m he
  rw [hk, h] at this
  cases this

theorem keysAscending_orderedIns {V : Type} (k : String) (v : V) (m : List (String × V))
    (hm : KeysAscending m) (hk : ∀ e ∈ m, e.1 ≠ k) :
    KeysAscending (orderedIns (fun a b => strLt a.1 b.1) (k, v) m) := by
  induction m with
  | nil => simp [orderedIns, KeysAscending]
  | cons y ys ih =>
    unfold KeysAscending at hm ih ⊢
    rw [List.pairwise_cons] at hm
    unfold orderedIns
    split
    · rename_i hxy
      rw [List.pairwise_cons]
      refine ⟨?_, List.pairwise_cons.2 hm⟩
      intro z hz
      rcases List.mem_cons.1 hz with rfl | hz
      · exact hxy
      · exact strLt_strictTotal.trans _ _ _ hxy (hm.1 z hz)
    · rename_i hxy
      have hne : y.1 ≠ k := hk y (List.mem_cons_self _ _)
      have hyx : strLt y.1 k = true := by
        by_contra hh
        exact hne (strLt_strictTotal.connex k y.1 (by simpa using hxy) (by simpa using hh)).symm
      rw [List.pairwise_cons]
      refine ⟨?_, ih hm.2 (fun e he => hk e (List.mem_cons_of_mem _ he))⟩
      intro z hz
      rcases (mem_orderedIns _ _ z ys).1 hz with rfl | hz
      · exact hyx
      · exact hm.1 z hz

theorem keysAscending_mapSet {V : Type} (k : String) (v : V) (m : List (String × V))
    (hm : KeysAscending m) : KeysAscending (mapSet strLt k v m) := by
  unfold mapSet
  split
  · unfold KeysAscending at hm ⊢
    rw [List.pairwise_map]
    refine hm.imp ?_
    intro a b hab
    by_cases ha : a.1 = k <;> by_cases hb : b.1 = k <;> simp only [ha, hb, if_true, if_false]
    · rw [ha, hb] at hab
      exact hab
    · rw [ha] at hab
      exact hab
    · rw [hb] at hab
      exact hab
    · exact hab
  · rename_i hnone
    exact keysAscending_orderedIns k v m hm
      (mapFind_none_of_key k m (by simpa using hnone))

theorem keysAscending_inputGrammars (decls : List (String × List (List String))) :
    KeysAscending (inputGrammars decls).grammars := by
  have key : ∀ (ds : List (String × List (List String))) (L : Loaded),
      KeysAscending L.grammars → KeysAscending (ds.foldl inputLine L).grammars := by
    intro ds
    induction ds with
    | nil => intro L h; exact h
    | cons d rest ih =>
      intro L h
      simp only [List.foldl_cons]
      apply ih
      unfold inputLine
      split
      · exact keysAscending_mapSet _ _ _ (keysAscending_mapSet _ _ _ h)
      · exact keysAscending_mapSet _ _ _ h
  exact key decls ⟨[], "", true⟩ (by simp [KeysAscending])

theorem mem_indexGrammars (m : List (String × Grammar)) (g : Grammar)
    (h : g ∈ indexGrammars m) : ∃ e ∈ m, g.value = e.1 := by
  unfold indexGrammars at h
  rw [List.mem_flatMap] at h
  obtain ⟨e, he, hg⟩ := h
  rw [List.mem_map] at hg
  obtain ⟨p, _, rfl⟩ := hg
  exact ⟨e, he, rfl⟩

theorem indexGrammars_cons (e : String × Grammar) (m : List (String × Grammar)) :
    indexGrammars (e :: m)
      = e.2.right.map (fun production => (⟨e.1, [production]⟩ : Grammar)) ++ indexGrammars m := by
  simp [indexGrammars]

theorem indexGrammars_order (m : List (String × Grammar)) (hm : KeysAscending m) :
    ∀ (p q : Nat) (g1 g2 : Grammar), (indexGrammars m)[p]? = some g1 →
      (indexGrammars m)[q]? = some g2 → strLt g1.value g2.value = true → p < q := by
  induction m with
  | nil =>
    intro p q g1 g2 h1
    simp [indexGrammars] at h1
  | cons e m ih =>
    intro p q g1 g2 h1 h2 hlt
    unfold KeysAscending at hm ih
    rw [List.pairwise_cons] at hm
    rw [indexGrammars_cons] at h1 h2
    have hblock : ∀ (n : Nat) (g : Grammar),
        (e.2.right.map (fun production => (⟨e.1, [production]⟩ : Grammar)))[n]? = some g →
        g.value = e.1 := by
      intro n g hg
      have := List.getElem?_mem hg
      rw [List.mem_map] at this
      obtain ⟨x, _, rfl⟩ := this
      rfl
    have hrest : ∀ (n : Nat) (g : Grammar), (indexGrammars m)[n]? = some g →
        strLt e.1 g.value = true := by
      intro n g hg
      obtain ⟨e1, he1, hv⟩ := mem_indexGrammars m g (List.getElem?_mem hg)
      rw [hv]
      exact hm.1 e1 he1
    by_cases hp : p < (e.2.right.map (fun production => (⟨e.1, [production]⟩ : Grammar))).length
    · by_cases hq : q < (e.2.right.map
          (fun production => (⟨e.1, [production]⟩ : Grammar))).length
      · rw [List.getElem?_append_left hp] at h1
        rw [List.getElem?_append_left hq] at h2
        rw [hblock p g1 h1, hblock q g2 h2, strLt_strictTotal.irrefl] at hlt
        cases hlt
      · omega
    · by_cases hq : q < (e.2.right.map
          (fun production => (⟨e.1, [production]⟩ : Grammar))).length
      · rw [List.getElem?_append_right (by omega)] at h1
        rw [List.getElem?_append_left hq] at h2
        have h3 := hrest _ g1 h1
        rw [hblock q g2 h2] at hlt
        rw [strLt_strictTotal.asymm _ _ h3] at hlt
        cases hlt
      · rw [List.getElem?_append_right (by omega)] at h1
        rw [List.getElem?_append_right (by omega)] at h2
        have := ih hm.2 _ _ g1 g2 h1 h2 hlt
        omega

theorem indexGrammars_block (m : List (String × Grammar)) :
    ∀ (k : String) (g : Grammar), mapFind k m = some g →
      ∃ o, ∀ (a : Nat) (alt : List String), g.right[a]? = some alt →
        (indexGrammars m)[o + a]? = some ⟨k, [alt]⟩ := by
  induction m with
  | nil =>
    intro k g h
    simp [mapFind] at h
  | cons e m ih =>
    intro k g h
    simp only [mapFind] at h
    rw [indexGrammars_cons]
    split at h
    · rename_i hk
      simp only [Option.some.injEq] at h
      subst h
      subst hk
      refine ⟨0, ?_⟩
      intro a alt ha
      have halt : a < e.2.right.length := (List.getElem?_eq_some_iff.1 ha).1
      rw [Nat.zero_add, List.getElem?_append_left (by simpa using halt), List.getElem?_map, ha]
      rfl
    · obtain ⟨o, ho⟩ := ih k g h
      refine ⟨(e.2.right.map (fun production => (⟨e.1, [production]⟩ : Grammar))).length + o, ?_⟩
      intro a alt ha
      rw [List.getElem?_append_right (by omega)]
      have : (e.2.right.map (fun production => (⟨e.1, [production]⟩ : Grammar))).length + o + a
          - (e.2.right.map (fun production => (⟨e.1, [production]⟩ : Grammar))).length
          = o + a := by omega
      rw [this]
      exact ho a alt ha

/-- C15, as the code has it: the production table is filled in the ascending
order of the nonterminal names (the key order of the map `grammars`, the
augmented start symbol included): a production whose head is smaller as a
string has the smaller index, whatever the declaration order; and the
alternatives of one nonterminal take consecutive indices in their own order. -/
theorem grammarindex_key_order (decls : List (String × List (List String))) :
    (∀ (p q : Nat) (g1 g2 : Grammar), (loadEnv decls).grammarindex[p]? = some g1 →
      (loadEnv decls).grammarindex[q]? = some g2 → strLt g1.value g2.value = true → p < q) ∧
    (∀ (k : String) (g : Grammar), mapFind k (loadEnv decls).grammars = some g →
      ∃ o, ∀ (a : Nat) (alt : List String), g.right[a]? = some alt →
        (loadEnv decls).grammarindex[o + a]? = some ⟨k, [alt]⟩) :=
  ⟨indexGrammars_order _ (keysAscending_inputGrammars decls),
    indexGrammars_block _⟩

/-- C15 fails as stated: in `S -> a A`, `A -> c A | d` the production
`S -> a A` is declared before `A -> c A`, and has index 2 against index 0. -/
theorem grammarindex_not_declaration_order : ¬ IndexInDeclarationOrder grammarSA := by
  intro h
  have := h 0 1 0 0 2 0 ("S", [["a", "A"]]) ("A", [["c", "A"], ["d"]]) ["a", "A"] ["c", "A"]
    (by decide) (by decide) (by decide) (by decide) (by decide) (by decide) (by decide)
  omega

/-! ## constructDFA: properties of all items -/

theorem closure_forall (G : Env) (Q : Item → Prop)
    (hnew : ∀ B ∈ G.nonTerminals, ∀ g ∈ (G.grammarsAt B).right, Q (newItem B g))
    (X c : List Item) (hc : closure G X = some c) (hX : ∀ it ∈ X, Q it) : ∀ it ∈ c, Q it := by
  apply (closure_inv G X c hc).least Q hX
  apply closed_of_newItem
  intro it B _ _ hB g hg
  exact hnew B hB g hg

theorem partitionItems_forall (Q : Item → Prop)
    (hadv : ∀ it X, Q it → it.next = some X → Q (advance it))
    (s : List Item) (hs : ∀ it ∈ s, Q it) :
    ∀ X items, (X, items) ∈ partitionItems s [] → ∀ it ∈ items, Q it := by
  intro X items hmem it hit
  have hp := partitionItems_inv s
  obtain ⟨_, h2, _⟩ := hp.found X items (hp.entries X items hmem)
  obtain ⟨it0, h0, hn, rfl⟩ := (mem_gotoKernel _ _ _).1 ((h2 it).1 hit)
  exact hadv it0 X (hs it0 h0) hn

theorem processPartitions_forall (G : Env) (Q : Item → Prop)
    (hnew : ∀ B ∈ G.nonTerminals, ∀ g ∈ (G.grammarsAt B).right, Q (newItem B g))
    (k : Nat) (parts : List (String × List Item)) :
    ∀ (A A1 : DFA), (∀ X items, (X, items) ∈ parts → ∀ it ∈ items, Q it) →
      (∀ s ∈ A.states, ∀ it ∈ s, Q it) → processPartitions G k parts A = some A1 →
      ∀ s ∈ A1.states, ∀ it ∈ s, Q it := by
  induction parts with
  | nil =>
    intro A A1 _ hA hrun
    simp only [processPartitions, Option.some.injEq] at hrun
    subst hrun
    exact hA
  | cons p rest ih =>
    obtain ⟨X, items⟩ := p
    intro A A1 hparts hA hrun
    have hrest : ∀ Y its, (Y, its) ∈ rest → ∀ it ∈ its, Q it :=
      fun Y its h => hparts Y its (List.mem_cons_of_mem _ h)
    obtain ⟨c, hc⟩ := closure_isSome G items
    have hcQ := closure_forall G Q hnew items c hc (hparts X items (List.mem_cons_self _ _))
    simp only [processPartitions, hc] at hrun
    cases hf : findState c A.states 0 with
    | some idx =>
      simp only [hf] at hrun
      exact ih ⟨A.states, mapSet pairLt (k, X) idx A.transitions, A.worklist⟩ A1 hrest hA hrun
    | none =>
      simp only [hf] at hrun
      refine ih ⟨A.states ++ [c], mapSet pairLt (k, X) A.states.length A.transitions,
        A.worklist ++ [A.states.length]⟩ A1 hrest ?_ hrun
      intro s hs
      rcases List.mem_append.1 hs with h | h
      · exact hA s h
      · rw [List.mem_singleton.1 h]
        exact hcQ

theorem mem_getD_states (states : List (List Item)) (k : Nat) (it : Item)
    (h : it ∈ states.getD k []) : ∃ s ∈ states, it ∈ s := by
  rw [List.getD_eq_getElem?_getD] at h
  cases hk : states[k]? with
  | none => simp [hk] at h
  | some s =>
    simp only [hk, Option.getD_some] at h
    exact ⟨s, List.getElem?_mem hk, h⟩

theorem dfaLoop_forall (G : Env) (Q : Item → Prop)
    (hnew : ∀ B ∈ G.nonTerminals, ∀ g ∈ (G.grammarsAt B).right, Q (newItem B g))
    (hadv : ∀ it X, Q it → it.next = some X → Q (advance it)) (fuel : Nat) :
    ∀ (A A1 : DFA), (∀ s ∈ A.states, ∀ it ∈ s, Q it) → dfaLoop G fuel A = some A1 →
      ∀ s ∈ A1.states, ∀ it ∈ s, Q it := by
  induction fuel with
  | zero =>
    intro A A1 hA hrun
    obtain ⟨states, transitions, worklist⟩ := A
    cases worklist with
    | nil =>
      simp only [dfaLoop, Option.some.injEq] at hrun
      subst hrun
      exact hA
    | cons current wl => simp [dfaLoop] at hrun
  | succ n ih =>
    intro A A1 hA hrun
    obtain ⟨states, transitions, worklist⟩ := A
    cases worklist with
    | nil =>
      simp only [dfaLoop, Option.some.injEq] at hrun
      subst hrun
      exact hA
    | cons current wl =>
      simp only [dfaLoop] at hrun
      cases hp : processPartitions G current (partitionItems (states.getD current []) [])
          ⟨states, transitions, wl⟩ with
      | none =>
        rw [hp] at hrun
        cases hrun
      | some A2 =>
        rw [hp] at hrun
        refine ih A2 A1 ?_ hrun
        refine processPartitions_forall G Q hnew current _ ⟨states, transitions, wl⟩ A2 ?_ hA hp
        apply partitionItems_forall Q hadv
        intro it hit
        obtain ⟨s, hs, his⟩ := mem_getD_states states current it hit
        exact hA s hs it his

theorem constructDFA_forall (G : Env) (Q : Item → Prop)
    (hnew : ∀ B ∈ G.nonTerminals, ∀ g ∈ (G.grammarsAt B).right, Q (newItem B g))
    (hadv : ∀ it X, Q it → it.next = some X → Q (advance it))
    (hstart : ∀ prod rest, (G.grammarsAt G.startSymbol).right = prod :: rest →
      Q ⟨G.startSymbol, prod, 0⟩)
    (A : DFA) (hA : constructDFA G = some A) : ∀ s ∈ A.states, ∀ it ∈ s, Q it := by
  unfold constructDFA at hA
  split at hA
  · cases hA
  · rename_i prod rest hpr
    split at hA
    · cases hA
    · rename_i init hinit
      refine dfaLoop_forall G Q hnew hadv _ ⟨[init], [], [0]⟩ A ?_ hA
      intro s hs
      rw [List.mem_singleton.1 hs]
      apply closure_forall G Q hnew _ init hinit
      intro it hit
      rw [List.mem_singleton.1 hit]
      exact hstart prod rest hpr

theorem wellFormed_newItem (G : Env) (B : String) (g : List String)
    (hg : g ∈ (G.grammarsAt B).right) : WellFormed G (newItem B g) := by
  unfold WellFormed newItem
  by_cases he : isEpsilon g = true
  · have := (isEpsilon_iff g).1 he
    subst this
    simp only [he, if_true]
    exact ⟨hg, by decide, by decide, fun _ => trivial⟩
  · simp only [he, if_false]
    refine ⟨hg, le_refl _, by simp, ?_⟩
    intro h
    exact absurd ((isEpsilon_iff g).2 h) he

theorem wellFormed_advance (G : Env) (it : Item) (X : String) (h : WellFormed G it)
    (hn : it.next = some X) : WellFormed G (advance it) := by
  have hb := next_some_bounds it X hn
  obtain ⟨h1, h2, h3, h4⟩ := h
  unfold WellFormed advance
  simp only
  refine ⟨h1, by omega, by omega, ?_⟩
  intro he
  have h5 := h4 he
  rw [he] at hb
  simp only [List.length_singleton, Nat.cast_one] at hb
  omega

/-- C18, as the code has it: when the first alternative `prod` of the start
symbol is not the single epsilon marker, `constructDFA` returns and every item
of every state is well formed: its body is an alternative of its head in the
grammar, its dot lies between 0 and the length of the body, and if its body
is the single epsilon marker then its dot is 1. -/
theorem constructDFA_items_wellformed (G : Env) (prod : List String)
    (rest : List (List String))
    (h : (G.grammarsAt G.startSymbol).right = prod :: rest) (hne : prod ≠ ["#"]) :
    ∃ A, constructDFA G = some A ∧ ∀ s ∈ A.states, ∀ it ∈ s, WellFormed G it := by
  obtain ⟨init, A, _, hA, _, _⟩ := constructDFA_inv G prod rest h
  refine ⟨A, hA, constructDFA_forall G (WellFormed G) ?_ ?_ ?_ A hA⟩
  · intro B _ g hg
    exact wellFormed_newItem G B g hg
  · intro it X hq hn
    exact wellFormed_advance G it X hq hn
  · intro prod1 rest1 h1
    rw [h] at h1
    obtain ⟨e1, _⟩ := List.cons.inj h1
    subst e1
    refine ⟨?_, le_refl _, by simp, ?_⟩
    · simp only [h]
      exact List.mem_cons_self _ _
    · intro he
      exact absurd he hne

/-- The start symbol of `S -> a A`, `A -> c A | d` has the single alternative
`S`, which is not the epsilon marker, and every item of the states built for
the grammar is well formed. -/
theorem constructDFA_items_wellformed_witness :
    ((loadEnv grammarSA).grammarsAt (loadEnv grammarSA).startSymbol).right = [["S"]] ∧
    (["S"] : List String) ≠ ["#"] ∧
    ∃ A, constructDFA (loadEnv grammarSA) = some A ∧
      ∀ s ∈ A.states, ∀ it ∈ s, WellFormed (loadEnv grammarSA) it :=
  ⟨by decide, by decide,
    constructDFA_items_wellformed (loadEnv grammarSA) ["S"] [] (by decide) (by decide)⟩

/-- C18 fails as stated: for the grammar of the line `# -> a` the start
production is `#~ -> #`, and state 0 holds the item with that body and the dot
at 0, which is not well formed. -/
theorem constructDFA_epsilon_dot_zero :
    ∃ A, constructDFA (loadEnv grammarHash) = some A ∧
      A.states[0]? = some [⟨"#", ["a"], 0⟩, ⟨"#~", ["#"], 0⟩] ∧
      ¬ WellFormed (loadEnv grammarHash) ⟨"#~", ["#"], 0⟩ := by
  have h : (constructDFA (loadEnv grammarHash)).map (fun A => A.states[0]?)
      = some (some [⟨"#", ["a"], 0⟩, ⟨"#~", ["#"], 0⟩]) := by decide
  cases hA : constructDFA (loadEnv grammarHash) with
  | none => simp [hA] at h
  | some A =>
    simp only [hA, Option.map_some', Option.some.injEq] at h
    refine ⟨A, rfl, h, ?_⟩
    intro hw
    have := hw.2.2.2 rfl
    revert this
    decide

/-! ## closure: what is pushed on the worklist -/

theorem closureAdd_pushes (B : String) (ps : List (List String)) :
    ∀ st : List Item × List Item,
      ∃ P, (closureAdd B ps st).2 = st.2 ++ P ∧ P.Nodup ∧ (∀ x ∈ P, x ∉ st.1) ∧
        (∀ x ∈ P, x ∈ (closureAdd B ps st).1) ∧
        ∀ y ∈ (closureAdd B ps st).1, y ∈ st.1 ∨ y ∈ P := by
  induction ps with
  | nil =>
    intro st
    exact ⟨[], by simp [closureAdd], List.nodup_nil, by simp, by simp,
      fun y hy => Or.inl (by simpa [closureAdd] using hy)⟩
  | cons p ps ih =>
    intro st
    simp only [closureAdd]
    by_cases hin : newItem B p ∈ st.1
    · have h2 : (setInsert Item.lt (newItem B p) st.1).2 = false := by
        simp [setInsert, hin]
      have h1 : (setInsert Item.lt (newItem B p) st.1).1 = st.1 := by
        simp [setInsert, hin]
      simp only [h1, h2, Bool.false_eq_true, if_false]
      exact ih (st.1, st.2)
    · have h2 : (setInsert Item.lt (newItem B p) st.1).2 = true :=
        (setInsert_snd _ _ _).2 hin
      simp only [h2, if_true]
      obtain ⟨P, e, hnd, hnot, hin1, hsplit⟩ :=
        ih ((setInsert Item.lt (newItem B p) st.1).1, st.2 ++ [newItem B p])
      refine ⟨newItem B p :: P, ?_, ?_, ?_, ?_, ?_⟩
      · rw [e]
        simp
      · rw [List.nodup_cons]
        refine ⟨?_, hnd⟩
        intro hx
        exact hnot _ hx ((mem_setInsert _ _ _ _).2 (Or.inl rfl))
      · intro x hx
        rcases List.mem_cons.1 hx with rfl | hx
        · exact hin
        · intro hxs
          exact hnot x hx ((mem_setInsert _ _ _ _).2 (Or.inr hxs))
      · intro x hx
        rcases List.mem_cons.1 hx with rfl | hx
        · exact (mem_closureAdd_fst _ _ _ _).2 (Or.inl ((mem_setInsert _ _ _ _).2 (Or.inl rfl)))
        · exact hin1 x hx
      · intro y hy
        rcases hsplit y hy with h | h
        · rcases (mem_setInsert _ _ _ _).1 h with rfl | h
          · exact Or.inr (List.mem_cons_self _ _)
          · exact Or.inl h
        · exact Or.inr (List.mem_cons_of_mem _ h)

theorem closureStep_pushes (G : Env) (current : Item) (cl wl : List Item) :
    ∃ P, (closureStep G current (cl, wl)).2 = wl ++ P ∧ P.Nodup ∧ (∀ x ∈ P, x ∉ cl) ∧
      (∀ x ∈ P, x ∈ (closureStep G current (cl, wl)).1) ∧
      (∀ y ∈ (closureStep G current (cl, wl)).1, y ∈ cl ∨ y ∈ P) ∧
      ∀ y ∈ cl, y ∈ (closureStep G current (cl, wl)).1 := by
  have hmono := closureStep_fst_mono G current (cl, wl)
  unfold closureStep at hmono ⊢
  split
  · split
    · rename_i B _ hB
      simp only [*, if_true] at hmono
      obtain ⟨P, h1, h2, h3, h4, h5⟩ := closureAdd_pushes B (G.grammarsAt B).right (cl, wl)
      exact ⟨P, h1, h2, h3, h4, h5, fun y hy => hmono y hy⟩
    · exact ⟨[], by simp, List.nodup_nil, by simp, by simp, fun y hy => Or.inl hy,
        fun y hy => hy⟩
  · exact ⟨[], by simp, List.nodup_nil, by simp, by simp, fun y hy => Or.inl hy,
      fun y hy => hy⟩

theorem closurePushes_nodup (G : Env) (fuel : Nat) :
    ∀ cl wl : List Item, (closurePushes G fuel cl wl).Nodup ∧
      ∀ x ∈ closurePushes G fuel cl wl, x ∉ cl := by
  induction fuel with
  | zero =>
    intro cl wl
    cases wl <;> simp [closurePushes]
  | succ n ih =>
    intro cl wl
    cases wl with
    | nil => simp [closurePushes]
    | cons current w =>
      obtain ⟨P, h1, h2, h3, h4, _, h6⟩ := closureStep_pushes G current cl w
      obtain ⟨i1, i2⟩ := ih (closureStep G current (cl, w)).1 (closureStep G current (cl, w)).2
      have hdrop : (closureStep G current (cl, w)).2.drop w.length = P := by
        rw [h1, List.drop_left]
      simp only [closurePushes, hdrop]
      refine ⟨?_, ?_⟩
      · rw [List.nodup_append]
        refine ⟨h2, i1, ?_⟩
        intro x hx1 hx2
        exact i2 x hx2 (h4 x hx1)
      · intro x hx
        rcases List.mem_append.1 hx with hx | hx
        · exact h3 x hx
        · intro hcl
          exact i2 x hx (h6 x hcl)

theorem closureLoop_pushes (G : Env) (fuel : Nat) :
    ∀ cl wl c : List Item, closureLoop G fuel cl wl = some c →
      ∀ it, it ∈ c ↔ it ∈ cl ∨ it ∈ closurePushes G fuel cl wl := by
  induction fuel with
  | zero =>
    intro cl wl c hc
    cases wl with
    | nil =>
      simp only [closureLoop, Option.some.injEq] at hc
      subst hc
      simp [closurePushes]
    | cons a w => simp [closureLoop] at hc
  | succ n ih =>
    intro cl wl c hc
    cases wl with
    | nil =>
      simp only [closureLoop, Option.some.injEq] at hc
      subst hc
      simp [closurePushes]
    | cons current w =>
      simp only [closureLoop] at hc
      obtain ⟨P, h1, _, _, h4, h5, h6⟩ := closureStep_pushes G current cl w
      have hdrop : (closureStep G current (cl, w)).2.drop w.length = P := by
        rw [h1, List.drop_left]
      have := ih _ _ c hc
      intro it
      rw [this it]
      simp only [closurePushes, hdrop, List.mem_append]
      constructor
      · rintro (h | h)
        · rcases h5 it h with h | h
          · exact Or.inl h
          · exact Or.inr (Or.inl h)
        · exact Or.inr (Or.inr h)
      · rintro (h | h | h)
        · exact Or.inl (h6 it h)
        · exact Or.inl (h4 it h)
        · exact Or.inr h

/-- C19: the worklist loop of `closure(X)` ends (within `|X|` plus the number
of alternatives of the nonterminals iterations), also for a left-recursive
nonterminal; the items pushed after the seed are pairwise different and none
of them is in `X`, since an item is pushed only when the output set did not
hold it, and the result is `X` together with the pushed items. For
`E -> E + E | id` the closure of `E~ -> . E` is returned, with `E -> . E + E`
pushed once. -/
theorem closure_terminates :
    (∀ (G : Env) (X : List Item),
      ∃ c, closure G X = some c ∧
        (closurePushes G (X.length + (initItems G).length) X X).Nodup ∧
        (∀ it ∈ closurePushes G (X.length + (initItems G).length) X X, it ∉ X) ∧
        ∀ it, it ∈ c ↔
          it ∈ X ∨ it ∈ closurePushes G (X.length + (initItems G).length) X X) ∧
    closure (loadEnv grammarE) [⟨"E~", ["E"], 0⟩]
      = some [⟨"E", ["E", "+", "E"], 0⟩, ⟨"E", ["id"], 0⟩, ⟨"E~", ["E"], 0⟩] ∧
    closurePushes (loadEnv grammarE) (1 + (initItems (loadEnv grammarE)).length)
        [⟨"E~", ["E"], 0⟩] [⟨"E~", ["E"], 0⟩]
      = [⟨"E", ["E", "+", "E"], 0⟩, ⟨"E", ["id"], 0⟩] := by
  refine ⟨?_, by decide, by decide⟩
  intro G X
  obtain ⟨c, hc⟩ := closure_isSome G X
  obtain ⟨h1, h2⟩ := closurePushes_nodup G (X.length + (initItems G).length) X X
  exact ⟨c, hc, h1, h2, closureLoop_pushes G _ X X c hc⟩

/-! ## constructLR0Table: where the entries come from -/

theorem allProposed_of_eq (G : Env) (states : List (List Item)) (T T1 : Tables)
    (h : AllProposed G states T) (he : T1.actionTable = T.actionTable) :
    AllProposed G states T1 := by
  intro i sym a ha
  apply h i sym a
  unfold Tables.action at ha ⊢
  rw [← he]
  exact ha

theorem allProposed_setAction (G : Env) (states : List (List Item)) (T : Tables) (i : Nat)
    (sym a : String) (h : AllProposed G states T) (ha : Proposed G states i a) :
    AllProposed G states (T.setAction i sym a) := by
  intro i1 sym1 b hb
  rw [action_setAction] at hb
  split at hb
  · rename_i hk
    cases hb
    rw [hk.1]
    exact ha
  · exact h i1 sym1 b hb

theorem allProposed_propose (G : Env) (states : List (List Item)) (T : Tables) (i : Nat)
    (sym a : String) (h : AllProposed G states T) (ha : Proposed G states i a) :
    AllProposed G states (T.propose i sym a) := by
  unfold Tables.propose
  split
  · split
    · exact allProposed_of_eq G states T _ h rfl
    · exact allProposed_setAction G states T i sym a h ha
  · exact allProposed_setAction G states T i sym a h ha

theorem allProposed_proposeAccept (G : Env) (states : List (List Item)) (T : Tables) (i : Nat)
    (h : AllProposed G states T) : AllProposed G states (T.proposeAccept i) := by
  unfold Tables.proposeAccept
  split
  · exact allProposed_of_eq G states T _ h rfl
  · exact allProposed_setAction G states T i "$" "acc" h (Or.inr (Or.inl rfl))

theorem allProposed_transitionAt (G : Env) (states : List (List Item)) (T : Tables) (i : Nat)
    (sym : String) (h : AllProposed G states T) :
    AllProposed G states (T.transitionAt i sym).2 := by
  unfold Tables.transitionAt
  split
  · exact h
  · exact allProposed_of_eq G states T _ h rfl

theorem allProposed_tableShift (G : Env) (states : List (List Item)) (i : Nat) (item : Item)
    (T : Tables) (h : AllProposed G states T) : AllProposed G states (tableShift G i item T) := by
  unfold tableShift
  split
  · split
    · exact allProposed_propose G states _ i _ _ (allProposed_transitionAt G states T i _ h)
        (Or.inl ⟨_, rfl⟩)
    · exact h
  · exact h

theorem allProposed_tableReduceAll (G : Env) (states : List (List Item)) (i idx : Nat)
    (terms : List String) (hp : Proposed G states i ("R" ++ toString idx)) :
    ∀ T, AllProposed G states T → AllProposed G states (tableReduceAll i idx terms T) := by
  induction terms with
  | nil => intro T h; exact h
  | cons t rest ih =>
    intro T h
    simp only [tableReduceAll]
    exact ih _ (allProposed_propose G states T i t _ h hp)

theorem allProposed_tableReduce (G : Env) (states : List (List Item)) (i : Nat) (item : Item)
    (items : List Item) (hs : states[i]? = some items) (hi : item ∈ items)
    (hc : item.dot = (item.production.length : Int)) (gs : List Grammar) :
    ∀ (idx : Nat) (T : Tables),
      (∀ n g, gs[n]? = some g → G.grammarindex[idx + n]? = some g) →
      AllProposed G states T → AllProposed G states (tableReduce G i item idx gs T) := by
  induction gs with
  | nil => intro idx T _ h; exact h
  | cons g rest ih =>
    intro idx T hgs h
    have hrest : ∀ n g1, rest[n]? = some g1 → G.grammarindex[idx + 1 + n]? = some g1 := by
      intro n g1 hn
      have := hgs (n + 1) g1 (by simpa using hn)
      have e : idx + 1 + n = idx + (n + 1) := by omega
      rw [e]
      exact this
    simp only [tableReduce]
    split
    · rename_i hmatch
      apply ih (idx + 1) _ hrest
      apply allProposed_tableReduceAll G states i idx G.terminals _ T h
      right
      right
      refine ⟨idx, g, item.production, items, rfl, ?_, hmatch.2, hs, ?_⟩
      · have := hgs 0 g (by simp)
        simpa using this
      · have e : (⟨g.value, item.production, (item.production.length : Int)⟩ : Item) = item := by
          rw [hmatch.1, ← hc]
        rw [e]
        exact hi
    · exact ih (idx + 1) T hrest h

theorem allProposed_tableItem (G : Env) (states : List (List Item)) (i : Nat) (item : Item)
    (items : List Item) (hs : states[i]? = some items) (hi : item ∈ items) (T : Tables)
    (h : AllProposed G states T) : AllProposed G states (tableItem G i item T) := by
  unfold tableItem
  split
  · rename_i hcomp
    have hc : item.dot = (item.production.length : Int) := by
      simpa [Item.complete] using hcomp
    split
    · exact allProposed_tableReduce G states i item items hs hi hc G.grammarindex 0 _
        (fun n g hn => by simpa using hn) (allProposed_tableShift G states i item T h)
    · exact allProposed_proposeAccept G states _ i (allProposed_tableShift G states i item T h)
  · exact allProposed_tableShift G states i item T h

theorem allProposed_tableItems (G : Env) (states : List (List Item)) (i : Nat)
    (items : List Item) (hs : states[i]? = some items) (l : List Item) :
    ∀ T, (∀ it ∈ l, it ∈ items) → AllProposed G states T →
      AllProposed G states (l.foldl (fun T item => tableItem G i item T) T) := by
  induction l with
  | nil => intro T _ h; exact h
  | cons it rest ih =>
    intro T hl h
    simp only [List.foldl_cons]
    exact ih _ (fun x hx => hl x (List.mem_cons_of_mem _ hx))
      (allProposed_tableItem G states i it items hs (hl it (List.mem_cons_self _ _)) T h)

theorem allProposed_tableGoto (G : Env) (states : List (List Item)) (i : Nat)
    (nts : List String) : ∀ T, AllProposed G states T → AllProposed G states (tableGoto i nts T) := by
  induction nts with
  | nil => intro T h; exact h
  | cons nt rest ih =>
    intro T h
    simp only [tableGoto]
    split
    · rename_i n _
      exact ih _ (allProposed_of_eq G states T
        { T with gotoTable :=
            mapSet natLt i (mapSet strLt nt n ((mapFind i T.gotoTable).getD [])) T.gotoTable }
        h rfl)
    · exact ih _ h

theorem allProposed_tableStates (G : Env) (states : List (List Item)) (sts : List (List Item)) :
    ∀ (i0 : Nat) (T : Tables),
      (∀ k items, sts[k]? = some items → states[i0 + k]? = some items) →
      AllProposed G states T → AllProposed G states (tableStates G i0 sts T) := by
  induction sts with
  | nil => intro i0 T _ h; exact h
  | cons items rest ih =>
    intro i0 T hsts h
    simp only [tableStates]
    apply ih (i0 + 1)
    · intro k its hk
      have := hsts (k + 1) its (by simpa using hk)
      have e : i0 + 1 + k = i0 + (k + 1) := by omega
      rw [e]
      exact this
    · apply allProposed_tableGoto
      have h0 : states[i0]? = some items := by
        have := hsts 0 items (by simp)
        simpa using this
      exact allProposed_tableItems G states i0 items h0 items T (fun _ hx => hx) h

theorem allProposed_constructLR0Table (G : Env) (states : List (List Item))
    (transitions : List ((Nat × String) × Nat)) :
    AllProposed G states (constructLR0Table G states transitions) := by
  unfold constructLR0Table
  apply allProposed_tableStates G states states 0
  · intro k items hk
    simpa using hk
  · intro i sym a ha
    simp [Tables.action, mapFind] at ha

theorem reduce_string_inj (p q : Nat) (h : "R" ++ toString p = "R" ++ toString q) : p = q := by
  apply toString_nat_injective
  have h1 := congrArg String.data h
  simp only [String.data_append] at h1
  exact String.ext (List.append_cancel_left h1)

/-- C17: an entry `R p` of `actionTable[i]` has `p` a valid index of
`grammarindex`, state `i` holds the complete item of production `p` (its head,
its body, the dot at the length of the body), and when the driver executes
the action `R p` (for `p` in the range of `int`) the new stack is one entry
pushed on the old stack without its `body.length` top entries. -/
theorem reduce_entries_valid (G : Env) (states : List (List Item))
    (transitions : List ((Nat × String) × Nat)) (i : Nat) (sym : String) (p : Nat)
    (h : (constructLR0Table G states transitions).action i sym = some ("R" ++ toString p)) :
    p < G.grammarindex.length ∧
    ∃ (g : Grammar) (body : List String) (items : List Item),
      G.grammarindex[p]? = some g ∧ g.right.head? = some body ∧
      states[i]? = some items ∧ (⟨g.value, body, (body.length : Int)⟩ : Item) ∈ items ∧
      ∀ (T : Tables) (buffer : List Char) (stack : List String) (index : Nat) (top : String)
        (below : List String) (s : Int),
        p ≤ 2147483647 →
        lookupAction T buffer stack index = some ("R" ++ toString p) →
        stack.drop body.length = top :: below → stoi ((bytes top).drop 1) = some s →
        analyzeStep G T buffer stack index
          = Step.next ((g.value ++ toString (T.gotoAt s g.value)) :: stack.drop body.length)
              index := by
  rcases allProposed_constructLR0Table G states transitions i sym _ h with
    ⟨n, hn⟩ | hacc | ⟨idx, g, body, items, ha, hg, hb, hs, hi⟩
  · exfalso
    have h1 := congrArg String.data hn
    simp only [String.data_append] at h1
    have := (List.cons.inj h1).1
    revert this
    decide
  · exfalso
    have h1 := congrArg String.data hacc
    simp only [String.data_append] at h1
    have := (List.cons.inj h1).1
    revert this
    decide
  · have hpi : p = idx := reduce_string_inj p idx ha
    subst hpi
    refine ⟨(List.getElem?_eq_some_iff.1 hg).1, g, body, items, hg, hb, hs, hi, ?_⟩
    intro T buffer stack index top below s hp hl hd hst
    obtain ⟨head, right⟩ := g
    cases right with
    | nil => simp at hb
    | cons b more =>
      simp only [List.head?_cons, Option.some.injEq] at hb
      subst hb
      rw [hd]
      have hl2 : lookupAction T buffer stack index
          = some (String.mk ('R' :: (toString p).data)) := by
        rw [hl]
        rfl
      exact analyzeStep_reduce G T buffer stack index (toString p).data p head b more top below
        s hl2 (stoi_toString p hp) hg hd hst

/-- In the table of `S -> a A`, `A -> c A | d` the entry of state 5 on `$` is
`R1`; production 1 is `A -> d`, state 5 holds `A -> d .`, and executing `R1`
pops one stack entry. -/
theorem reduce_entries_valid_witness :
    (constructLR0Table (loadEnv grammarSA) statesSA transitionsSA).action 5 "$"
      = some ("R" ++ toString 1) ∧
    (1 < (loadEnv grammarSA).grammarindex.length ∧
    ∃ (g : Grammar) (body : List String) (items : List Item),
      (loadEnv grammarSA).grammarindex[1]? = some g ∧ g.right.head? = some body ∧
      statesSA[5]? = some items ∧ (⟨g.value, body, (body.length : Int)⟩ : Item) ∈ items ∧
      ∀ (T : Tables) (buffer : List Char) (stack : List String) (index : Nat) (top : String)
        (below : List String) (s : Int),
        1 ≤ 2147483647 →
        lookupAction T buffer stack index = some ("R" ++ toString 1) →
        stack.drop body.length = top :: below → stoi ((bytes top).drop 1) = some s →
        analyzeStep (loadEnv grammarSA) T buffer stack index
          = Step.next ((g.value ++ toString (T.gotoAt s g.value)) :: stack.drop body.length)
              index) :=
  ⟨by decide,
    reduce_entries_valid (loadEnv grammarSA) statesSA transitionsSA 5 "$" 1 (by decide)⟩

/-! ## The driver on a grammar with an epsilon production -/

theorem derives_grammarEpsAB (x w : List String) (h : Derives (loadEnv grammarEpsAB) x w) :
    x ∈ [["S"], ["a", "A"], ["b"], ["a"]] → w ∈ [["S"], ["a", "A"], ["b"], ["a"]] := by
  have hNT : (loadEnv grammarEpsAB).nonTerminals = ["A", "S", "S~"] := by decide
  have hS : ((loadEnv grammarEpsAB).grammarsAt "S").right = [["a", "A"], ["b"]] := by decide
  have hA : ((loadEnv grammarEpsAB).grammarsAt "A").right = [["#"]] := by decide
  induction h with
  | refl w => exact fun hx => hx
  | step u v A body w hA1 hbody _ ih =>
    intro hx
    apply ih
    rw [hNT] at hA1
    simp only [List.mem_cons, List.mem_singleton, List.not_mem_nil, or_false] at hx hA1
    rcases hx with hx | hx | hx | hx
    · cases u with
      | nil =>
        simp only [List.nil_append, List.cons.injEq] at hx
        obtain ⟨rfl, rfl⟩ := hx
        rw [hS] at hbody
        simp only [List.mem_cons, List.mem_singleton, List.not_mem_nil, or_false] at hbody
        rcases hbody with rfl | rfl <;> simp
      | cons c u1 =>
        simp only [List.cons_append, List.cons.injEq] at hx
        obtain ⟨_, h2⟩ := hx
        simp at h2
    · cases u with
      | nil =>
        simp only [List.nil_append, List.cons.injEq] at hx
        obtain ⟨rfl, _⟩ := hx
        rcases hA1 with h | h | h <;> simp at h
      | cons c u1 =>
        simp only [List.cons_append, List.cons.injEq] at hx
        obtain ⟨rfl, h2⟩ := hx
        cases u1 with
        | nil =>
          simp only [List.nil_append, List.cons.injEq] at h2
          obtain ⟨rfl, rfl⟩ := h2
          rw [hA] at hbody
          simp only [List.mem_singleton] at hbody
          subst hbody
          simp
        | cons c1 u2 =>
          simp only [List.cons_append, List.cons.injEq] at h2
          obtain ⟨_, h3⟩ := h2
          simp at h3
    · cases u with
      | nil =>
        simp only [List.nil_append, List.cons.injEq] at hx
        obtain ⟨rfl, _⟩ := hx
        rcases hA1 with h | h | h <;> simp at h
      | cons c u1 =>
        simp only [List.cons_append, List.cons.injEq] at hx
        obtain ⟨_, h2⟩ := hx
        simp at h2
    · cases u with
      | nil =>
        simp only [List.nil_append, List.cons.injEq] at hx
        obtain ⟨rfl, _⟩ := hx
        rcases hA1 with h | h | h <;> simp at h
      | cons c u1 =>
        simp only [List.cons_append, List.cons.injEq] at hx
        obtain ⟨_, h2⟩ := hx
        simp at h2

/-- C12: for `S -> a A | b`, `A -> #` (no conflict, `transitions[(0, S)] = 1`)
the driver run on `ab` prints Accept with the three stack entries `$0`, `A0`,
`S1`: the reduce by `A -> #` popped the entry `a2`, and the entry `A0` pushed
for the undefined GOTO cell stays below the state for `S`. -/
theorem analyzeLR0_accept_three_entries :
    ∃ A T, constructDFA (loadEnv grammarEpsAB) = some A ∧
      buildTables (loadEnv grammarEpsAB) = some T ∧
      mapFind (0, "S") A.transitions = some 1 ∧ T.conflicts = [] ∧
      analyzeStep (loadEnv grammarEpsAB) T ['a', 'b', '$'] ["S1", "A0", "$0"] 2
        = Step.done Verdict.accept ∧
      ∀ n, analyzeLR0 (loadEnv grammarEpsAB) T "ab" (5 + n)
        = ([⟨["$0"], "ab$", "S2"⟩,
            ⟨["$0", "a2"], "b$", "R0"⟩,
            ⟨["$0", "A0"], "b$", "S3"⟩,
            ⟨["$0", "A0", "b3"], "$", "R2"⟩,
            ⟨["$0", "A0", "S1"], "$", "acc"⟩], some Verdict.accept) := by
  refine ⟨⟨statesEpsAB, transitionsEpsAB, []⟩,
    constructLR0Table (loadEnv grammarEpsAB) statesEpsAB transitionsEpsAB,
    constructDFA_grammarEpsAB, by simp [buildTables, constructDFA_grammarEpsAB],
    by decide, by decide, by decide, ?_⟩
  have h : analyzeLR0 (loadEnv grammarEpsAB)
      (constructLR0Table (loadEnv grammarEpsAB) statesEpsAB transitionsEpsAB) "ab" 5 =
        ([⟨["$0"], "ab$", "S2"⟩,
            ⟨["$0", "a2"], "b$", "R0"⟩,
            ⟨["$0", "A0"], "b$", "S3"⟩,
            ⟨["$0", "A0", "b3"], "$", "R2"⟩,
            ⟨["$0", "A0", "S1"], "$", "acc"⟩], some Verdict.accept) := by
    decide
  exact fun n => analyzeLoop_fuel _ _ _ 5 _ _ _ _ n h

/-- C13: for `S -> a A | b`, `A -> #`, whose tables record no conflict, the
driver prints Accept on the input `ab`, which is not derivable from `S`: the
sentential forms derivable from `S` are `S`, `a A`, `b` and `a`. -/
theorem analyzeLR0_accepts_non_sentence :
    ∃ T, buildTables (loadEnv grammarEpsAB) = some T ∧ T.conflicts = [] ∧
      (∀ n, (analyzeLR0 (loadEnv grammarEpsAB) T "ab" (5 + n)).2 = some Verdict.accept) ∧
      ¬ Derives (loadEnv grammarEpsAB) ["S"] ["a", "b"] := by
  have h : (buildTables (loadEnv grammarEpsAB)).map
      (fun T => (T.conflicts, analyzeLR0 (loadEnv grammarEpsAB) T "ab" 5)) =
        some ([],
          [⟨["$0"], "ab$", "S2"⟩,
            ⟨["$0", "a2"], "b$", "R0"⟩,
            ⟨["$0", "A0"], "b$", "S3"⟩,
            ⟨["$0", "A0", "b3"], "$", "R2"⟩,
            ⟨["$0", "A0", "S1"], "$", "acc"⟩], some Verdict.accept) := by
    decide
  cases hT : buildTables (loadEnv grammarEpsAB) with
  | none => simp [hT] at h
  | some T =>
    simp only [hT, Option.map_some', Option.some.injEq, Prod.mk.injEq] at h
    refine ⟨T, rfl, h.1, ?_, ?_⟩
    · intro n
      have := analyzeLoop_fuel (loadEnv grammarEpsAB) T _ 5 _ _ _ _ n h.2
      unfold analyzeLR0
      rw [this]
    · intro hd
      have := derives_grammarEpsAB _ _ hd (by simp)
      revert this
      decide

/-- The end marker is a character of the buffer: the driver prints Accept when
it meets the first `$`, so for `S -> a A`, `A -> c A | d` the input `acd$zz`
is accepted after the seven steps of `acd`, its last three characters unread. -/
theorem analyzeLR0_stops_at_dollar :
    ∃ T, buildTables (loadEnv grammarSA) = some T ∧ T.conflicts = [] ∧
      ∀ n, (analyzeLR0 (loadEnv grammarSA) T "acd$zz" (7 + n)).2 = some Verdict.accept := by
  have h : (buildTables (loadEnv grammarSA)).map
      (fun T => (T.conflicts, (analyzeLR0 (loadEnv grammarSA) T "acd$zz" 7).2,
        ((analyzeLR0 (loadEnv grammarSA) T "acd$zz" 7).1.map (fun r => r.action)))) =
        some ([], some Verdict.accept, ["S2", "S4", "S5", "R1", "R0", "R2", "acc"]) := by
    decide
  cases hT : buildTables (loadEnv grammarSA) with
  | none => simp [hT] at h
  | some T =>
    simp only [hT, Option.map_some', Option.some.injEq, Prod.mk.injEq] at h
    refine ⟨T, rfl, h.1, ?_⟩
    intro n
    have hrun : analyzeLR0 (loadEnv grammarSA) T "acd$zz" 7
        = ((analyzeLR0 (loadEnv grammarSA) T "acd$zz" 7).1, some Verdict.accept) := by
      rw [← h.2.1]
    unfold analyzeLR0 at hrun ⊢
    rw [analyzeLoop_fuel _ _ _ 7 _ _ _ _ n hrun]

/-! ## analyzeLR0: the symbol looked up -/

theorem data_of_bytes_cons (a : String) (c : Char) (l : List Char) (hc : c.toNat < 128)
    (h : bytes a = c :: l) : ∃ rest, a.data = c :: rest := by
  obtain ⟨d⟩ := a
  cases d with
  | nil => simp [bytes] at h
  | cons x rest =>
    rw [bytes_mk_cons] at h
    by_cases hx : x.toNat < 128
    · rw [utf8_ascii x hx] at h
      simp only [List.singleton_append, List.cons.injEq] at h
      exact ⟨rest, by rw [h.1]⟩
    · exfalso
      obtain ⟨b, b1, r, e, hb⟩ := utf8_high x hx
      rw [e] at h
      simp only [List.cons_append, List.cons.injEq] at h
      rw [h.1] at hb
      omega

/-- A cell found for a byte is the cell of a key that has this single byte. -/
theorem actionByte_key (T : Tables) (i : Nat) (b : Char) (v : String)
    (h : T.actionByte i b = some v) :
    ∃ k : String, bytes k = [b] ∧ (bytes k).length = 1 ∧ T.action i k = some v := by
  rw [actionByte_eq] at h
  by_cases hb : b.toNat < 128
  · simp only [hb, if_true] at h
    have hk : bytes (String.mk [b]) = [b] := (bytes_eq_singleton _ b).2 ⟨hb, rfl⟩
    exact ⟨String.mk [b], hk, by rw [hk]; rfl, h⟩
  · simp [hb] at h

theorem analyzeStep_shift (G : Env) (T : Tables) (buffer : List Char) (stack : List String)
    (index : Nat) (stack1 : List String)
    (h : analyzeStep G T buffer stack index = Step.next stack1 (index + 1)) :
    ∃ (a : String) (l : List Char), lookupAction T buffer stack index = some a ∧
      bytes a = 'S' :: l ∧
      stack1 = String.mk (buffer.getD index (Char.ofNat 0) :: a.data.drop 1) :: stack := by
  unfold analyzeStep at h
  split at h
  · cases h
  · split at h
    · cases h
    · rename_i action hl
      split at h
      · rename_i l hdata
        simp only [Step.next.injEq, and_true] at h
        exact ⟨action, l, hl, hdata, h.symm⟩
      · split at h
        · cases h
        · split at h
          · cases h
          · split at h
            · split at h
              · cases h
              · split at h
                · cases h
                · simp only [Step.next.injEq] at h
                  omega
            · cases h
      · split at h <;> cases h

/-- C20, as the code has it: the symbol looked up in `actionTable` is the
string of one byte, the byte at the cursor in the bytes of the input followed
by `$`, or the byte 0 when the cursor stands at the end of that buffer; a
cell found for it belongs to a key of one byte; a shift step pushes that byte
with the state of the action found under such a key, so a terminal whose name
has not exactly one byte is never the symbol shifted; and for `E -> id` the
input `id` is rejected at the first step, although `actionTable[0]` holds a
shift for `id`. -/
theorem lookup_one_byte :
    (∀ (T : Tables) (buffer : List Char) (stack : List String) (index : Nat) (a : String),
      lookupAction T buffer stack index = some a →
      index ≤ buffer.length ∧
      ∃ (s : Int) (b : Char), a = T.actionAtByte s b ∧
        (index < buffer.length → buffer[index]? = some b) ∧
        (index = buffer.length → b = Char.ofNat 0)) ∧
    (∀ (T : Tables) (i : Nat) (b : Char) (v : String), T.actionByte i b = some v →
      ∃ k : String, bytes k = [b] ∧ (bytes k).length = 1 ∧ T.action i k = some v) ∧
    (∀ (G : Env) (T : Tables) (buffer : List Char) (stack : List String) (index : Nat)
        (stack1 : List String),
      analyzeStep G T buffer stack index = Step.next stack1 (index + 1) →
      ∃ (s : Nat) (b : Char) (k : String) (rest : List Char),
        b = buffer.getD index (Char.ofNat 0) ∧ bytes k = [b] ∧
        T.action s k = some (String.mk ('S' :: rest)) ∧
        stack1 = String.mk (b :: rest) :: stack ∧
        ∀ t : String, (bytes t).length ≠ 1 → k ≠ t) ∧
    (∃ T, buildTables (loadEnv grammarId) = some T ∧ T.action 0 "id" = some "S2" ∧
      (loadEnv grammarId).terminals = ["$", "id"] ∧
      ∀ n, analyzeLR0 (loadEnv grammarId) T "id" (1 + n)
        = ([⟨["$0"], "id$", ""⟩], some Verdict.error)) := by
  refine ⟨?_, actionByte_key, ?_, ?_⟩
  · intro T buffer stack index a h
    obtain ⟨top, below, s, _, hidx, _, ha⟩ := lookupAction_symbol T buffer stack index a h
    refine ⟨hidx, s, buffer.getD index (Char.ofNat 0), ha, ?_, ?_⟩
    · intro hlt
      rw [List.getD_eq_getElem?_getD, List.getElem?_eq_getElem hlt]
      rfl
    · intro he
      rw [List.getD_eq_getElem?_getD, List.getElem?_eq_none (by omega)]
      rfl
  · intro G T buffer stack index stack1 h
    obtain ⟨a, l, hl, hdata, hst⟩ := analyzeStep_shift G T buffer stack index stack1 h
    obtain ⟨top, below, s, _, _, _, ha⟩ := lookupAction_symbol T buffer stack index a hl
    obtain ⟨rest, hrest⟩ := data_of_bytes_cons a 'S' l (by decide) hdata
    have hne : a ≠ "" := by
      intro e
      rw [e] at hrest
      cases hrest
    have hs : ¬ s < 0 := by
      intro hs
      apply hne
      rw [ha]
      unfold Tables.actionAtByte
      simp [hs]
    have hsome : T.actionByte s.toNat (buffer.getD index (Char.ofNat 0)) = some a := by
      unfold Tables.actionAtByte at ha
      simp only [hs, if_false] at ha
      cases hc : T.actionByte s.toNat (buffer.getD index (Char.ofNat 0)) with
      | none =>
        rw [hc] at ha
        exact absurd ha hne
      | some v =>
        rw [hc] at ha
        rw [ha]
        rfl
    obtain ⟨k, hk, _, hact⟩ := actionByte_key T _ _ _ hsome
    have ha2 : a = String.mk ('S' :: rest) := by
      rw [← hrest]
    refine ⟨s.toNat, buffer.getD index (Char.ofNat 0), k, rest, rfl, hk, ?_, ?_, ?_⟩
    · rw [hact, ha2]
    · rw [hst, hrest]
      rfl
    · intro t ht e
      apply ht
      rw [← e, hk]
      rfl
  · have h : (buildTables (loadEnv grammarId)).map
        (fun T => (T.action 0 "id", analyzeLR0 (loadEnv grammarId) T "id" 1)) =
          some (some "S2", [⟨["$0"], "id$", ""⟩], some Verdict.error) := by
      decide
    cases hT : buildTables (loadEnv grammarId) with
    | none => simp [hT] at h
    | some T =>
      simp only [hT, Option.map_some', Option.some.injEq, Prod.mk.injEq] at h
      exact ⟨T, rfl, h.1, by decide, fun n => analyzeLoop_fuel _ _ _ 1 _ _ _ _ n h.2⟩

/-- At the first step of the driver on `a` for `S -> a A`, `A -> c A | d`, the
symbol looked up is the string of the byte `a`, the first byte of the buffer,
for which state 0 holds `S2`. -/
theorem lookup_one_byte_witness :
    lookupAction (constructLR0Table (loadEnv grammarSA) statesSA transitionsSA) ['a', '$']
      ["$0"] 0 = some "S2" ∧
    (0 ≤ ['a', '$'].length ∧
    ∃ (s : Int) (b : Char),
      "S2" = (constructLR0Table (loadEnv grammarSA) statesSA transitionsSA).actionAtByte s b ∧
        (0 < ['a', '$'].length → ['a', '$'][0]? = some b) ∧
        (0 = ['a', '$'].length → b = Char.ofNat 0)) :=
  ⟨by decide,
    lookup_one_byte.1 (constructLR0Table (loadEnv grammarSA) statesSA transitionsSA)
      ['a', '$'] ["$0"] 0 "S2" (by decide)⟩

/-- C20 fails as stated: for `S -> a $` and the input `a` the driver shifts
`a`, shifts `$`, and then looks up the byte 0 that `buffer[2]` yields where
the buffer `a$` ends: the symbol looked up is no character of the input
followed by `$`. -/
theorem lookup_past_end :
    ∃ T, buildTables (loadEnv grammarEnd) = some T ∧
      (∀ n, analyzeLR0 (loadEnv grammarEnd) T "a" (3 + n)
        = ([⟨["$0"], "a$", "S2"⟩, ⟨["$0", "a2"], "$", "S3"⟩, ⟨["$0", "a2", "$3"], "", ""⟩],
            some Verdict.error)) ∧
      bytes "a" ++ ['$'] = ['a', '$'] ∧
      lookupAction T ['a', '$'] ["$3", "a2", "$0"] 2
        = some (T.actionAtByte 3 (Char.ofNat 0)) ∧
      (['a', '$'] : List Char).getD 2 (Char.ofNat 0) = Char.ofNat 0 ∧
      Char.ofNat 0 ∉ (['a', '$'] : List Char) := by
  have h : (buildTables (loadEnv grammarEnd)).map
      (fun T => (analyzeLR0 (loadEnv grammarEnd) T "a" 3,
        decide (lookupAction T ['a', '$'] ["$3", "a2", "$0"] 2
          = some (T.actionAtByte 3 (Char.ofNat 0))))) =
        some (([⟨["$0"], "a$", "S2"⟩, ⟨["$0", "a2"], "$", "S3"⟩,
          ⟨["$0", "a2", "$3"], "", ""⟩], some Verdict.error), true) := by
    decide
  cases hT : buildTables (loadEnv grammarEnd) with
  | none => simp [hT] at h
  | some T =>
    simp only [hT, Option.map_some', Option.some.injEq, Prod.mk.injEq] at h
    exact ⟨T, rfl, fun n => analyzeLoop_fuel _ _ _ 3 _ _ _ _ n h.1, by decide,
      of_decide_eq_true h.2, by decide, by decide⟩

/-! ## constructLR0Table: conflicts and proposals -/

theorem clash_nil : ¬ Clash [] := by
  rintro (⟨a, ha, _⟩ | h)
  · simp at ha
  · simp at h

theorem clash_single (a : String) : ¬ Clash [a] := by
  rintro (⟨x, hx, y, hy, hne⟩ | h)
  · rw [List.mem_singleton.1 hx, List.mem_singleton.1 hy] at hne
    exact hne rfl
  · have : List.count "acc" [a] ≤ 1 := by
      rw [List.count_cons]
      simp only [List.count_nil]
      split <;> omega
    omega

theorem clash_append (a : String) (rest : List String) (b : String) :
    Clash ((a :: rest) ++ [b]) ↔ Clash (a :: rest) ∨ b ≠ a ∨ b = "acc" := by
  constructor
  · rintro (⟨x, hx, y, hy, hne⟩ | h)
    · by_cases hba : b = a
      · subst hba
        left
        left
        rcases List.mem_append.1 hx with hx1 | hx1
        · rcases List.mem_append.1 hy with hy1 | hy1
          · exact ⟨x, hx1, y, hy1, hne⟩
          · rw [List.mem_singleton.1 hy1] at hne
            exact ⟨x, hx1, b, List.mem_cons_self _ _, hne⟩
        · rw [List.mem_singleton.1 hx1] at hne
          rcases List.mem_append.1 hy with hy1 | hy1
          · exact ⟨b, List.mem_cons_self _ _, y, hy1, hne⟩
          · rw [List.mem_singleton.1 hy1] at hne
            exact absurd rfl hne
      · exact Or.inr (Or.inl hba)
    · by_cases hb : b = "acc"
      · exact Or.inr (Or.inr hb)
      · left
        right
        rw [List.count_append] at h
        have : List.count "acc" [b] = 0 := by
          rw [List.count_cons]
          simp only [List.count_nil]
          have : ¬ ((b == "acc") = true) := by simpa using hb
          simp [this]
        omega
  · intro h0
    rcases h0 with hc | h | h
    · unfold Clash at hc
      rcases hc with ⟨x, hx, y, hy, hne⟩ | h
      · exact Or.inl ⟨x, List.mem_append_left _ hx, y, List.mem_append_left _ hy, hne⟩
      · right
        rw [List.count_append]
        omega
    · exact Or.inl ⟨b, by simp, a, by simp, h⟩
    · subst h
      by_cases ha : a = "acc"
      · subst ha
        right
        rw [List.count_append, List.count_cons]
        simp
      · exact Or.inl ⟨a, by simp, "acc", by simp, ha⟩

theorem cellOf_append (P : List (String × String)) (s a sym : String) :
    cellOf (P ++ [(s, a)]) sym = cellOf P sym ++ (if s = sym then [a] else []) := by
  unfold cellOf
  rw [List.filter_append, List.map_append]
  congr 1
  by_cases h : s = sym
  · simp [List.filter, h]
  · simp [List.filter, h]

theorem cellOf_append_list (P Q : List (String × String)) (sym : String) :
    cellOf (P ++ Q) sym = cellOf P sym ++ cellOf Q sym := by
  unfold cellOf
  rw [List.filter_append, List.map_append]

theorem head?_eq_none_nil {α : Type} (l : List α) (h : none = l.head?) : l = [] := by
  cases l with
  | nil => rfl
  | cons x xs => cases h

theorem head?_eq_some_cons {α : Type} (l : List α) (a : α) (h : some a = l.head?) :
    ∃ rest, l = a :: rest := by
  cases l with
  | nil => cases h
  | cons x xs =>
    simp only [List.head?_cons, Option.some.injEq] at h
    exact ⟨xs, by rw [h]⟩

theorem propose_action_other (T : Tables) (i j : Nat) (s sym a : String)
    (h : ¬ (j = i ∧ sym = s)) : (T.propose i s a).action j sym = T.action j sym := by
  unfold Tables.propose
  cases T.action i s with
  | none => simp only [action_setAction, h, if_false]
  | some old =>
    simp only
    split
    · rfl
    · simp only [action_setAction, h, if_false]

theorem proposeAccept_action_other (T : Tables) (i j : Nat) (sym : String)
    (h : ¬ (j = i ∧ sym = "$")) : (T.proposeAccept i).action j sym = T.action j sym := by
  unfold Tables.proposeAccept
  cases T.action i "$" with
  | none => simp only [action_setAction, h, if_false]
  | some old => rfl

theorem mem_propose_conflicts (T : Tables) (i : Nat) (s a : String) (c : Conflict)
    (h : c ∈ (T.propose i s a).conflicts) : c ∈ T.conflicts ∨ (c.state = i ∧ c.symbol = s) := by
  unfold Tables.propose at h
  cases hold : T.action i s with
  | none =>
    rw [hold] at h
    exact Or.inl h
  | some old =>
    rw [hold] at h
    simp only at h
    split at h
    · rcases List.mem_append.1 h with h1 | h1
      · exact Or.inl h1
      · rw [List.mem_singleton.1 h1]
        exact Or.inr ⟨rfl, rfl⟩
    · exact Or.inl h

theorem mem_proposeAccept_conflicts (T : Tables) (i : Nat) (c : Conflict)
    (h : c ∈ (T.proposeAccept i).conflicts) :
    c ∈ T.conflicts ∨ (c.state = i ∧ c.symbol = "$") := by
  unfold Tables.proposeAccept at h
  cases hold : T.action i "$" with
  | none =>
    rw [hold] at h
    exact Or.inl h
  | some old =>
    rw [hold] at h
    rcases List.mem_append.1 h with h1 | h1
    · exact Or.inl h1
    · rw [List.mem_singleton.1 h1]
      exact Or.inr ⟨rfl, rfl⟩

/-- The conflict-checked write of an action other than `acc` adds it to the
proposals of its cell. -/
theorem cellInv_propose (i : Nat) (T : Tables) (P : List (String × String)) (s a : String)
    (h : CellInv i T P) (hne : a ≠ "acc") : CellInv i (T.propose i s a) (P ++ [(s, a)]) := by
  intro sym
  rw [cellOf_append]
  obtain ⟨hact, hconf⟩ := h sym
  by_cases hs : s = sym
  · subst hs
    simp only [if_true]
    cases hold : T.action i s with
    | none =>
      rw [hold] at hact
      have hnil := head?_eq_none_nil _ hact
      rw [hnil] at hconf ⊢
      have hp : T.propose i s a = T.setAction i s a := by
        unfold Tables.propose
        rw [hold]
      rw [hp]
      refine ⟨by simp [action_setAction], ?_⟩
      constructor
      · intro hc
        exact absurd (hconf.1 hc) clash_nil
      · intro hc
        exact absurd hc (clash_single a)
    | some old =>
      rw [hold] at hact
      obtain ⟨rest, hcell⟩ := head?_eq_some_cons _ _ hact
      rw [hcell] at hconf ⊢
      by_cases hoa : old = a
      · subst hoa
        have hp : T.propose i s old = T.setAction i s old := by
          unfold Tables.propose
          rw [hold]
          simp
        rw [hp]
        refine ⟨by simp [action_setAction], ?_⟩
        rw [clash_append]
        constructor
        · intro hc
          exact Or.inl (hconf.1 hc)
        · rintro (hc | hc | hc)
          · exact hconf.2 hc
          · exact absurd rfl hc
          · exact absurd hc hne
      · have hp : T.propose i s a
            = { T with conflicts := T.conflicts ++ [⟨i, s, old, a⟩] } := by
          unfold Tables.propose
          rw [hold]
          simp [hoa]
        rw [hp]
        refine ⟨?_, ?_⟩
        · show T.action i s = _
          rw [hold]
          rfl
        · constructor
          · intro _
            exact (clash_append old rest a).2 (Or.inr (Or.inl (Ne.symm hoa)))
          · intro _
            exact ⟨⟨i, s, old, a⟩, by simp, rfl, rfl⟩
  · simp only [hs, if_false, List.append_nil]
    refine ⟨?_, ?_⟩
    · rw [propose_action_other T i i s sym a (by intro hh; exact hs hh.2.symm)]
      exact hact
    · rw [← hconf]
      constructor
      · rintro ⟨c, hc, h1, h2⟩
        rcases mem_propose_conflicts T i s a c hc with h3 | h3
        · exact ⟨c, h3, h1, h2⟩
        · exact absurd (h3.2.symm.trans h2) hs
      · rintro ⟨c, hc, h1, h2⟩
        exact ⟨c, (ext_propose T i s a).conflicts c hc, h1, h2⟩

/-- The conflict-checked write of the accept action adds `acc` to the
proposals of the cell of "$". -/
theorem cellInv_proposeAccept (i : Nat) (T : Tables) (P : List (String × String))
    (h : CellInv i T P) : CellInv i (T.proposeAccept i) (P ++ [("$", "acc")]) := by
  intro sym
  rw [cellOf_append]
  obtain ⟨hact, hconf⟩ := h sym
  by_cases hs : "$" = sym
  · subst hs
    simp only [if_true]
    cases hold : T.action i "$" with
    | none =>
      rw [hold] at hact
      have hnil := head?_eq_none_nil _ hact
      rw [hnil] at hconf ⊢
      have hp : T.proposeAccept i = T.setAction i "$" "acc" := by
        unfold Tables.proposeAccept
        rw [hold]
      rw [hp]
      refine ⟨by simp [action_setAction], ?_⟩
      constructor
      · intro hc
        exact absurd (hconf.1 hc) clash_nil
      · intro hc
        exact absurd hc (clash_single "acc")
    | some old =>
      rw [hold] at hact
      obtain ⟨rest, hcell⟩ := head?_eq_some_cons _ _ hact
      rw [hcell] at hconf ⊢
      have hp : T.proposeAccept i
          = { T with conflicts := T.conflicts ++ [⟨i, "$", old, "acc"⟩] } := by
        unfold Tables.proposeAccept
        rw [hold]
      rw [hp]
      refine ⟨?_, ?_⟩
      · show T.action i "$" = _
        rw [hold]
        rfl
      · constructor
        · intro _
          exact (clash_append old rest "acc").2 (Or.inr (Or.inr rfl))
        · intro _
          exact ⟨⟨i, "$", old, "acc"⟩, by simp, rfl, rfl⟩
  · simp only [hs, if_false, List.append_nil]
    refine ⟨?_, ?_⟩
    · rw [proposeAccept_action_other T i i sym (by intro hh; exact hs hh.2.symm)]
      exact hact
    · rw [← hconf]
      constructor
      · rintro ⟨c, hc, h1, h2⟩
        rcases mem_proposeAccept_conflicts T i c hc with h3 | h3
        · exact ⟨c, h3, h1, h2⟩
        · exact absurd (h3.2.symm.trans h2) hs
      · rintro ⟨c, hc, h1, h2⟩
        exact ⟨c, (ext_proposeAccept T i).conflicts c hc, h1, h2⟩

theorem trSame_refl (t : List ((Nat × String) × Nat)) : TrSame t t := fun _ => rfl

theorem trSame_trans {t1 t2 t3 : List ((Nat × String) × Nat)} (h1 : TrSame t1 t2)
    (h2 : TrSame t2 t3) : TrSame t1 t3 := fun k => (h1 k).trans (h2 k)

theorem sameRow_refl (i : Nat) (T : Tables) : SameRow i T T :=
  ⟨fun _ => rfl, fun _ _ => Iff.rfl⟩

theorem sameRow_trans {i : Nat} {T T1 T2 : Tables} (h1 : SameRow i T T1)
    (h2 : SameRow i T1 T2) : SameRow i T T2 :=
  ⟨fun sym => (h2.1 sym).trans (h1.1 sym), fun c hc => (h2.2 c hc).trans (h1.2 c hc)⟩

theorem sameRow_of_eq (i : Nat) (T T1 : Tables) (ha : T1.actionTable = T.actionTable)
    (hc : T1.conflicts = T.conflicts) : SameRow i T T1 := by
  refine ⟨fun sym => ?_, fun c _ => by rw [hc]⟩
  unfold Tables.action
  rw [ha]

theorem frame_refl (j : Nat) (T : Tables) : Frame j T T :=
  ⟨trSame_refl _, fun i _ => sameRow_refl i T⟩

theorem frame_trans {j : Nat} {T T1 T2 : Tables} (h1 : Frame j T T1) (h2 : Frame j T1 T2) :
    Frame j T T2 :=
  ⟨trSame_trans h2.1 h1.1, fun i hi => sameRow_trans (h1.2 i hi) (h2.2 i hi)⟩

theorem cellInv_of_sameRow (i : Nat) (T T1 : Tables) (P : List (String × String))
    (h : SameRow i T T1) (hc : CellInv i T P) : CellInv i T1 P := by
  intro sym
  obtain ⟨h1, h2⟩ := hc sym
  refine ⟨(h.1 sym).trans h1, ?_⟩
  rw [← h2]
  constructor
  · rintro ⟨c, hc, hs, hy⟩
    exact ⟨c, (h.2 c hs).1 hc, hs, hy⟩
  · rintro ⟨c, hc, hs, hy⟩
    exact ⟨c, (h.2 c hs).2 hc, hs, hy⟩

theorem propose_transitions (T : Tables) (i : Nat) (s a : String) :
    (T.propose i s a).transitions = T.transitions := by
  unfold Tables.propose
  cases T.action i s with
  | none => rfl
  | some old =>
    simp only
    split <;> rfl

theorem proposeAccept_transitions (T : Tables) (i : Nat) :
    (T.proposeAccept i).transitions = T.transitions := by
  unfold Tables.proposeAccept
  cases T.action i "$" <;> rfl

theorem frame_propose (j : Nat) (T : Tables) (s a : String) : Frame j T (T.propose j s a) := by
  refine ⟨by rw [propose_transitions]; exact trSame_refl _, fun i hi => ⟨fun sym => ?_, ?_⟩⟩
  · exact propose_action_other T j i s sym a (fun h => hi h.1)
  · intro c hc
    constructor
    · intro h
      rcases mem_propose_conflicts T j s a c h with h1 | h1
      · exact h1
      · exact absurd (hc.symm.trans h1.1) hi
    · exact (ext_propose T j s a).conflicts c

theorem frame_proposeAccept (j : Nat) (T : Tables) : Frame j T (T.proposeAccept j) := by
  refine ⟨by rw [proposeAccept_transitions]; exact trSame_refl _,
    fun i hi => ⟨fun sym => ?_, ?_⟩⟩
  · exact proposeAccept_action_other T j i sym (fun h => hi h.1)
  · intro c hc
    constructor
    · intro h
      rcases mem_proposeAccept_conflicts T j c h with h1 | h1
      · exact h1
      · exact absurd (hc.symm.trans h1.1) hi
    · exact (ext_proposeAccept T j).conflicts c

theorem transitionAt_fst (T : Tables) (i : Nat) (s : String) :
    (T.transitionAt i s).1 = (mapFind (i, s) T.transitions).getD 0 := by
  unfold Tables.transitionAt
  cases mapFind (i, s) T.transitions <;> rfl

theorem transitionAt_actionTable (T : Tables) (i : Nat) (s : String) :
    (T.transitionAt i s).2.actionTable = T.actionTable ∧
      (T.transitionAt i s).2.conflicts = T.conflicts := by
  unfold Tables.transitionAt
  cases mapFind (i, s) T.transitions <;> exact ⟨rfl, rfl⟩

theorem transitionAt_trSame (T : Tables) (i : Nat) (s : String) :
    TrSame (T.transitionAt i s).2.transitions T.transitions := by
  unfold Tables.transitionAt
  cases h : mapFind (i, s) T.transitions with
  | some n => exact trSame_refl _
  | none =>
    intro k
    simp only
    by_cases hk : k = (i, s)
    · subst hk
      rw [mapFind_mapSet_self, h]
      rfl
    · rw [mapFind_mapSet_ne _ _ _ _ _ hk]

theorem frame_transitionAt (j i : Nat) (T : Tables) (s : String) :
    Frame j T (T.transitionAt i s).2 :=
  ⟨transitionAt_trSame T i s, fun i1 _ =>
    sameRow_of_eq i1 T _ (transitionAt_actionTable T i s).1 (transitionAt_actionTable T i s).2⟩

theorem frame_tableShift (G : Env) (j : Nat) (item : Item) (T : Tables) :
    Frame j T (tableShift G j item T) := by
  unfold tableShift
  split
  · split
    · exact frame_trans (frame_transitionAt j j T _) (frame_propose j _ _ _)
    · exact frame_refl j T
  · exact frame_refl j T

theorem frame_tableReduceAll (j idx : Nat) (terms : List String) (T : Tables) :
    Frame j T (tableReduceAll j idx terms T) := by
  induction terms generalizing T with
  | nil => exact frame_refl j T
  | cons t rest ih => exact frame_trans (frame_propose j T t _) (ih _)

theorem frame_tableReduce (G : Env) (j : Nat) (item : Item) (gs : List Grammar) :
    ∀ (idx : Nat) (T : Tables), Frame j T (tableReduce G j item idx gs T) := by
  induction gs with
  | nil => intro idx T; exact frame_refl j T
  | cons g rest ih =>
    intro idx T
    unfold tableReduce
    split
    · exact frame_trans (frame_tableReduceAll j idx G.terminals T) (ih _ _)
    · exact ih _ _

theorem frame_tableItem (G : Env) (j : Nat) (item : Item) (T : Tables) :
    Frame j T (tableItem G j item T) := by
  unfold tableItem
  split
  · split
    · exact frame_trans (frame_tableShift G j item T) (frame_tableReduce G j item _ _ _)
    · exact frame_trans (frame_tableShift G j item T) (frame_proposeAccept j _)
  · exact frame_tableShift G j item T

theorem frame_tableItems (G : Env) (j : Nat) (items : List Item) (T : Tables) :
    Frame j T (items.foldl (fun T item => tableItem G j item T) T) := by
  induction items generalizing T with
  | nil => exact frame_refl j T
  | cons it rest ih => exact frame_trans (frame_tableItem G j it T) (ih _)

theorem tableGoto_fields (i : Nat) (nts : List String) (T : Tables) :
    (tableGoto i nts T).actionTable = T.actionTable ∧
      (tableGoto i nts T).conflicts = T.conflicts ∧
      (tableGoto i nts T).transitions = T.transitions := by
  induction nts generalizing T with
  | nil => exact ⟨rfl, rfl, rfl⟩
  | cons nt rest ih =>
    unfold tableGoto
    split
    · exact ih _
    · exact ih _

theorem frame_tableGoto (j i : Nat) (nts : List String) (T : Tables) :
    Frame j T (tableGoto i nts T) := by
  obtain ⟨h1, h2, h3⟩ := tableGoto_fields i nts T
  exact ⟨by rw [h3]; exact trSame_refl _, fun i1 _ => sameRow_of_eq i1 T _ h1 h2⟩

/-- The loop over the states from index `k` on leaves the rows and conflict
lines of the states below `k` as they are. -/
theorem sameRow_tableStates (G : Env) (sts : List (List Item)) :
    ∀ (k : Nat) (T : Tables) (i : Nat), i < k →
      SameRow i T (tableStates G k sts T) ∧
        TrSame (tableStates G k sts T).transitions T.transitions := by
  induction sts with
  | nil => intro k T i _; exact ⟨sameRow_refl i T, trSame_refl _⟩
  | cons items rest ih =>
    intro k T i hi
    unfold tableStates
    have hf := frame_trans (frame_tableItems G k items T) (frame_tableGoto k k G.nonTerminals _)
    obtain ⟨h1, h2⟩ := ih (k + 1) _ i (by omega)
    exact ⟨sameRow_trans (hf.2 i (by omega)) h1, trSame_trans h2 hf.1⟩

theorem shift_ne_acc (n : Nat) : "S" ++ toString n ≠ "acc" := by
  intro h
  have h1 := congrArg String.data h
  simp only [String.data_append] at h1
  exact absurd (List.cons.inj h1).1 (by decide)

theorem reduce_ne_acc (n : Nat) : "R" ++ toString n ≠ "acc" := by
  intro h
  have h1 := congrArg String.data h
  simp only [String.data_append] at h1
  exact absurd (List.cons.inj h1).1 (by decide)

theorem cellInv_tableShift (G : Env) (tr : List ((Nat × String) × Nat)) (i : Nat) (item : Item)
    (T : Tables) (P : List (String × String)) (h : CellInv i T P)
    (ht : TrSame T.transitions tr) :
    CellInv i (tableShift G i item T) (P ++ shiftProposals G tr i item) := by
  unfold tableShift shiftProposals
  cases item.next with
  | none => simpa using h
  | some symbol =>
    simp only
    by_cases hs : symbol ∈ G.terminals
    · simp only [hs, if_true]
      rw [transitionAt_fst, ht (i, symbol)]
      apply cellInv_propose _ _ _ _ _ _ (shift_ne_acc _)
      exact cellInv_of_sameRow i T _ P
        (sameRow_of_eq i T _ (transitionAt_actionTable T i symbol).1
          (transitionAt_actionTable T i symbol).2) h
    · simp only [hs, if_false]
      simpa using h

theorem cellInv_tableReduceAll (i idx : Nat) (terms : List String) :
    ∀ (T : Tables) (P : List (String × String)), CellInv i T P →
      CellInv i (tableReduceAll i idx terms T)
        (P ++ terms.map (fun t => (t, "R" ++ toString idx))) := by
  induction terms with
  | nil => intro T P h; simpa [tableReduceAll] using h
  | cons t rest ih =>
    intro T P h
    have h1 := ih _ _ (cellInv_propose i T P t ("R" ++ toString idx) h (reduce_ne_acc idx))
    simpa [tableReduceAll, List.append_assoc] using h1

theorem cellInv_tableReduce (G : Env) (i : Nat) (item : Item) (gs : List Grammar) :
    ∀ (idx : Nat) (T : Tables) (P : List (String × String)), CellInv i T P →
      CellInv i (tableReduce G i item idx gs T)
        (P ++ (((gs.enumFrom idx).filter
          (fun e => decide (e.2.value = item.head ∧ e.2.right.head? = some item.production))).map
            Prod.fst).flatMap (fun idx => G.terminals.map (fun t => (t, "R" ++ toString idx)))) := by
  induction gs with
  | nil => intro idx T P h; simpa [tableReduce] using h
  | cons g rest ih =>
    intro idx T P h
    unfold tableReduce
    by_cases hm : g.value = item.head ∧ g.right.head? = some item.production
    · simp only [hm, and_self, if_true]
      have h1 := ih (idx + 1) _ _ (cellInv_tableReduceAll i idx G.terminals T P h)
      simpa [List.enumFrom, List.filter, hm, List.append_assoc] using h1
    · simp only [hm, if_false]
      have h1 := ih (idx + 1) T P h
      simpa [List.enumFrom, List.filter, hm] using h1

theorem cellInv_tableItem (G : Env) (tr : List ((Nat × String) × Nat)) (i : Nat) (item : Item)
    (T : Tables) (P : List (String × String)) (h : CellInv i T P)
    (ht : TrSame T.transitions tr) :
    CellInv i (tableItem G i item T) (P ++ itemProposals G tr i item) := by
  have hs := cellInv_tableShift G tr i item T P h ht
  unfold tableItem itemProposals
  by_cases hc : item.complete = true
  · simp only [hc, if_true]
    by_cases hh : item.head ≠ G.startSymbol
    · rw [if_pos hh, if_pos hh]
      have h1 := cellInv_tableReduce G i item G.grammarindex 0 _ _ hs
      rw [← List.append_assoc]
      exact h1
    · rw [if_neg hh, if_neg hh]
      have h1 := cellInv_proposeAccept i _ _ hs
      rw [← List.append_assoc]
      exact h1
  · simp only [hc, Bool.false_eq_true, if_false, List.append_nil]
    exact hs

theorem cellInv_tableItems (G : Env) (tr : List ((Nat × String) × Nat)) (i : Nat)
    (items : List Item) :
    ∀ (T : Tables) (P : List (String × String)), CellInv i T P → TrSame T.transitions tr →
      CellInv i (items.foldl (fun T item => tableItem G i item T) T)
        (P ++ items.flatMap (itemProposals G tr i)) := by
  induction items with
  | nil => intro T P h _; simpa using h
  | cons it rest ih =>
    intro T P h ht
    have h1 := cellInv_tableItem G tr i it T P h ht
    have h2 := ih _ _ h1 (trSame_trans (frame_tableItem G i it T).1 ht)
    simpa [List.append_assoc] using h2

theorem cellInv_tableStates (G : Env) (tr : List ((Nat × String) × Nat))
    (sts : List (List Item)) :
    ∀ (k : Nat) (T : Tables), TrSame T.transitions tr →
      ∀ (i : Nat) (items : List Item), k ≤ i → sts[i - k]? = some items → CellInv i T [] →
        CellInv i (tableStates G k sts T) (items.flatMap (itemProposals G tr i)) := by
  induction sts with
  | nil => intro k T _ i items _ h; simp at h
  | cons s0 rest ih =>
    intro k T ht i items hk hi hc
    unfold tableStates
    have hf := frame_trans (frame_tableItems G k s0 T) (frame_tableGoto k k G.nonTerminals _)
    by_cases hik : i = k
    · subst hik
      simp only [Nat.sub_self, List.getElem?_cons_zero, Option.some.injEq] at hi
      subst hi
      have h1 := cellInv_tableItems G tr i s0 T [] hc ht
      simp only [List.nil_append] at h1
      obtain ⟨hg1, hg2, _⟩ := tableGoto_fields i G.nonTerminals
        (s0.foldl (fun T item => tableItem G i item T) T)
      have h2 := cellInv_of_sameRow i _ _ _ (sameRow_of_eq i _ _ hg1 hg2) h1
      exact cellInv_of_sameRow i _ _ _ (sameRow_tableStates G rest (i + 1) _ i (by omega)).1 h2
    · have hlt : k < i := by omega
      have h1 : CellInv i (tableGoto k G.nonTerminals
          (s0.foldl (fun T item => tableItem G k item T) T)) [] :=
        cellInv_of_sameRow i T _ [] (hf.2 i hik) hc
      apply ih (k + 1) _ (trSame_trans hf.1 ht) i items (by omega) _ h1
      have he : i - k = (i - (k + 1)) + 1 := by omega
      rw [he, List.getElem?_cons_succ] at hi
      exact hi

theorem cellInv_empty (tr : List ((Nat × String) × Nat)) (i : Nat) :
    CellInv i ⟨tr, [], [], []⟩ [] := by
  intro sym
  refine ⟨rfl, ?_⟩
  constructor
  · rintro ⟨c, hc, _⟩
    simp at hc
  · intro h
    exact absurd h clash_nil

/-- C7, as the code has it: for every grammar, state `i` and symbol,
`constructLR0Table` records a conflict for the cell exactly when two different
actions are proposed for it by the items of state `i`, or the accept action is
proposed for it twice; when an action is proposed for the cell, the cell holds
the first one proposed; when none is, the cell is absent. The construction
goes through all states: this holds for every state of the list. -/
theorem constructLR0Table_conflicts (G : Env) (states : List (List Item))
    (transitions : List ((Nat × String) × Nat)) (i : Nat) (items : List Item) (sym : String)
    (h : states[i]? = some items) :
    ((∃ c ∈ (constructLR0Table G states transitions).conflicts, c.state = i ∧ c.symbol = sym) ↔
      ((∃ a ∈ cellProposals G transitions i items sym,
          ∃ b ∈ cellProposals G transitions i items sym, a ≠ b) ∨
        2 ≤ (cellProposals G transitions i items sym).count "acc")) ∧
    (∀ a rest, cellProposals G transitions i items sym = a :: rest →
      (constructLR0Table G states transitions).action i sym = some a) ∧
    (cellProposals G transitions i items sym = [] →
      (constructLR0Table G states transitions).action i sym = none) := by
  have hc := cellInv_tableStates G transitions states 0 ⟨transitions, [], [], []⟩
    (trSame_refl _) i items (Nat.zero_le _) (by simpa using h) (cellInv_empty transitions i) sym
  refine ⟨hc.2, ?_, ?_⟩
  · intro a rest he
    have := hc.1
    unfold cellProposals at he
    rw [he] at this
    exact this
  · intro he
    have := hc.1
    unfold cellProposals at he
    rw [he] at this
    exact this

theorem constructDFA_grammarE :
    constructDFA (loadEnv grammarE) = some ⟨statesE, transitionsE, []⟩ := by
  have h : (constructDFA (loadEnv grammarE)).map
      (fun A => (A.states, A.transitions, A.worklist))
      = some (statesE, transitionsE, []) := by decide
  cases hA : constructDFA (loadEnv grammarE) with
  | none => simp [hA] at h
  | some A =>
    obtain ⟨s, t, w⟩ := A
    simp only [hA, Option.map_some', Option.some.injEq, Prod.mk.injEq] at h
    obtain ⟨h1, h2, h3⟩ := h
    subst h1; subst h2; subst h3
    rfl

/-- In state 4 of `E -> E + E | id` the item `E -> E . + E` proposes `S3` and
the item `E -> E + E .` proposes `R0` for the cell of `+`: the conflict is
recorded and the cell holds `S3`, the first of the two. -/
theorem constructLR0Table_conflicts_witness :
    constructDFA (loadEnv grammarE) = some ⟨statesE, transitionsE, []⟩ ∧
    statesE[4]? = some [⟨"E", ["E", "+", "E"], 1⟩, ⟨"E", ["E", "+", "E"], 3⟩] ∧
    cellProposals (loadEnv grammarE) transitionsE 4
      [⟨"E", ["E", "+", "E"], 1⟩, ⟨"E", ["E", "+", "E"], 3⟩] "+" = ["S3", "R0"] ∧
    (constructLR0Table (loadEnv grammarE) statesE transitionsE).conflicts
      = [⟨4, "+", "S3", "R0"⟩] ∧
    (((∃ c ∈ (constructLR0Table (loadEnv grammarE) statesE transitionsE).conflicts,
        c.state = 4 ∧ c.symbol = "+") ↔
      ((∃ a ∈ cellProposals (loadEnv grammarE) transitionsE 4
            [⟨"E", ["E", "+", "E"], 1⟩, ⟨"E", ["E", "+", "E"], 3⟩] "+",
          ∃ b ∈ cellProposals (loadEnv grammarE) transitionsE 4
            [⟨"E", ["E", "+", "E"], 1⟩, ⟨"E", ["E", "+", "E"], 3⟩] "+", a ≠ b) ∨
        2 ≤ (cellProposals (loadEnv grammarE) transitionsE 4
            [⟨"E", ["E", "+", "E"], 1⟩, ⟨"E", ["E", "+", "E"], 3⟩] "+").count "acc")) ∧
    (∀ a rest, cellProposals (loadEnv grammarE) transitionsE 4
        [⟨"E", ["E", "+", "E"], 1⟩, ⟨"E", ["E", "+", "E"], 3⟩] "+" = a :: rest →
      (constructLR0Table (loadEnv grammarE) statesE transitionsE).action 4 "+" = some a) ∧
    (cellProposals (loadEnv grammarE) transitionsE 4
        [⟨"E", ["E", "+", "E"], 1⟩, ⟨"E", ["E", "+", "E"], 3⟩] "+" = [] →
      (constructLR0Table (loadEnv grammarE) statesE transitionsE).action 4 "+" = none)) :=
  ⟨constructDFA_grammarE, by decide, by decide, by decide,
    constructLR0Table_conflicts (loadEnv grammarE) statesE transitionsE 4
      [⟨"E", ["E", "+", "E"], 1⟩, ⟨"E", ["E", "+", "E"], 3⟩] "+" (by decide)⟩

/-- C7 fails as stated: for the grammar `S -> a`, `S~ -> S~ S~ | S~ | #`,
state 1 holds the two complete start items `S~ -> # .` and `S~ -> S~ .`; the
actions proposed for the cell `(1, "$")` are `acc` and `acc`, no two of them
different, and `constructLR0Table` records a conflict for the cell, between
`acc` and `acc`. -/
theorem constructLR0Table_accept_twice :
    ∃ A T, constructDFA (loadEnv grammarTwoAccept) = some A ∧
      buildTables (loadEnv grammarTwoAccept) = some T ∧
      A.states[1]? = some [⟨"S~", ["S~"], 0⟩, ⟨"S~", ["S~", "S~"], 0⟩, ⟨"S~", ["#"], 1⟩,
        ⟨"S~", ["S~"], 1⟩, ⟨"S~", ["S~", "S~"], 1⟩] ∧
      (loadEnv grammarTwoAccept).startSymbol = "S~" ∧
      cellProposals (loadEnv grammarTwoAccept) A.transitions 1
        [⟨"S~", ["S~"], 0⟩, ⟨"S~", ["S~", "S~"], 0⟩, ⟨"S~", ["#"], 1⟩,
          ⟨"S~", ["S~"], 1⟩, ⟨"S~", ["S~", "S~"], 1⟩] "$" = ["acc", "acc"] ∧
      (¬ ∃ a ∈ (["acc", "acc"] : List String), ∃ b ∈ (["acc", "acc"] : List String), a ≠ b) ∧
      (∃ c ∈ T.conflicts, c.state = 1 ∧ c.symbol = "$") ∧
      (⟨1, "$", "acc", "acc"⟩ : Conflict) ∈ T.conflicts ∧
      T.action 1 "$" = some "acc" := by
  have h : (constructDFA (loadEnv grammarTwoAccept)).map (fun A =>
      (A.states[1]?, (constructLR0Table (loadEnv grammarTwoAccept) A.states A.transitions).conflicts,
        (constructLR0Table (loadEnv grammarTwoAccept) A.states A.transitions).action 1 "$",
        cellProposals (loadEnv grammarTwoAccept) A.transitions 1
          [⟨"S~", ["S~"], 0⟩, ⟨"S~", ["S~", "S~"], 0⟩, ⟨"S~", ["#"], 1⟩,
            ⟨"S~", ["S~"], 1⟩, ⟨"S~", ["S~", "S~"], 1⟩] "$"))
      = some (some [⟨"S~", ["S~"], 0⟩, ⟨"S~", ["S~", "S~"], 0⟩, ⟨"S~", ["#"], 1⟩,
          ⟨"S~", ["S~"], 1⟩, ⟨"S~", ["S~", "S~"], 1⟩],
        [⟨1, "$", "acc", "acc"⟩, ⟨2, "$", "acc", "acc"⟩, ⟨2, "$", "acc", "acc"⟩],
        some "acc", ["acc", "acc"]) := by decide
  cases hA : constructDFA (loadEnv grammarTwoAccept) with
  | none => simp [hA] at h
  | some A =>
    simp only [hA, Option.map_some', Option.some.injEq, Prod.mk.injEq] at h
    obtain ⟨h1, h2, h3, h4⟩ := h
    refine ⟨A, _, rfl, by simp [buildTables, hA], h1, by decide, h4, by decide, ?_, ?_, h3⟩
    · rw [h2]
      exact ⟨⟨1, "$", "acc", "acc"⟩, by simp, rfl, rfl⟩
    · rw [h2]
      simp

/-- The driver works on bytes: for `S -> é` the table holds a shift for `é`
in state 0, but on the input `é`, of the bytes 195 and 169, the driver looks
up the string of the byte 195 and prints Error; for `é -> a` on the input `a`
the reduce pushes the entry `é1`, whose `substr(1)` starts with the byte 169,
and the next iteration faults in `stoi`. -/
theorem analyzeLR0_two_byte_symbols :
    (bytes "é").map Char.toNat = [195, 169] ∧
    (∃ T, buildTables (loadEnv grammarTwoBytes) = some T ∧ T.action 0 "é" = some "S2" ∧
      ∀ n, analyzeLR0 (loadEnv grammarTwoBytes) T "é" (1 + n)
        = ([⟨["$0"], String.mk (bytes "é" ++ ['$']), ""⟩], some Verdict.error)) ∧
    (∃ T, buildTables (loadEnv grammarTwoByteHead) = some T ∧
      ∀ n, analyzeLR0 (loadEnv grammarTwoByteHead) T "a" (3 + n)
        = ([⟨["$0"], "a$", "S1"⟩, ⟨["$0", "a1"], "$", "R0"⟩], some Verdict.fault)) := by
  refine ⟨by decide, ?_, ?_⟩
  · have h : (buildTables (loadEnv grammarTwoBytes)).map
        (fun T => (T.action 0 "é", analyzeLR0 (loadEnv grammarTwoBytes) T "é" 1)) =
          some (some "S2", [⟨["$0"], String.mk (bytes "é" ++ ['$']), ""⟩],
            some Verdict.error) := by
      decide
    cases hT : buildTables (loadEnv grammarTwoBytes) with
    | none => simp [hT] at h
    | some T =>
      simp only [hT, Option.map_some', Option.some.injEq, Prod.mk.injEq] at h
      exact ⟨T, rfl, h.1, fun n => analyzeLoop_fuel _ _ _ 1 _ _ _ _ n h.2⟩
  · have h : (buildTables (loadEnv grammarTwoByteHead)).map
        (fun T => analyzeLR0 (loadEnv grammarTwoByteHead) T "a" 3) =
          some ([⟨["$0"], "a$", "S1"⟩, ⟨["$0", "a1"], "$", "R0"⟩], some Verdict.fault) := by
      decide
    cases hT : buildTables (loadEnv grammarTwoByteHead) with
    | none => simp [hT] at h
    | some T =>
      simp only [hT, Option.map_some', Option.some.injEq] at h
      exact ⟨T, rfl, fun n => analyzeLoop_fuel _ _ _ 3 _ _ _ _ n h⟩

end LR0
